import Mathlib

/-!
Verification of the senaite.core analysis-workflow cascade engine
(`src/bika/lims/workflow/analysis/events.py`) against its specification.

The Python module is shallowly embedded: entities are records, the world is a
record of entity tables plus a ghost event trace, and the transition invoker
`doActionFor` is a fuel-indexed interpreter.  Hooks from `events.py` are
translated function-by-function.  Collaborator code that is not part of the
excerpt (the transition guards, `doActionFor` plumbing, `create_retest`, the
dependency-graph accessor, worksheet duplicate lookup) is modelled from the
specification, as flagged in the corresponding doc comments.
-/

namespace Senaite

/-- Review states of an analysis (spec section 3 data model). -/
inductive AState where
  | unassigned | assigned | to_be_verified | verified
  | retracted | rejected | cancelled | published
deriving Repr, DecidableEq

/-- States of a worksheet (spec section 3). -/
inductive WSState where
  | open_ | to_be_verified | verified
deriving Repr, DecidableEq

/-- States of a sample / analysis request (spec section 3). -/
inductive SState where
  | received | to_be_verified | verified
deriving Repr, DecidableEq

/-- Transition names of the cascade engine. -/
inductive TName where
  | assign | unassign | submit | verify | retract | reject | retest
  | cancel | reinstate | publish | rollback_to_receive | rollback_to_open
deriving Repr, DecidableEq

/-- Capability marker names: the additive `alsoProvides` interfaces
`ISubmitted`, `IVerified`, `IRetracted`, `IRejected`. -/
inductive MName where
  | submittedM | verifiedM | retractedM | rejectedM
deriving Repr, DecidableEq

/-- The set of capability markers carried by one analysis. -/
structure Marks where
  submitted : Bool := false
  verified : Bool := false
  retracted : Bool := false
  rejected : Bool := false
deriving Repr, DecidableEq

def Marks.get (m : Marks) : MName → Bool
  | .submittedM => m.submitted
  | .verifiedM => m.verified
  | .retractedM => m.retracted
  | .rejectedM => m.rejected

def Marks.set (m : Marks) : MName → Marks
  | .submittedM => { m with submitted := true }
  | .verifiedM => { m with verified := true }
  | .retractedM => { m with retracted := true }
  | .rejectedM => { m with rejected := true }

/-- Reference to an entity: analysis, worksheet or sample/request. -/
inductive ERef where
  | an : Nat → ERef
  | ws : Nat → ERef
  | smp : Nat → ERef
deriving Repr, DecidableEq

/-- Ghost trace events recorded by the interpreter.  `invoked` carries a
snapshot of every analysis's marker set taken when the invocation enters
`doActionFor`. -/
inductive Ev where
  | invoked (e : ERef) (t : TName) (snap : List (Nat × Marks))
  | applied (e : ERef) (t : TName)
  | retested (orig newId : Nat)
  | reindexed (e : ERef)
  | visited (a : Nat)
deriving Repr, DecidableEq

/-- An analysis entity, with the fields `events.py` reads and writes. -/
structure Analysis where
  aid : Nat
  state : AState
  marks : Marks := {}
  resultCaptureDate : Option Nat := none
  requestId : Option Nat := none
  isRequestAnalysis : Bool := false
  isDuplicate : Bool := false
  parentIsSample : Bool := false
  duplicateOf : Option Nat := none
  worksheetId : Option Nat := none
  dependencies : List Nat := []
  dependents : List Nat := []
  attachments : List Nat := []
  retestOf : Option Nat := none
deriving Repr, DecidableEq

/-- A worksheet: batch container with an ordered membership list and a cached
layout that `purgeLayout` invalidates. -/
structure Worksheet where
  wid : Nat
  state : WSState
  members : List Nat
  layoutValid : Bool := true
deriving Repr, DecidableEq

/-- A sample / analysis request, with its ancestor chain for reindexing. -/
structure Sample where
  sid : Nat
  state : SState
  ancestors : List Nat := []
deriving Repr, DecidableEq

/-- An attachment; rejection/retraction hides it from the results report. -/
structure Attachment where
  atid : Nat
  renderInReport : Bool := true
deriving Repr, DecidableEq

/-- The whole entity repository plus the ghost trace. -/
structure World where
  analyses : List Analysis
  worksheets : List Worksheet := []
  samples : List Sample := []
  attachments : List Attachment := []
  autoVerifySamples : Bool := false
  clock : Nat := 0
  nextId : Nat := 1000
  trace : List Ev := []
deriving Repr, DecidableEq

def getAn (w : World) (i : Nat) : Option Analysis :=
  w.analyses.find? (fun a => a.aid = i)

def getWs (w : World) (i : Nat) : Option Worksheet :=
  w.worksheets.find? (fun x => x.wid = i)

def getSmp (w : World) (i : Nat) : Option Sample :=
  w.samples.find? (fun x => x.sid = i)

def updAn (w : World) (i : Nat) (f : Analysis → Analysis) : World :=
  { w with analyses := w.analyses.map (fun a => if a.aid = i then f a else a) }

def updWs (w : World) (i : Nat) (f : Worksheet → Worksheet) : World :=
  { w with worksheets := w.worksheets.map (fun x => if x.wid = i then f x else x) }

def updSmp (w : World) (i : Nat) (f : Sample → Sample) : World :=
  { w with samples := w.samples.map (fun x => if x.sid = i then f x else x) }

def logEv (w : World) (e : Ev) : World :=
  { w with trace := e :: w.trace }

def addMark (w : World) (i : Nat) (m : MName) : World :=
  updAn w i (fun a => { a with marks := a.marks.set m })

def setAnState (w : World) (i : Nat) (s : AState) : World :=
  updAn w i (fun a => { a with state := s })

def setCaptureDate (w : World) (i : Nat) : World :=
  updAn w i (fun a => { a with resultCaptureDate := some w.clock })

def setRenderOff (w : World) (i : Nat) : World :=
  { w with attachments :=
      w.attachments.map (fun at_ => if at_.atid = i then { at_ with renderInReport := false } else at_) }

def snapMarks (w : World) : List (Nat × Marks) :=
  w.analyses.map (fun a => (a.aid, a.marks))

def hasMarkOn (w : World) (i : Nat) (m : MName) : Bool :=
  match getAn w i with
  | some a => a.marks.get m
  | none => false

/-- An analysis state that counts as "already submitted". -/
def stateSubmitted : AState → Bool
  | .to_be_verified | .verified | .published => true
  | _ => false

/-- An analysis state that counts as "already verified". -/
def stateVerified : AState → Bool
  | .verified | .published => true
  | _ => false

/-- A state still contributing to container aggregation: not invalidated by
retraction, rejection or cancellation. -/
def validState : AState → Bool
  | .retracted | .rejected | .cancelled => false
  | _ => true

/-- Modelled from the spec: the Transition Guard for analyses (section 4.2),
a static table mapping current state and transition name to the target state,
`none` when the transition is unavailable.  The analysis workflow definition
itself is not part of the excerpt. -/
def anGuard : AState → TName → Option AState
  | .unassigned, .assign => some .assigned
  | .assigned, .unassign => some .unassigned
  | .unassigned, .submit => some .to_be_verified
  | .assigned, .submit => some .to_be_verified
  | .to_be_verified, .verify => some .verified
  | .to_be_verified, .retract => some .retracted
  | .verified, .retract => some .retracted
  | .unassigned, .reject => some .rejected
  | .assigned, .reject => some .rejected
  | .to_be_verified, .reject => some .rejected
  | .verified, .reject => some .rejected
  | .to_be_verified, .retest => some .verified
  | .unassigned, .cancel => some .cancelled
  | .assigned, .cancel => some .cancelled
  | .cancelled, .reinstate => some .unassigned
  | .verified, .publish => some .published
  | _, _ => none

/-- The member analyses of a worksheet, in membership order. -/
def wsMembers (w : World) (ws : Worksheet) : List Analysis :=
  ws.members.filterMap (getAn w)

/-- Modelled from the spec: the worksheet Transition Guard.  Per the source
docstring of `after_submit`, the worksheet guard "assures the transition to
the worksheet will only be performed if all analyses within the worksheet
have already been transitioned"; `rollback_to_open` fires when the membership
is empty (spec: empty membership implies state "open"). -/
def wsGuard (w : World) (ws : Worksheet) : TName → Option WSState
  | .submit =>
    if ws.state = .open_ ∧ ws.members ≠ [] ∧
        (wsMembers w ws).all (fun a => !validState a.state || stateSubmitted a.state) then
      some .to_be_verified
    else none
  | .verify =>
    if ws.state = .to_be_verified ∧
        (wsMembers w ws).all (fun a => !validState a.state || stateVerified a.state) then
      some .verified
    else none
  | .rollback_to_open =>
    if ws.state ≠ .open_ ∧ ws.members = [] then some .open_ else none
  | _ => none

/-- The analyses contained directly in a sample (`sample.getAnalyses()`):
worksheet duplicates and references live on worksheets, not on samples. -/
def sampleAnalyses (w : World) (sid : Nat) : List Analysis :=
  w.analyses.filter (fun a => a.requestId == some sid && a.parentIsSample)

/-- The valid (non-retracted, non-rejected, non-cancelled) analyses of a
sample. -/
def validSampleAnalyses (w : World) (sid : Nat) : List Analysis :=
  (sampleAnalyses w sid).filter (fun a => validState a.state)

/-- Modelled from the spec: the sample/request Transition Guard.  The sample
workflow is not part of the excerpt; the guard conditions follow the source
comments in `after_reject`: "Try verify (for when remaining analyses are in
'verified')", "Try submit (remaining analyses are in 'to_be_verified')",
"Try rollback (no remaining analyses or some not submitted)". -/
def smpGuard (w : World) (s : Sample) : TName → Option SState
  | .submit =>
    if s.state = .received ∧ validSampleAnalyses w s.sid ≠ [] ∧
        (validSampleAnalyses w s.sid).all (fun a => stateSubmitted a.state) then
      some .to_be_verified
    else none
  | .verify =>
    if s.state = .to_be_verified ∧ validSampleAnalyses w s.sid ≠ [] ∧
        (validSampleAnalyses w s.sid).all (fun a => stateVerified a.state) then
      some .verified
    else none
  | .rollback_to_receive =>
    if s.state = .to_be_verified ∧
        (validSampleAnalyses w s.sid = [] ∨
          ¬ (validSampleAnalyses w s.sid).all (fun a => stateSubmitted a.state)) then
      some .received
    else none
  | _ => none

/-- Modelled from the spec: the Dependency Graph Accessor's recursive walk,
pre-order over declared direct links, bounded by a fuel argument. -/
def transRel (sel : Analysis → List Nat) (w : World) : Nat → Nat → List Nat
  | 0, _ => []
  | fuel + 1, i =>
    match getAn w i with
    | none => []
    | some a => (sel a).flatMap (fun d => d :: transRel sel w fuel d)

/-- `analysis.getDependents(recursive=True)`: direct dependents first, deeper
dependents after them. -/
def transitiveDependents (w : World) (i : Nat) : List Nat :=
  transRel (fun a => a.dependents) w w.analyses.length i

/-- `analysis.getDependencies(recursive=True)`. -/
def transitiveDependencies (w : World) (i : Nat) : List Nat :=
  transRel (fun a => a.dependencies) w w.analyses.length i

/-- Modelled from the spec: `worksheet.get_duplicates_for(analysis)` — the
duplicate analyses of the given routine analysis sitting on the worksheet. -/
def get_duplicates_for (w : World) (wsId : Nat) (aId : Nat) : List Nat :=
  (w.analyses.filter (fun d => d.duplicateOf == some aId && d.worksheetId == some wsId)).map
    (fun d => d.aid)

/-- Modelled from the spec: the Retest Factory `create_retest(analysis)`
(section 3, "Retest copy"): a fresh analysis that copies the original, starts
"unassigned" unless the original sat on a worksheet — then it starts
"assigned" and joins that worksheet — carries no markers yet, and inherits
the dependency and dependent links for traceability. -/
def create_retest (w : World) (origId : Nat) : World :=
  match getAn w origId with
  | none => w
  | some o =>
    let nid := w.nextId
    let copy : Analysis :=
      { aid := nid
        state := if o.worksheetId.isSome then .assigned else .unassigned
        requestId := o.requestId
        isRequestAnalysis := o.isRequestAnalysis
        isDuplicate := o.isDuplicate
        parentIsSample := o.parentIsSample
        duplicateOf := o.duplicateOf
        worksheetId := o.worksheetId
        dependencies := o.dependencies
        dependents := o.dependents
        retestOf := some origId }
    let w := { w with analyses := w.analyses ++ [copy], nextId := nid + 1 }
    let w :=
      match o.worksheetId with
      | some v => updWs w v (fun ws => { ws with members := ws.members ++ [nid] })
      | none => w
    logEv w (.retested origId nid)

/-- `is_valid` inside `check_all_verified`: state not in
`[STATE_REJECTED, STATE_RETRACTED]` (cancelled analyses do count here). -/
def cavValid : AState → Bool
  | .rejected | .retracted => false
  | _ => true

/-- Embedding of `check_all_verified` (events.py lines 243-277): compares the
number of valid analyses of the sample against the number of analyses
carrying the `IVerified` marker, each list first purged of the currently
processed analysis when the sample is its direct parent. -/
def check_all_verified (w : World) (a : Analysis) : Bool :=
  match a.requestId with
  | none => false
  | some sid =>
    let pool := sampleAnalyses w sid
    let analyses := pool.filter (fun x => cavValid x.state)
    let verified := pool.filter (fun x => x.marks.verified)
    let analyses := if a.parentIsSample then analyses.filter (fun x => x.aid != a.aid) else analyses
    let verified := if a.parentIsSample then verified.filter (fun x => x.aid != a.aid) else verified
    analyses.length == verified.length

/-- Embedding of `reindex_request` (events.py lines 287-299): reindex the
owning request and its ancestor chain, skipping analyses that are not
directly bound to a request. -/
def reindex_request (w : World) (a : Analysis) : World :=
  if ¬ a.isRequestAnalysis ∨ a.isDuplicate then w
  else
    match a.requestId with
    | none => w
    | some sid =>
      let ancestors := sid :: (match getSmp w sid with | some s => s.ancestors | none => [])
      ancestors.foldl (fun w anc => logEv w (.reindexed (.smp anc))) w

/-- The type of the re-entrant Transition Invoker handed to every hook. -/
abbrev DoAF := World → ERef → TName → World × Bool

/-- Promotion of a transition to the analysis's worksheet followed by the
worksheet reindex (`doActionFor(ws, t); ws.reindexObject()`). -/
def ws_promote (doAF : DoAF) (t : TName) (oi : Option Nat) (w : World) : World :=
  match oi with
  | some v => logEv (doAF w (.ws v) t).1 (.reindexed (.ws v))
  | none => w

/-- `doActionFor(analysis.getRequest(), t)`. -/
def smp_try (doAF : DoAF) (t : TName) (oi : Option Nat) (w : World) : World :=
  match oi with
  | some sid => (doAF w (.smp sid) t).1
  | none => w

/-- The common `if IRequestAnalysis.providedBy(analysis): doActionFor(request,
t); reindex_request(analysis)` tail of several hooks. -/
def request_tail (doAF : DoAF) (a : Analysis) (t : TName) (w : World) : World :=
  if a.isRequestAnalysis then reindex_request (smp_try doAF t a.requestId w) a else w

/-- Embedding of `cascade_to_dependents` (events.py lines 326-331). -/
def cascade_to_dependents (doAF : DoAF) (w : World) (a : Analysis) (t : TName) : World :=
  a.dependents.foldl (fun w d => (doAF w (.an d) t).1) w

/-- Embedding of `promote_to_dependencies` (events.py lines 334-339). -/
def promote_to_dependencies (doAF : DoAF) (w : World) (a : Analysis) (t : TName) : World :=
  a.dependencies.foldl (fun w d => (doAF w (.an d) t).1) w

/-- The body of `remove_analysis_from_worksheet` once the worksheet is known
to exist: drop the analysis from the membership, invalidate the layout, try
"submit" then "verify" when members remain (else "rollback_to_open") and
reindex the worksheet unconditionally. -/
def remove_ws_steps (doAF : DoAF) (v : Nat) (remaining : List Nat) (w : World) : World :=
  let w :=
    if remaining ≠ [] then (doAF (doAF w (.ws v) .submit).1 (.ws v) .verify).1
    else (doAF w (.ws v) .rollback_to_open).1
  logEv w (.reindexed (.ws v))

def remove_ws_core (doAF : DoAF) (w : World) (v : Nat) (aId : Nat) : World :=
  match getWs w v with
  | none => w
  | some ws =>
    remove_ws_steps doAF v (ws.members.filter (fun m => m != aId))
      (updWs w v (fun o =>
        { o with members := ws.members.filter (fun m => m != aId), layoutValid := false }))

/-- Embedding of `remove_analysis_from_worksheet` (events.py lines 302-323). -/
def remove_analysis_from_worksheet (doAF : DoAF) (w : World) (a : Analysis) : World :=
  match a.worksheetId with
  | none => w
  | some v => remove_ws_core doAF w v a.aid

/-- Embedding of `after_assign` (events.py lines 36-40). -/
def after_assign (_doAF : DoAF) (a : Analysis) (w : World) : World :=
  reindex_request w a

/-- Embedding of `before_unassign` (events.py lines 43-52): unassign every
duplicate of the analysis on its worksheet. -/
def before_unassign (doAF : DoAF) (a : Analysis) (w : World) : World :=
  match a.worksheetId with
  | none => w
  | some v => (get_duplicates_for w v a.aid).foldl (fun w d => (doAF w (.an d) .unassign).1) w

/-- Embedding of `before_reject` (events.py lines 55-64): same duplicate
unassignment as `before_unassign`. -/
def before_reject (doAF : DoAF) (a : Analysis) (w : World) : World :=
  match a.worksheetId with
  | none => w
  | some v => (get_duplicates_for w v a.aid).foldl (fun w d => (doAF w (.an d) .unassign).1) w

/-- Embedding of the inner `verify_and_retest` closure of `after_retest`
(events.py lines 75-84): skip relatives without the `ISubmitted` marker,
otherwise try to verify them and create their retest copy.  The ghost
`visited` event records the traversal order. -/
def verify_and_retest_core (doAF : DoAF) (w : World) (rid : Nat) : World :=
  match getAn w rid with
  | none => w
  | some r =>
    if ¬ r.marks.submitted then w
    else create_retest (doAF w (.an rid) .verify).1 rid

def verify_and_retest (doAF : DoAF) (w : World) (rid : Nat) : World :=
  verify_and_retest_core doAF (logEv w (.visited rid)) rid

/-- Embedding of `after_retest` (events.py lines 67-97).  The relatives list
is the reversed recursive dependents followed by the recursive dependencies;
the Python 2 `map` applies `verify_and_retest` eagerly in that order. -/
def after_retest (doAF : DoAF) (a : Analysis) (w : World) : World :=
  let w := addMark w a.aid .verifiedM
  let relatives := (transitiveDependents w a.aid).reverse ++ transitiveDependencies w a.aid
  let w := relatives.foldl (verify_and_retest doAF) w
  let w := create_retest w a.aid
  request_tail doAF a .rollback_to_receive w

/-- Embedding of `after_unassign` (events.py lines 100-107). -/
def after_unassign (doAF : DoAF) (a : Analysis) (w : World) : World :=
  let w := remove_analysis_from_worksheet doAF w a
  reindex_request w a

/-- Embedding of `after_cancel` (events.py lines 110-115). -/
def after_cancel (doAF : DoAF) (a : Analysis) (w : World) : World :=
  remove_analysis_from_worksheet doAF w a

/-- Embedding of `after_reinstate` (events.py lines 118-121): no-op. -/
def after_reinstate (_doAF : DoAF) (_a : Analysis) (w : World) : World :=
  w

/-- Embedding of `after_submit` (events.py lines 124-153). -/
def after_submit (doAF : DoAF) (a : Analysis) (w : World) : World :=
  let w := if a.resultCaptureDate.isNone then setCaptureDate w a.aid else w
  let w := addMark w a.aid .submittedM
  let w := promote_to_dependencies doAF w a .submit
  let w := ws_promote doAF .submit a.worksheetId w
  request_tail doAF a .submit w

/-- Embedding of `after_retract` (events.py lines 156-182). -/
def after_retract (doAF : DoAF) (a : Analysis) (w : World) : World :=
  let w := addMark w a.aid .retractedM
  let w := a.attachments.foldl setRenderOff w
  let w := cascade_to_dependents doAF w a .retract
  let w := promote_to_dependencies doAF w a .retract
  let w := create_retest w a.aid
  request_tail doAF a .rollback_to_receive w

/-- The sample-promotion tail of `after_reject` (events.py lines 201-210):
try "verify", then "submit", then "rollback_to_receive" on the owning
request, then reindex it. -/
def reject_promote_sample (doAF : DoAF) (a : Analysis) (w : World) : World :=
  let w := smp_try doAF .verify a.requestId w
  let w := smp_try doAF .submit a.requestId w
  let w := smp_try doAF .rollback_to_receive a.requestId w
  reindex_request w a

/-- Embedding of `after_reject` (events.py lines 185-211). -/
def after_reject (doAF : DoAF) (a : Analysis) (w : World) : World :=
  let w := addMark w a.aid .rejectedM
  let w := remove_analysis_from_worksheet doAF w a
  let w := a.attachments.foldl setRenderOff w
  let w := cascade_to_dependents doAF w a .reject
  if a.isRequestAnalysis then reject_promote_sample doAF a w else w

/-- Embedding of `after_verify` (events.py lines 213-240).  Note the shape of
the tail: the auto-verify flag guards only the promotion, while the reindex
sits inside the outer `IRequestAnalysis and check_all_verified` test. -/
def after_verify (doAF : DoAF) (a : Analysis) (w : World) : World :=
  let w := addMark w a.aid .verifiedM
  let w := promote_to_dependencies doAF w a .verify
  let w := ws_promote doAF .verify a.worksheetId w
  if a.isRequestAnalysis && check_all_verified w a then
    reindex_request (if w.autoVerifySamples then smp_try doAF .verify a.requestId w else w) a
  else w

/-- Embedding of `after_publish` (events.py lines 280-283): no-op. -/
def after_publish (_doAF : DoAF) (_a : Analysis) (w : World) : World :=
  w

/-- Before-hook dispatch for analysis transitions: `events.py` registers
`before_unassign` and `before_reject`. -/
def runBefore (doAF : DoAF) (t : TName) (a : Analysis) (w : World) : World :=
  match t with
  | .unassign => before_unassign doAF a w
  | .reject => before_reject doAF a w
  | _ => w

/-- After-hook dispatch for analysis transitions, one entry per `after_*`
function of `events.py`. -/
def runAfter (doAF : DoAF) (t : TName) (a : Analysis) (w : World) : World :=
  match t with
  | .assign => after_assign doAF a w
  | .unassign => after_unassign doAF a w
  | .submit => after_submit doAF a w
  | .verify => after_verify doAF a w
  | .retract => after_retract doAF a w
  | .reject => after_reject doAF a w
  | .retest => after_retest doAF a w
  | .cancel => after_cancel doAF a w
  | .reinstate => after_reinstate doAF a w
  | .publish => after_publish doAF a w
  | _ => w

/-- Modelled from the spec: the Transition Invoker `doActionFor`
(section 4.1), which is not part of the excerpt.  It checks the Guard and on
failure returns `false` with no entity change; otherwise it runs the
before-hook, applies the state change, and runs the after-hook, which
re-enters the invoker with one unit of fuel less.  Worksheet and sample
transitions have no cascading hooks in the scope of this excerpt. -/
def applyAn_after (doAF : DoAF) (w : World) (i : Nat) (t : TName) : World :=
  match getAn w i with
  | some a2 => runAfter doAF t a2 w
  | none => w

def applyAn (doAF : DoAF) (w : World) (i : Nat) (t : TName) (a : Analysis) (st2 : AState) : World :=
  let w := runBefore doAF t a w
  let w := setAnState w i st2
  let w := logEv w (.applied (.an i) t)
  applyAn_after doAF w i t

def applyWs (w : World) (i : Nat) (t : TName) (st2 : WSState) : World :=
  logEv (updWs w i (fun o => { o with state := st2 })) (.applied (.ws i) t)

def applySmp (w : World) (i : Nat) (t : TName) (st2 : SState) : World :=
  logEv (updSmp w i (fun o => { o with state := st2 })) (.applied (.smp i) t)

def doActionFor : Nat → World → ERef → TName → World × Bool
  | 0, w, _, _ => (w, false)
  | fuel + 1, w, e, t =>
    let w := logEv w (.invoked e t (snapMarks w))
    match e with
    | .an i =>
      match getAn w i with
      | none => (w, false)
      | some a =>
        match anGuard a.state t with
        | none => (w, false)
        | some st2 => (applyAn (fun w e t => doActionFor fuel w e t) w i t a st2, true)
    | .ws i =>
      match getWs w i with
      | none => (w, false)
      | some x =>
        match wsGuard w x t with
        | none => (w, false)
        | some st2 => (applyWs w i t st2, true)
    | .smp i =>
      match getSmp w i with
      | none => (w, false)
      | some s =>
        match smpGuard w s t with
        | none => (w, false)
        | some st2 => (applySmp w i t st2, true)

/-- Observable entity state: the world without the ghost trace.  Side effects
of the engine are exactly changes to this tuple. -/
def obs (w : World) : List Analysis × List Worksheet × List Sample × List Attachment × Bool × Nat × Nat :=
  (w.analyses, w.worksheets, w.samples, w.attachments, w.autoVerifySamples, w.clock, w.nextId)

/-- How many retest copies of analysis `i` have been created (ghost count). -/
def retestCount (w : World) (i : Nat) : Nat :=
  w.trace.countP (fun ev => match ev with | .retested o _ => o == i | _ => false)

/-- Total number of retest copies created. -/
def totalRetests (w : World) : Nat :=
  w.trace.countP (fun ev => match ev with | .retested _ _ => true | _ => false)

/-- Whether transition `t` was attempted on entity `e` (an `invoked` event). -/
def invokedOn (tr : List Ev) (e : ERef) (t : TName) : Bool :=
  tr.any (fun ev => match ev with | .invoked e2 t2 _ => e2 == e && t2 == t | _ => false)

/-- How many times transition `t` was actually applied on entity `e`. -/
def appliedCount (tr : List Ev) (e : ERef) (t : TName) : Nat :=
  tr.countP (fun ev => match ev with | .applied e2 t2 => e2 == e && t2 == t | _ => false)

/-- Chronological (oldest-first) list of transitions attempted on sample
`sid`. -/
def smpInvocations (tr : List Ev) (sid : Nat) : List TName :=
  tr.reverse.filterMap (fun ev =>
    match ev with
    | .invoked (.smp s) t _ => if s = sid then some t else none
    | _ => none)

/-- Chronological list of transitions attempted on worksheet `v`. -/
def wsInvocations (tr : List Ev) (v : Nat) : List TName :=
  tr.reverse.filterMap (fun ev =>
    match ev with
    | .invoked (.ws x) t _ => if x = v then some t else none
    | _ => none)

/-- Chronological list of analyses visited by the retest traversal. -/
def visitedSeq (tr : List Ev) : List Nat :=
  tr.reverse.filterMap (fun ev => match ev with | .visited i => some i | _ => none)

/-- Marker lookup inside an `invoked` snapshot. -/
def lookupSnap (snap : List (Nat × Marks)) (i : Nat) (m : MName) : Bool :=
  match snap.find? (fun p => p.1 == i) with
  | some p => p.2.get m
  | none => false

/-- Current review state of analysis `i`. -/
def stateOf (w : World) (i : Nat) : Option AState :=
  (getAn w i).map (fun a => a.state)

/-- Current state of worksheet `v`. -/
def wsStateOf (w : World) (v : Nat) : Option WSState :=
  (getWs w v).map (fun x => x.state)

/-- Current state of sample `sid`. -/
def smpStateOf (w : World) (sid : Nat) : Option SState :=
  (getSmp w sid).map (fun s => s.state)

/-! ### C1: retract with one dependent and one dependency -/

/-- The C1 scenario: analysis 1 with exactly one dependent (analysis 2) and
one dependency (analysis 3), parametrised by the three review states. -/
def retractScenario (sA sB sC : AState) : World :=
  { analyses :=
      [ { aid := 1, state := sA, dependents := [2], dependencies := [3] }
      , { aid := 2, state := sB, dependencies := [1] }
      , { aid := 3, state := sC, dependents := [1] } ] }

/-- Result of retracting analysis 1 in the C1 scenario. -/
def retractScenarioRun (sA sB sC : AState) : World :=
  (doActionFor 10 (retractScenario sA sB sC) (.an 1) .retract).1

/-- C1 counterexample: retracting analysis 1 (to_be_verified) with dependent
analysis 2 (to_be_verified) and dependency analysis 3 (verified) — all three
in states where "retract" is permitted — does retract 2 and 3, but three
retest copies are created (one of each), not exactly one copy of analysis 1:
the retract cascade re-enters `after_retract` on both relatives and each run
calls `create_retest`. -/
theorem C1_counterexample :
    stateOf (retractScenarioRun .to_be_verified .to_be_verified .verified) 2 = some .retracted ∧
    stateOf (retractScenarioRun .to_be_verified .to_be_verified .verified) 3 = some .retracted ∧
    retestCount (retractScenarioRun .to_be_verified .to_be_verified .verified) 2 = 1 ∧
    retestCount (retractScenarioRun .to_be_verified .to_be_verified .verified) 3 = 1 ∧
    totalRetests (retractScenarioRun .to_be_verified .to_be_verified .verified) ≠ 1 := by
  decide

/-- C1 (amended): for every choice of retract-permitted states for the
analysis, its sole dependent and its sole dependency, the retract transition
on analysis 1 retracts the dependent and the dependency and creates exactly
three retest copies — exactly one of the analysis, one of the dependent and
one of the dependency. -/
theorem C1_amended :
    ∀ sA ∈ [AState.to_be_verified, AState.verified],
    ∀ sB ∈ [AState.to_be_verified, AState.verified],
    ∀ sC ∈ [AState.to_be_verified, AState.verified],
      stateOf (retractScenarioRun sA sB sC) 2 = some .retracted ∧
      stateOf (retractScenarioRun sA sB sC) 3 = some .retracted ∧
      retestCount (retractScenarioRun sA sB sC) 1 = 1 ∧
      retestCount (retractScenarioRun sA sB sC) 2 = 1 ∧
      retestCount (retractScenarioRun sA sB sC) 3 = 1 ∧
      totalRetests (retractScenarioRun sA sB sC) = 3 := by
  decide

/-- Witness for C1_amended at a concrete choice of states. -/
theorem C1_amended_witness :
    stateOf (retractScenarioRun .to_be_verified .verified .verified) 2 = some .retracted ∧
    stateOf (retractScenarioRun .to_be_verified .verified .verified) 3 = some .retracted ∧
    retestCount (retractScenarioRun .to_be_verified .verified .verified) 1 = 1 ∧
    retestCount (retractScenarioRun .to_be_verified .verified .verified) 2 = 1 ∧
    retestCount (retractScenarioRun .to_be_verified .verified .verified) 3 = 1 ∧
    totalRetests (retractScenarioRun .to_be_verified .verified .verified) = 3 :=
  C1_amended .to_be_verified (by decide) .verified (by decide) .verified (by decide)

/-! ### C2: the aggregation predicate admits false positives -/

/-- The analysis whose `verify` transition is being processed in the C2
scenario. -/
def cavCurrent : Analysis :=
  { aid := 1, state := .verified, marks := { submitted := true, verified := true },
    requestId := some 0, isRequestAnalysis := true, parentIsSample := true }

/-- The C2 scenario: sample 0 holds the processed analysis 1, analysis 2
(verified then retracted: marker kept, state invalid), analysis 3 (the
verified retest of 2) and analysis 4 (submitted, not verified). -/
def cavScenario : World :=
  { analyses :=
      [ cavCurrent
      , { aid := 2, state := .retracted,
          marks := { submitted := true, verified := true, retracted := true },
          requestId := some 0, isRequestAnalysis := true, parentIsSample := true }
      , { aid := 3, state := .verified, marks := { submitted := true, verified := true },
          requestId := some 0, isRequestAnalysis := true, parentIsSample := true,
          retestOf := some 2 }
      , { aid := 4, state := .to_be_verified, marks := { submitted := true },
          requestId := some 0, isRequestAnalysis := true, parentIsSample := true } ]
    samples := [ { sid := 0, state := .to_be_verified } ] }

/-- C2: the code errs as a false positive at this input.  `check_all_verified`
returns true for the processed analysis 1 — the valid set {3, 4} and the
IVerified set {2, 3} merely have equal sizes — although analysis 4 of the
same sample is valid (`is_valid` in the source's sense), distinct from the
processed analysis, and does not carry the verified marker.  This contradicts
the docstring "The worst case that can happen is that the sample does not
get automatically verified". -/
theorem C2_false_positive :
    check_all_verified cavScenario cavCurrent = true ∧
    (getAn cavScenario 4).map (fun x => cavValid x.state) = some true ∧
    (getAn cavScenario 4).map (fun x => x.requestId) = some (some 0) ∧
    hasMarkOn cavScenario 4 .verifiedM = false := by
  decide

/-! ### Basic interpreter lemmas -/

@[simp] theorem getAn_logEv (w : World) (e : Ev) (i : Nat) :
    getAn (logEv w e) i = getAn w i := rfl

@[simp] theorem getWs_logEv (w : World) (e : Ev) (i : Nat) :
    getWs (logEv w e) i = getWs w i := rfl

@[simp] theorem getSmp_logEv (w : World) (e : Ev) (i : Nat) :
    getSmp (logEv w e) i = getSmp w i := rfl

@[simp] theorem obs_logEv (w : World) (e : Ev) : obs (logEv w e) = obs w := rfl

@[simp] theorem wsGuard_logEv (w : World) (e : Ev) (x : Worksheet) (t : TName) :
    wsGuard (logEv w e) x t = wsGuard w x t := rfl

@[simp] theorem smpGuard_logEv (w : World) (e : Ev) (s : Sample) (t : TName) :
    smpGuard (logEv w e) s t = smpGuard w s t := rfl

/-- The decision `doActionFor` takes before performing any side effect:
whether the Transition Guard allows `t` on `e` in the current world. -/
def guardOk (w : World) (e : ERef) (t : TName) : Bool :=
  match e with
  | .an i => match getAn w i with | some a => (anGuard a.state t).isSome | none => false
  | .ws i => match getWs w i with | some x => (wsGuard w x t).isSome | none => false
  | .smp i => match getSmp w i with | some s => (smpGuard w s t).isSome | none => false

@[simp] theorem guardOk_logEv (w : World) (e : Ev) (r : ERef) (t : TName) :
    guardOk (logEv w e) r t = guardOk w r t := rfl

/-- A guarded-out invocation only records the ghost attempt event. -/
theorem doActionFor_guardFail (f : Nat) (w : World) (e : ERef) (t : TName)
    (h : guardOk w e t = false) :
    doActionFor (f + 1) w e t = (logEv w (.invoked e t (snapMarks w)), false) := by
  cases e with
  | an i =>
    unfold doActionFor
    cases hA : getAn w i with
    | none => simp [hA]
    | some a =>
      have hg : anGuard a.state t = none := by
        simp only [guardOk] at h
        rw [hA] at h
        simpa [Option.isSome_iff_exists] using h
      simp [hA, hg]
  | ws i =>
    unfold doActionFor
    cases hA : getWs w i with
    | none => simp [hA]
    | some x =>
      have hg : wsGuard w x t = none := by
        simp only [guardOk] at h
        rw [hA] at h
        simpa [Option.isSome_iff_exists] using h
      simp [hA, hg]
  | smp i =>
    unfold doActionFor
    cases hA : getSmp w i with
    | none => simp [hA]
    | some s =>
      have hg : smpGuard w s t = none := by
        simp only [guardOk] at h
        rw [hA] at h
        simpa [Option.isSome_iff_exists] using h
      simp [hA, hg]

/-- A guard-approved invocation reports success. -/
theorem doActionFor_guardPass (f : Nat) (w : World) (e : ERef) (t : TName)
    (h : guardOk w e t = true) :
    (doActionFor (f + 1) w e t).2 = true := by
  cases e with
  | an i =>
    simp only [guardOk] at h
    unfold doActionFor
    cases hA : getAn w i with
    | none => rw [hA] at h; exact absurd h (by simp)
    | some a =>
      rw [hA] at h
      rcases Option.isSome_iff_exists.mp h with ⟨st2, hg⟩
      simp [hA, hg]
  | ws i =>
    simp only [guardOk] at h
    unfold doActionFor
    cases hA : getWs w i with
    | none => rw [hA] at h; exact absurd h (by simp)
    | some x =>
      rw [hA] at h
      rcases Option.isSome_iff_exists.mp h with ⟨st2, hg⟩
      simp [hA, hg]
  | smp i =>
    simp only [guardOk] at h
    unfold doActionFor
    cases hA : getSmp w i with
    | none => rw [hA] at h; exact absurd h (by simp)
    | some s =>
      rw [hA] at h
      rcases Option.isSome_iff_exists.mp h with ⟨st2, hg⟩
      simp [hA, hg]

/-- A `false` return means the guard refused. -/
theorem doActionFor_false_guard (f : Nat) (w : World) (e : ERef) (t : TName)
    (h : (doActionFor (f + 1) w e t).2 = false) :
    guardOk w e t = false := by
  cases hg : guardOk w e t with
  | false => rfl
  | true => rw [doActionFor_guardPass f w e t hg] at h; cases h

/-! ### C8: a refused invocation has no side effects, twice over -/

/-- C8: when `doActionFor` (with fuel to run) returns false, the observable
entity state is untouched, and invoking the same transition again also
returns false and leaves the observable state untouched — invoking an
unavailable transition is an idempotent no-op, never an error. -/
theorem C8_invoke_idempotent_noop (f1 f2 : Nat) (w : World) (e : ERef) (t : TName)
    (h : (doActionFor (f1 + 1) w e t).2 = false) :
    obs (doActionFor (f1 + 1) w e t).1 = obs w ∧
    (doActionFor (f2 + 1) (doActionFor (f1 + 1) w e t).1 e t).2 = false ∧
    obs (doActionFor (f2 + 1) (doActionFor (f1 + 1) w e t).1 e t).1 = obs w := by
  have hg : guardOk w e t = false := doActionFor_false_guard f1 w e t h
  have h1 : doActionFor (f1 + 1) w e t = (logEv w (.invoked e t (snapMarks w)), false) :=
    doActionFor_guardFail f1 w e t hg
  have hg2 : guardOk (doActionFor (f1 + 1) w e t).1 e t = false := by
    rw [h1]; simpa using hg
  have h2 : doActionFor (f2 + 1) (doActionFor (f1 + 1) w e t).1 e t =
      (logEv (doActionFor (f1 + 1) w e t).1
        (.invoked e t (snapMarks (doActionFor (f1 + 1) w e t).1)), false) :=
    doActionFor_guardFail f2 _ e t hg2
  refine ⟨by rw [h1]; rfl, by rw [h2], by rw [h2, obs_logEv, h1]; rfl⟩

/-- Witness for C8 at a concrete world: submitting an already-verified
analysis is refused. -/
theorem C8_invoke_idempotent_noop_witness :
    obs (doActionFor 3 { analyses := [{ aid := 1, state := AState.verified }] }
        (.an 1) .submit).1 =
      obs { analyses := [{ aid := 1, state := AState.verified }] } ∧
    (doActionFor 4 (doActionFor 3 { analyses := [{ aid := 1, state := AState.verified }] }
        (.an 1) .submit).1 (.an 1) .submit).2 = false := by
  have h := C8_invoke_idempotent_noop 2 3
    { analyses := [{ aid := 1, state := AState.verified }] } (.an 1) .submit (by decide)
  exact ⟨h.1, h.2.1⟩

/-! ### Marker monotonicity: groundwork for C9 and C10 -/

/-- Every capability marker present in `w` is still present in `w2`. -/
def MarksMono (w w2 : World) : Prop :=
  ∀ i m, hasMarkOn w i m = true → hasMarkOn w2 i m = true

theorem marksMono_rfl (w : World) : MarksMono w w := fun _ _ h => h

def MarksMono.comp {w1 w2 w3 : World} (h1 : MarksMono w1 w2) (h2 : MarksMono w2 w3) :
    MarksMono w1 w3 :=
  fun i m h => h2 i m (h1 i m h)

theorem Marks.get_set_mono (mk : Marks) (n k : MName) (h : mk.get k = true) :
    (mk.set n).get k = true := by
  cases n <;> cases k <;> simp_all [Marks.get, Marks.set]

theorem getAn_updAn (w : World) (j : Nat) (f : Analysis → Analysis)
    (hf : ∀ a, (f a).aid = a.aid) (i : Nat) :
    getAn (updAn w j f) i = (getAn w i).map (fun a => if a.aid = j then f a else a) := by
  simp only [getAn, updAn]
  rw [List.find?_map]
  have hp : ((fun a : Analysis => decide (a.aid = i)) ∘ fun a => if a.aid = j then f a else a) =
      (fun a : Analysis => decide (a.aid = i)) := by
    funext a
    by_cases hj : a.aid = j <;> simp [Function.comp, hj, hf]
  rw [hp]

theorem marksMono_updAn (w : World) (j : Nat) (f : Analysis → Analysis)
    (hf : ∀ a, (f a).aid = a.aid)
    (hm : ∀ a k, a.marks.get k = true → (f a).marks.get k = true) :
    MarksMono w (updAn w j f) := by
  intro i m h
  unfold hasMarkOn at h ⊢
  rw [getAn_updAn w j f hf i]
  cases hA : getAn w i with
  | none => rw [hA] at h; cases h
  | some a =>
    rw [hA] at h
    simp only [Option.map_some']
    split
    · exact hm a m h
    · exact h

theorem marksMono_addMark (w : World) (j : Nat) (n : MName) : MarksMono w (addMark w j n) :=
  marksMono_updAn w j _ (fun _ => rfl) (fun a k h => Marks.get_set_mono a.marks n k h)

theorem marksMono_setAnState (w : World) (j : Nat) (s : AState) :
    MarksMono w (setAnState w j s) :=
  marksMono_updAn w j _ (fun _ => rfl) (fun _ _ h => h)

theorem marksMono_setCaptureDate (w : World) (j : Nat) :
    MarksMono w (setCaptureDate w j) :=
  marksMono_updAn w j _ (fun _ => rfl) (fun _ _ h => h)

@[simp] theorem hasMarkOn_logEv (w : World) (e : Ev) (i : Nat) (m : MName) :
    hasMarkOn (logEv w e) i m = hasMarkOn w i m := rfl

@[simp] theorem hasMarkOn_updWs (w : World) (v : Nat) (f : Worksheet → Worksheet)
    (i : Nat) (m : MName) : hasMarkOn (updWs w v f) i m = hasMarkOn w i m := rfl

@[simp] theorem hasMarkOn_updSmp (w : World) (v : Nat) (f : Sample → Sample)
    (i : Nat) (m : MName) : hasMarkOn (updSmp w v f) i m = hasMarkOn w i m := rfl

@[simp] theorem hasMarkOn_setRenderOff (w : World) (j : Nat) (i : Nat) (m : MName) :
    hasMarkOn (setRenderOff w j) i m = hasMarkOn w i m := rfl

theorem marksMono_logEv (w : World) (e : Ev) : MarksMono w (logEv w e) :=
  fun _ _ h => h

theorem find?_append_some {α} {p : α → Bool} {l1 l2 : List α} {b : α}
    (h : l1.find? p = some b) : (l1 ++ l2).find? p = some b := by
  rw [List.find?_append, h]
  rfl

/-- `create_retest` only appends to the analyses list. -/
theorem analyses_create_retest (w : World) (o : Nat) :
    ∃ l, (create_retest w o).analyses = w.analyses ++ l := by
  unfold create_retest
  cases hO : getAn w o with
  | none => exact ⟨[], (List.append_nil _).symm⟩
  | some a =>
    cases hW : a.worksheetId <;> simp only [hW, logEv, updWs] <;> exact ⟨_, rfl⟩

theorem hasMarkOn_of_analyses_append (w w2 : World) (l : List Analysis)
    (hl : w2.analyses = w.analyses ++ l) (i : Nat) (m : MName)
    (h : hasMarkOn w i m = true) : hasMarkOn w2 i m = true := by
  unfold hasMarkOn getAn at h ⊢
  rw [hl]
  cases hA : w.analyses.find? (fun x => x.aid = i) with
  | none => rw [hA] at h; cases h
  | some b =>
    rw [hA] at h
    rw [find?_append_some hA]
    exact h

/-- `create_retest` only appends a fresh analysis (and touches worksheets and
the trace), so existing markers survive. -/
theorem marksMono_create_retest (w : World) (o : Nat) : MarksMono w (create_retest w o) := by
  intro i m h
  obtain ⟨l, hl⟩ := analyses_create_retest w o
  exact hasMarkOn_of_analyses_append w _ l hl i m h

theorem marksMono_foldl {α} (g : World → α → World) (l : List α)
    (hg : ∀ w x, MarksMono w (g w x)) : ∀ w, MarksMono w (l.foldl g w) := by
  induction l with
  | nil => exact fun w => marksMono_rfl w
  | cons x xs ih => exact fun w => (hg w x).comp (ih (g w x))

/-- The property that a Transition Invoker never erases markers. -/
def PreservesMarks (doAF : DoAF) : Prop :=
  ∀ w e t, MarksMono w (doAF w e t).1

theorem marksMono_reindex_request (w : World) (a : Analysis) :
    MarksMono w (reindex_request w a) := by
  unfold reindex_request
  split
  · exact marksMono_rfl w
  · cases a.requestId with
    | none => exact marksMono_rfl w
    | some sid => exact marksMono_foldl _ _ (fun w e => marksMono_logEv w _) w

theorem marksMono_updWs (w : World) (v : Nat) (f : Worksheet → Worksheet) :
    MarksMono w (updWs w v f) :=
  fun i m hm => by simpa using hm

theorem marksMono_setRenderOff (w : World) (j : Nat) : MarksMono w (setRenderOff w j) :=
  fun i m hm => by simpa using hm

theorem marksMono_cascade_to_dependents (doAF : DoAF) (h : PreservesMarks doAF)
    (w : World) (a : Analysis) (t : TName) :
    MarksMono w (cascade_to_dependents doAF w a t) :=
  marksMono_foldl _ _ (fun w d => h w (.an d) t) w

theorem marksMono_promote_to_dependencies (doAF : DoAF) (h : PreservesMarks doAF)
    (w : World) (a : Analysis) (t : TName) :
    MarksMono w (promote_to_dependencies doAF w a t) :=
  marksMono_foldl _ _ (fun w d => h w (.an d) t) w

theorem marksMono_ws_promote (doAF : DoAF) (h : PreservesMarks doAF)
    (t : TName) (oi : Option Nat) (w : World) :
    MarksMono w (ws_promote doAF t oi w) := by
  cases oi with
  | none => exact marksMono_rfl w
  | some v => exact (h w (.ws v) t).comp (marksMono_logEv _ _)

theorem marksMono_smp_try (doAF : DoAF) (h : PreservesMarks doAF)
    (t : TName) (oi : Option Nat) (w : World) :
    MarksMono w (smp_try doAF t oi w) := by
  cases oi with
  | none => exact marksMono_rfl w
  | some sid => exact h w (.smp sid) t

theorem marksMono_request_tail (doAF : DoAF) (h : PreservesMarks doAF)
    (a : Analysis) (t : TName) (w : World) :
    MarksMono w (request_tail doAF a t w) := by
  unfold request_tail
  split
  · exact (marksMono_smp_try doAF h t a.requestId w).comp (marksMono_reindex_request _ a)
  · exact marksMono_rfl w

theorem marksMono_remove_ws_steps (doAF : DoAF) (h : PreservesMarks doAF)
    (v : Nat) (remaining : List Nat) (w : World) :
    MarksMono w (remove_ws_steps doAF v remaining w) := by
  unfold remove_ws_steps
  refine @MarksMono.comp _
    (if remaining ≠ [] then (doAF (doAF w (.ws v) .submit).1 (.ws v) .verify).1
      else (doAF w (.ws v) .rollback_to_open).1) _ ?_ (marksMono_logEv _ _)
  split
  · exact (h _ _ _).comp (h _ _ _)
  · exact h _ _ _

theorem marksMono_remove_ws_core (doAF : DoAF) (h : PreservesMarks doAF)
    (w : World) (v : Nat) (aId : Nat) :
    MarksMono w (remove_ws_core doAF w v aId) := by
  unfold remove_ws_core
  cases hW : getWs w v with
  | none => exact marksMono_rfl w
  | some ws =>
    exact (marksMono_updWs w v (fun o =>
        { o with members := ws.members.filter (fun m => m != aId), layoutValid := false })).comp
      (marksMono_remove_ws_steps doAF h v (ws.members.filter (fun m => m != aId))
        (updWs w v (fun o =>
          { o with members := ws.members.filter (fun m => m != aId), layoutValid := false })))

theorem marksMono_remove_analysis_from_worksheet (doAF : DoAF) (h : PreservesMarks doAF)
    (w : World) (a : Analysis) :
    MarksMono w (remove_analysis_from_worksheet doAF w a) := by
  unfold remove_analysis_from_worksheet
  cases a.worksheetId with
  | none => exact marksMono_rfl w
  | some v => exact marksMono_remove_ws_core doAF h w v a.aid

theorem marksMono_verify_and_retest_core (doAF : DoAF) (h : PreservesMarks doAF)
    (w : World) (rid : Nat) :
    MarksMono w (verify_and_retest_core doAF w rid) := by
  unfold verify_and_retest_core
  cases hR : getAn w rid with
  | none => exact marksMono_rfl w
  | some r =>
    show MarksMono w
      (if ¬ r.marks.submitted then w else create_retest (doAF w (.an rid) .verify).1 rid)
    split
    · exact marksMono_rfl w
    · exact (h w (.an rid) .verify).comp (marksMono_create_retest _ rid)

theorem marksMono_verify_and_retest (doAF : DoAF) (h : PreservesMarks doAF)
    (w : World) (rid : Nat) :
    MarksMono w (verify_and_retest doAF w rid) :=
  (marksMono_logEv w _).comp (marksMono_verify_and_retest_core doAF h _ rid)

theorem marksMono_runBefore (doAF : DoAF) (h : PreservesMarks doAF)
    (t : TName) (a : Analysis) (w : World) :
    MarksMono w (runBefore doAF t a w) := by
  unfold runBefore
  cases t <;> try exact marksMono_rfl w
  all_goals
    unfold before_unassign before_reject
    cases a.worksheetId with
    | none => exact marksMono_rfl w
    | some v => exact marksMono_foldl _ _ (fun w d => h w (.an d) .unassign) w

theorem marksMono_after_submit (doAF : DoAF) (h : PreservesMarks doAF)
    (a : Analysis) (w : World) : MarksMono w (after_submit doAF a w) := by
  unfold after_submit
  refine @MarksMono.comp _
    (if a.resultCaptureDate.isNone then setCaptureDate w a.aid else w) _ ?_ ?_
  · split
    · exact marksMono_setCaptureDate w a.aid
    · exact marksMono_rfl w
  refine (marksMono_addMark _ a.aid .submittedM).comp ?_
  refine (marksMono_promote_to_dependencies doAF h _ a .submit).comp ?_
  refine (marksMono_ws_promote doAF h .submit a.worksheetId _).comp ?_
  exact marksMono_request_tail doAF h a .submit _

theorem marksMono_verify_tail (doAF : DoAF) (h : PreservesMarks doAF)
    (a : Analysis) (w0 : World) :
    MarksMono w0
      (if (a.isRequestAnalysis && check_all_verified w0 a) = true then
        reindex_request
          (if w0.autoVerifySamples = true then smp_try doAF .verify a.requestId w0 else w0) a
      else w0) := by
  split
  · refine @MarksMono.comp _
      (if w0.autoVerifySamples = true then smp_try doAF .verify a.requestId w0 else w0)
      _ ?_ (marksMono_reindex_request _ a)
    split
    · exact marksMono_smp_try doAF h .verify a.requestId w0
    · exact marksMono_rfl w0
  · exact marksMono_rfl w0

theorem marksMono_after_verify (doAF : DoAF) (h : PreservesMarks doAF)
    (a : Analysis) (w : World) : MarksMono w (after_verify doAF a w) := by
  unfold after_verify
  refine (marksMono_addMark w a.aid .verifiedM).comp ?_
  refine (marksMono_promote_to_dependencies doAF h _ a .verify).comp ?_
  refine (marksMono_ws_promote doAF h .verify a.worksheetId _).comp ?_
  exact marksMono_verify_tail doAF h a _

theorem marksMono_after_retract (doAF : DoAF) (h : PreservesMarks doAF)
    (a : Analysis) (w : World) : MarksMono w (after_retract doAF a w) := by
  unfold after_retract
  refine (marksMono_addMark w a.aid .retractedM).comp ?_
  refine (marksMono_foldl setRenderOff a.attachments
    (fun w j => marksMono_setRenderOff w j) _).comp ?_
  refine (marksMono_cascade_to_dependents doAF h _ a .retract).comp ?_
  refine (marksMono_promote_to_dependencies doAF h _ a .retract).comp ?_
  refine (marksMono_create_retest _ a.aid).comp ?_
  exact marksMono_request_tail doAF h a .rollback_to_receive _

theorem marksMono_reject_promote_sample (doAF : DoAF) (h : PreservesMarks doAF)
    (a : Analysis) (w : World) : MarksMono w (reject_promote_sample doAF a w) := by
  unfold reject_promote_sample
  refine (marksMono_smp_try doAF h .verify a.requestId w).comp ?_
  refine (marksMono_smp_try doAF h .submit a.requestId _).comp ?_
  refine (marksMono_smp_try doAF h .rollback_to_receive a.requestId _).comp ?_
  exact marksMono_reindex_request _ a

theorem marksMono_after_reject (doAF : DoAF) (h : PreservesMarks doAF)
    (a : Analysis) (w : World) : MarksMono w (after_reject doAF a w) := by
  unfold after_reject
  refine (marksMono_addMark w a.aid .rejectedM).comp ?_
  refine (marksMono_remove_analysis_from_worksheet doAF h _ a).comp ?_
  refine (marksMono_foldl setRenderOff a.attachments
    (fun w j => marksMono_setRenderOff w j) _).comp ?_
  refine (marksMono_cascade_to_dependents doAF h _ a .reject).comp ?_
  split
  · exact marksMono_reject_promote_sample doAF h a _
  · exact marksMono_rfl _

theorem marksMono_after_retest (doAF : DoAF) (h : PreservesMarks doAF)
    (a : Analysis) (w : World) : MarksMono w (after_retest doAF a w) := by
  unfold after_retest
  refine (marksMono_addMark w a.aid .verifiedM).comp ?_
  refine (marksMono_foldl (verify_and_retest doAF)
    ((transitiveDependents (addMark w a.aid .verifiedM) a.aid).reverse ++
      transitiveDependencies (addMark w a.aid .verifiedM) a.aid)
    (fun w r => marksMono_verify_and_retest doAF h w r) _).comp ?_
  refine (marksMono_create_retest _ a.aid).comp ?_
  exact marksMono_request_tail doAF h a .rollback_to_receive _

theorem marksMono_after_unassign (doAF : DoAF) (h : PreservesMarks doAF)
    (a : Analysis) (w : World) : MarksMono w (after_unassign doAF a w) := by
  unfold after_unassign
  exact (marksMono_remove_analysis_from_worksheet doAF h w a).comp
    (marksMono_reindex_request _ a)

theorem marksMono_runAfter (doAF : DoAF) (h : PreservesMarks doAF)
    (t : TName) (a : Analysis) (w : World) :
    MarksMono w (runAfter doAF t a w) := by
  cases t with
  | assign => exact marksMono_reindex_request w a
  | unassign => exact marksMono_after_unassign doAF h a w
  | submit => exact marksMono_after_submit doAF h a w
  | verify => exact marksMono_after_verify doAF h a w
  | retract => exact marksMono_after_retract doAF h a w
  | reject => exact marksMono_after_reject doAF h a w
  | retest => exact marksMono_after_retest doAF h a w
  | cancel => exact marksMono_remove_analysis_from_worksheet doAF h w a
  | reinstate => exact marksMono_rfl w
  | publish => exact marksMono_rfl w
  | rollback_to_receive => exact marksMono_rfl w
  | rollback_to_open => exact marksMono_rfl w

theorem marksMono_applyAn_after (doAF : DoAF) (h : PreservesMarks doAF)
    (w : World) (i : Nat) (t : TName) :
    MarksMono w (applyAn_after doAF w i t) := by
  unfold applyAn_after
  cases getAn w i with
  | none => exact marksMono_rfl w
  | some a2 => exact marksMono_runAfter doAF h t a2 w

theorem marksMono_applyAn (doAF : DoAF) (h : PreservesMarks doAF)
    (w : World) (i : Nat) (t : TName) (a : Analysis) (st2 : AState) :
    MarksMono w (applyAn doAF w i t a st2) := by
  unfold applyAn
  exact (marksMono_runBefore doAF h t a w).comp
    ((marksMono_setAnState _ _ _).comp
      ((marksMono_logEv _ _).comp (marksMono_applyAn_after doAF h _ i t)))

/-- The fuel-indexed invoker never erases a capability marker. -/
theorem preservesMarks_doActionFor (fuel : Nat) :
    PreservesMarks (fun w e t => doActionFor fuel w e t) := by
  induction fuel with
  | zero => exact fun w e t => marksMono_rfl w
  | succ f ih =>
    intro w e t
    show MarksMono w (doActionFor (f + 1) w e t).1
    unfold doActionFor
    cases e with
    | an i =>
      cases hA : getAn w i with
      | none => simp only [hA, getAn_logEv]; exact marksMono_rfl _
      | some a =>
        cases hg : anGuard a.state t with
        | none => simp only [hA, hg, getAn_logEv]; exact marksMono_rfl _
        | some st2 =>
          simp only [hA, hg, getAn_logEv]
          exact (marksMono_logEv _ _).comp (marksMono_applyAn _ ih _ i t a st2)
    | ws i =>
      cases hA : getWs w i with
      | none => simp only [hA, getWs_logEv]; exact marksMono_rfl _
      | some x =>
        cases hg : wsGuard w x t with
        | none => simp only [hA, hg, getWs_logEv, wsGuard_logEv]; exact marksMono_rfl _
        | some st2 =>
          simp only [hA, hg, getWs_logEv, wsGuard_logEv]
          exact fun i2 m hm => by simpa [applyWs] using hm
    | smp i =>
      cases hA : getSmp w i with
      | none => simp only [hA, getSmp_logEv]; exact marksMono_rfl _
      | some s =>
        cases hg : smpGuard w s t with
        | none => simp only [hA, hg, getSmp_logEv, smpGuard_logEv]; exact marksMono_rfl _
        | some st2 =>
          simp only [hA, hg, getSmp_logEv, smpGuard_logEv]
          exact fun i2 m hm => by simpa [applySmp] using hm

/-! ### C9: capability markers are only ever added -/

/-- C9: every engine operation — every before-hook, every after-hook (for any
transition kind) and the invoker itself — only ever adds capability markers:
a marker present before the operation is present after it. -/
theorem C9_markers_additive (fuel : Nat) (t : TName) (a : Analysis) (w : World)
    (i : Nat) (m : MName) (h : hasMarkOn w i m = true) :
    hasMarkOn (runBefore (fun w e t => doActionFor fuel w e t) t a w) i m = true ∧
    hasMarkOn (runAfter (fun w e t => doActionFor fuel w e t) t a w) i m = true ∧
    ∀ e, hasMarkOn (doActionFor fuel w e t).1 i m = true :=
  ⟨marksMono_runBefore _ (preservesMarks_doActionFor fuel) t a w i m h,
   marksMono_runAfter _ (preservesMarks_doActionFor fuel) t a w i m h,
   fun e => preservesMarks_doActionFor fuel w e t i m h⟩

/-- Witness for C9: a retract cascade never erases the submitted marker. -/
theorem C9_markers_additive_witness :
    hasMarkOn (runAfter (fun w e t => doActionFor 3 w e t) .retract
      { aid := 1, state := AState.to_be_verified, marks := { submitted := true } }
      { analyses := [{ aid := 1, state := AState.to_be_verified,
                       marks := { submitted := true } }] }) 1 .submittedM = true ∧
    ∀ e, hasMarkOn (doActionFor 3
      { analyses := [{ aid := 1, state := AState.to_be_verified,
                       marks := { submitted := true } }] } e .retract).1 1 .submittedM = true := by
  have h := C9_markers_additive 3 .retract
    { aid := 1, state := AState.to_be_verified, marks := { submitted := true } }
    { analyses := [{ aid := 1, state := AState.to_be_verified,
                     marks := { submitted := true } }] } 1 .submittedM (by decide)
  exact ⟨h.2.1, h.2.2⟩

/-! ### Snapshot observation: groundwork for C10 -/

/-- Whether a trace event, if it is an invocation, observed marker `m` on
analysis `i` in its entry snapshot.  Non-invocation events pass trivially. -/
def obsEv (i : Nat) (m : MName) : Ev → Bool
  | .invoked _ _ snap => lookupSnap snap i m
  | _ => true

/-- If marker `m` on analysis `i` is set in `w`, then it is still set in `w2`
and every trace event of `w2` is an old event of `w` or observed the
marker. -/
def SnapMono (i : Nat) (m : MName) (w w2 : World) : Prop :=
  hasMarkOn w i m = true →
    hasMarkOn w2 i m = true ∧ ∀ ev ∈ w2.trace, ev ∈ w.trace ∨ obsEv i m ev = true

theorem snapMono_rfl (i : Nat) (m : MName) (w : World) : SnapMono i m w w :=
  fun h => ⟨h, fun _ hin => Or.inl hin⟩

def SnapMono.comp {i : Nat} {m : MName} {w1 w2 w3 : World}
    (h1 : SnapMono i m w1 w2) (h2 : SnapMono i m w2 w3) : SnapMono i m w1 w3 := by
  intro h
  obtain ⟨hm1, he1⟩ := h1 h
  obtain ⟨hm2, he2⟩ := h2 hm1
  refine ⟨hm2, fun ev hin => ?_⟩
  rcases he2 ev hin with h' | o
  · exact he1 ev h'
  · exact Or.inr o

theorem snapMono_foldl {α} (i : Nat) (m : MName) (g : World → α → World) (l : List α)
    (hg : ∀ w x, SnapMono i m w (g w x)) : ∀ w, SnapMono i m w (l.foldl g w) := by
  induction l with
  | nil => exact fun w => snapMono_rfl i m w
  | cons x xs ih => exact fun w => (hg w x).comp (ih (g w x))

theorem snapMono_of_same_trace (i : Nat) (m : MName) (w w2 : World)
    (hm : hasMarkOn w i m = true → hasMarkOn w2 i m = true)
    (ht : w2.trace = w.trace) : SnapMono i m w w2 :=
  fun h => ⟨hm h, fun _ hin => Or.inl (ht ▸ hin)⟩

theorem snapMono_addMark (i : Nat) (m : MName) (w : World) (j : Nat) (n : MName) :
    SnapMono i m w (addMark w j n) :=
  snapMono_of_same_trace i m w _ (marksMono_addMark w j n i m) rfl

theorem snapMono_setAnState (i : Nat) (m : MName) (w : World) (j : Nat) (s : AState) :
    SnapMono i m w (setAnState w j s) :=
  snapMono_of_same_trace i m w _ (marksMono_setAnState w j s i m) rfl

theorem snapMono_setCaptureDate (i : Nat) (m : MName) (w : World) (j : Nat) :
    SnapMono i m w (setCaptureDate w j) :=
  snapMono_of_same_trace i m w _ (marksMono_setCaptureDate w j i m) rfl

theorem snapMono_updWs (i : Nat) (m : MName) (w : World) (v : Nat)
    (f : Worksheet → Worksheet) : SnapMono i m w (updWs w v f) :=
  snapMono_of_same_trace i m w _ (marksMono_updWs w v f i m) rfl

theorem snapMono_setRenderOff (i : Nat) (m : MName) (w : World) (j : Nat) :
    SnapMono i m w (setRenderOff w j) :=
  snapMono_of_same_trace i m w _ (marksMono_setRenderOff w j i m) rfl

theorem snapMono_logEv_obs (i : Nat) (m : MName) (w : World) (ev : Ev)
    (hobs : obsEv i m ev = true) : SnapMono i m w (logEv w ev) := by
  intro h
  refine ⟨h, fun ev2 hin => ?_⟩
  rcases List.mem_cons.mp hin with rfl | hold
  · exact Or.inr hobs
  · exact Or.inl hold

theorem lookupSnap_snapMarks (w : World) (i : Nat) (m : MName) :
    lookupSnap (snapMarks w) i m = hasMarkOn w i m := by
  unfold lookupSnap snapMarks hasMarkOn getAn
  induction w.analyses with
  | nil => rfl
  | cons a l ih =>
    by_cases hai : a.aid = i
    · simp [List.find?_cons, hai]
    · simpa [List.find?_cons, hai] using ih

/-- The invocation event logged at the entry of `doActionFor` snapshots the
marker map, so it observes every marker already set. -/
theorem snapMono_logEv_invoked (i : Nat) (m : MName) (w : World) (e : ERef) (t : TName) :
    SnapMono i m w (logEv w (.invoked e t (snapMarks w))) := by
  intro h
  refine ⟨h, fun ev2 hin => ?_⟩
  rcases List.mem_cons.mp hin with rfl | hold
  · exact Or.inr (by simpa [obsEv, lookupSnap_snapMarks] using h)
  · exact Or.inl hold

theorem trace_create_retest (w : World) (o : Nat) :
    (create_retest w o).trace = w.trace ∨
      ∃ ni, (create_retest w o).trace = .retested o ni :: w.trace := by
  unfold create_retest
  cases hO : getAn w o with
  | none => left; rfl
  | some a => cases hW : a.worksheetId <;> simp only [hW] <;> right <;> exact ⟨_, rfl⟩

theorem snapMono_create_retest (i : Nat) (m : MName) (w : World) (o : Nat) :
    SnapMono i m w (create_retest w o) := by
  intro h
  refine ⟨marksMono_create_retest w o i m h, fun ev hin => ?_⟩
  rcases trace_create_retest w o with he | ⟨ni, he⟩
  · exact Or.inl (he ▸ hin)
  · rw [he] at hin
    rcases List.mem_cons.mp hin with rfl | hold
    · exact Or.inr rfl
    · exact Or.inl hold

theorem snapMono_reindex_request (i : Nat) (m : MName) (w : World) (a : Analysis) :
    SnapMono i m w (reindex_request w a) := by
  unfold reindex_request
  split
  · exact snapMono_rfl i m w
  · cases a.requestId with
    | none => exact snapMono_rfl i m w
    | some sid =>
      exact snapMono_foldl i m _ _
        (fun w anc => snapMono_logEv_obs i m w (.reindexed (.smp anc)) rfl) w

/-- The property that a Transition Invoker preserves marker `m` on `i` and
logs only marker-observing invocations once the marker is set. -/
def SnapPreserves (i : Nat) (m : MName) (doAF : DoAF) : Prop :=
  ∀ w e t, SnapMono i m w (doAF w e t).1

theorem snapMono_cascade_to_dependents (i : Nat) (m : MName) (doAF : DoAF)
    (h : SnapPreserves i m doAF) (w : World) (a : Analysis) (t : TName) :
    SnapMono i m w (cascade_to_dependents doAF w a t) :=
  snapMono_foldl i m _ _ (fun w d => h w (.an d) t) w

theorem snapMono_promote_to_dependencies (i : Nat) (m : MName) (doAF : DoAF)
    (h : SnapPreserves i m doAF) (w : World) (a : Analysis) (t : TName) :
    SnapMono i m w (promote_to_dependencies doAF w a t) :=
  snapMono_foldl i m _ _ (fun w d => h w (.an d) t) w

theorem snapMono_ws_promote (i : Nat) (m : MName) (doAF : DoAF)
    (h : SnapPreserves i m doAF) (t : TName) (oi : Option Nat) (w : World) :
    SnapMono i m w (ws_promote doAF t oi w) := by
  cases oi with
  | none => exact snapMono_rfl i m w
  | some v => exact (h w (.ws v) t).comp (snapMono_logEv_obs i m _ _ rfl)

theorem snapMono_smp_try (i : Nat) (m : MName) (doAF : DoAF)
    (h : SnapPreserves i m doAF) (t : TName) (oi : Option Nat) (w : World) :
    SnapMono i m w (smp_try doAF t oi w) := by
  cases oi with
  | none => exact snapMono_rfl i m w
  | some sid => exact h w (.smp sid) t

theorem snapMono_request_tail (i : Nat) (m : MName) (doAF : DoAF)
    (h : SnapPreserves i m doAF) (a : Analysis) (t : TName) (w : World) :
    SnapMono i m w (request_tail doAF a t w) := by
  unfold request_tail
  split
  · exact (snapMono_smp_try i m doAF h t a.requestId w).comp (snapMono_reindex_request i m _ a)
  · exact snapMono_rfl i m w

theorem snapMono_remove_ws_steps (i : Nat) (m : MName) (doAF : DoAF)
    (h : SnapPreserves i m doAF) (v : Nat) (remaining : List Nat) (w : World) :
    SnapMono i m w (remove_ws_steps doAF v remaining w) := by
  unfold remove_ws_steps
  refine @SnapMono.comp _ _ _
    (if remaining ≠ [] then (doAF (doAF w (.ws v) .submit).1 (.ws v) .verify).1
      else (doAF w (.ws v) .rollback_to_open).1) _ ?_ (snapMono_logEv_obs i m _ _ rfl)
  split
  · exact (h _ _ _).comp (h _ _ _)
  · exact h _ _ _

theorem snapMono_remove_ws_core (i : Nat) (m : MName) (doAF : DoAF)
    (h : SnapPreserves i m doAF) (w : World) (v : Nat) (aId : Nat) :
    SnapMono i m w (remove_ws_core doAF w v aId) := by
  unfold remove_ws_core
  cases hW : getWs w v with
  | none => exact snapMono_rfl i m w
  | some ws =>
    exact (snapMono_updWs i m w v _).comp
      (snapMono_remove_ws_steps i m doAF h v (ws.members.filter (fun x => x != aId))
        (updWs w v (fun o =>
          { o with members := ws.members.filter (fun x => x != aId), layoutValid := false })))

theorem snapMono_remove_analysis_from_worksheet (i : Nat) (m : MName) (doAF : DoAF)
    (h : SnapPreserves i m doAF) (w : World) (a : Analysis) :
    SnapMono i m w (remove_analysis_from_worksheet doAF w a) := by
  unfold remove_analysis_from_worksheet
  cases a.worksheetId with
  | none => exact snapMono_rfl i m w
  | some v => exact snapMono_remove_ws_core i m doAF h w v a.aid

theorem snapMono_verify_and_retest_core (i : Nat) (m : MName) (doAF : DoAF)
    (h : SnapPreserves i m doAF) (w : World) (rid : Nat) :
    SnapMono i m w (verify_and_retest_core doAF w rid) := by
  unfold verify_and_retest_core
  cases hR : getAn w rid with
  | none => exact snapMono_rfl i m w
  | some r =>
    show SnapMono i m w
      (if ¬ r.marks.submitted then w else create_retest (doAF w (.an rid) .verify).1 rid)
    split
    · exact snapMono_rfl i m w
    · exact (h w (.an rid) .verify).comp (snapMono_create_retest i m _ rid)

theorem snapMono_verify_and_retest (i : Nat) (m : MName) (doAF : DoAF)
    (h : SnapPreserves i m doAF) (w : World) (rid : Nat) :
    SnapMono i m w (verify_and_retest doAF w rid) :=
  (snapMono_logEv_obs i m w (.visited rid) rfl).comp
    (snapMono_verify_and_retest_core i m doAF h _ rid)

theorem snapMono_runBefore (i : Nat) (m : MName) (doAF : DoAF)
    (h : SnapPreserves i m doAF) (t : TName) (a : Analysis) (w : World) :
    SnapMono i m w (runBefore doAF t a w) := by
  unfold runBefore
  cases t <;> try exact snapMono_rfl i m w
  all_goals
    unfold before_unassign before_reject
    cases a.worksheetId with
    | none => exact snapMono_rfl i m w
    | some v => exact snapMono_foldl i m _ _ (fun w d => h w (.an d) .unassign) w

theorem snapMono_verify_tail (i : Nat) (m : MName) (doAF : DoAF)
    (h : SnapPreserves i m doAF) (a : Analysis) (w0 : World) :
    SnapMono i m w0
      (if (a.isRequestAnalysis && check_all_verified w0 a) = true then
        reindex_request
          (if w0.autoVerifySamples = true then smp_try doAF .verify a.requestId w0 else w0) a
      else w0) := by
  split
  · refine @SnapMono.comp _ _ _
      (if w0.autoVerifySamples = true then smp_try doAF .verify a.requestId w0 else w0)
      _ ?_ (snapMono_reindex_request i m _ a)
    split
    · exact snapMono_smp_try i m doAF h .verify a.requestId w0
    · exact snapMono_rfl i m w0
  · exact snapMono_rfl i m w0

theorem snapMono_after_submit (i : Nat) (m : MName) (doAF : DoAF)
    (h : SnapPreserves i m doAF) (a : Analysis) (w : World) :
    SnapMono i m w (after_submit doAF a w) := by
  unfold after_submit
  refine @SnapMono.comp _ _ _
    (if a.resultCaptureDate.isNone then setCaptureDate w a.aid else w) _ ?_ ?_
  · split
    · exact snapMono_setCaptureDate i m w a.aid
    · exact snapMono_rfl i m w
  refine (snapMono_addMark i m _ a.aid .submittedM).comp ?_
  refine (snapMono_promote_to_dependencies i m doAF h _ a .submit).comp ?_
  refine (snapMono_ws_promote i m doAF h .submit a.worksheetId _).comp ?_
  exact snapMono_request_tail i m doAF h a .submit _

theorem snapMono_after_verify (i : Nat) (m : MName) (doAF : DoAF)
    (h : SnapPreserves i m doAF) (a : Analysis) (w : World) :
    SnapMono i m w (after_verify doAF a w) := by
  unfold after_verify
  refine (snapMono_addMark i m w a.aid .verifiedM).comp ?_
  refine (snapMono_promote_to_dependencies i m doAF h _ a .verify).comp ?_
  refine (snapMono_ws_promote i m doAF h .verify a.worksheetId _).comp ?_
  exact snapMono_verify_tail i m doAF h a _

theorem snapMono_after_retract (i : Nat) (m : MName) (doAF : DoAF)
    (h : SnapPreserves i m doAF) (a : Analysis) (w : World) :
    SnapMono i m w (after_retract doAF a w) := by
  unfold after_retract
  refine (snapMono_addMark i m w a.aid .retractedM).comp ?_
  refine (snapMono_foldl i m setRenderOff a.attachments
    (fun w j => snapMono_setRenderOff i m w j) _).comp ?_
  refine (snapMono_cascade_to_dependents i m doAF h _ a .retract).comp ?_
  refine (snapMono_promote_to_dependencies i m doAF h _ a .retract).comp ?_
  refine (snapMono_create_retest i m _ a.aid).comp ?_
  exact snapMono_request_tail i m doAF h a .rollback_to_receive _

theorem snapMono_reject_promote_sample (i : Nat) (m : MName) (doAF : DoAF)
    (h : SnapPreserves i m doAF) (a : Analysis) (w : World) :
    SnapMono i m w (reject_promote_sample doAF a w) := by
  unfold reject_promote_sample
  refine (snapMono_smp_try i m doAF h .verify a.requestId w).comp ?_
  refine (snapMono_smp_try i m doAF h .submit a.requestId _).comp ?_
  refine (snapMono_smp_try i m doAF h .rollback_to_receive a.requestId _).comp ?_
  exact snapMono_reindex_request i m _ a

theorem snapMono_after_reject (i : Nat) (m : MName) (doAF : DoAF)
    (h : SnapPreserves i m doAF) (a : Analysis) (w : World) :
    SnapMono i m w (after_reject doAF a w) := by
  unfold after_reject
  refine (snapMono_addMark i m w a.aid .rejectedM).comp ?_
  refine (snapMono_remove_analysis_from_worksheet i m doAF h _ a).comp ?_
  refine (snapMono_foldl i m setRenderOff a.attachments
    (fun w j => snapMono_setRenderOff i m w j) _).comp ?_
  refine (snapMono_cascade_to_dependents i m doAF h _ a .reject).comp ?_
  split
  · exact snapMono_reject_promote_sample i m doAF h a _
  · exact snapMono_rfl i m _

theorem snapMono_after_retest (i : Nat) (m : MName) (doAF : DoAF)
    (h : SnapPreserves i m doAF) (a : Analysis) (w : World) :
    SnapMono i m w (after_retest doAF a w) := by
  unfold after_retest
  refine (snapMono_addMark i m w a.aid .verifiedM).comp ?_
  refine (snapMono_foldl i m (verify_and_retest doAF)
    ((transitiveDependents (addMark w a.aid .verifiedM) a.aid).reverse ++
      transitiveDependencies (addMark w a.aid .verifiedM) a.aid)
    (fun w r => snapMono_verify_and_retest i m doAF h w r) _).comp ?_
  refine (snapMono_create_retest i m _ a.aid).comp ?_
  exact snapMono_request_tail i m doAF h a .rollback_to_receive _

theorem snapMono_runAfter (i : Nat) (m : MName) (doAF : DoAF)
    (h : SnapPreserves i m doAF) (t : TName) (a : Analysis) (w : World) :
    SnapMono i m w (runAfter doAF t a w) := by
  cases t with
  | assign => exact snapMono_reindex_request i m w a
  | unassign =>
    exact (snapMono_remove_analysis_from_worksheet i m doAF h w a).comp
      (snapMono_reindex_request i m _ a)
  | submit => exact snapMono_after_submit i m doAF h a w
  | verify => exact snapMono_after_verify i m doAF h a w
  | retract => exact snapMono_after_retract i m doAF h a w
  | reject => exact snapMono_after_reject i m doAF h a w
  | retest => exact snapMono_after_retest i m doAF h a w
  | cancel => exact snapMono_remove_analysis_from_worksheet i m doAF h w a
  | reinstate => exact snapMono_rfl i m w
  | publish => exact snapMono_rfl i m w
  | rollback_to_receive => exact snapMono_rfl i m w
  | rollback_to_open => exact snapMono_rfl i m w

theorem snapMono_applyAn_after (i : Nat) (m : MName) (doAF : DoAF)
    (h : SnapPreserves i m doAF) (w : World) (j : Nat) (t : TName) :
    SnapMono i m w (applyAn_after doAF w j t) := by
  unfold applyAn_after
  cases getAn w j with
  | none => exact snapMono_rfl i m w
  | some a2 => exact snapMono_runAfter i m doAF h t a2 w

theorem snapMono_applyAn (i : Nat) (m : MName) (doAF : DoAF)
    (h : SnapPreserves i m doAF) (w : World) (j : Nat) (t : TName)
    (a : Analysis) (st2 : AState) :
    SnapMono i m w (applyAn doAF w j t a st2) := by
  unfold applyAn
  exact (snapMono_runBefore i m doAF h t a w).comp
    ((snapMono_setAnState i m _ j st2).comp
      ((snapMono_logEv_obs i m _ (.applied (.an j) t) rfl).comp
        (snapMono_applyAn_after i m doAF h _ j t)))

/-- The fuel-indexed invoker preserves any set marker and, once it is set,
every invocation it logs observes that marker in its snapshot. -/
theorem snapPreserves_doActionFor (i : Nat) (m : MName) (fuel : Nat) :
    SnapPreserves i m (fun w e t => doActionFor fuel w e t) := by
  induction fuel with
  | zero => exact fun w e t => snapMono_rfl i m w
  | succ f ih =>
    intro w e t
    show SnapMono i m w (doActionFor (f + 1) w e t).1
    unfold doActionFor
    cases e with
    | an j =>
      cases hA : getAn w j with
      | none => simp only [hA, getAn_logEv]; exact snapMono_logEv_invoked i m w _ t
      | some a =>
        cases hg : anGuard a.state t with
        | none => simp only [hA, hg, getAn_logEv]; exact snapMono_logEv_invoked i m w _ t
        | some st2 =>
          simp only [hA, hg, getAn_logEv]
          exact (snapMono_logEv_invoked i m w _ t).comp
            (snapMono_applyAn i m _ ih _ j t a st2)
    | ws j =>
      cases hA : getWs w j with
      | none => simp only [hA, getWs_logEv]; exact snapMono_logEv_invoked i m w _ t
      | some x =>
        cases hg : wsGuard w x t with
        | none =>
          simp only [hA, hg, getWs_logEv, wsGuard_logEv]
          exact snapMono_logEv_invoked i m w _ t
        | some st2 =>
          simp only [hA, hg, getWs_logEv, wsGuard_logEv]
          exact (snapMono_logEv_invoked i m w _ t).comp
            ((snapMono_updWs i m _ j _).comp (snapMono_logEv_obs i m _ _ rfl))
    | smp j =>
      cases hA : getSmp w j with
      | none => simp only [hA, getSmp_logEv]; exact snapMono_logEv_invoked i m w _ t
      | some s =>
        cases hg : smpGuard w s t with
        | none =>
          simp only [hA, hg, getSmp_logEv, smpGuard_logEv]
          exact snapMono_logEv_invoked i m w _ t
        | some st2 =>
          simp only [hA, hg, getSmp_logEv, smpGuard_logEv]
          exact (snapMono_logEv_invoked i m w _ t).comp
            ((snapMono_of_same_trace i m _ _ (fun hh => by simpa using hh) rfl).comp
              (snapMono_logEv_obs i m _ _ rfl))

/-! ### C10: the origin's marker precedes every cascaded invocation -/

/-- The capability marker that each marking transition records. -/
def markerOf : TName → Option MName
  | .submit => some .submittedM
  | .verify => some .verifiedM
  | .retract => some .retractedM
  | .reject => some .rejectedM
  | _ => none

theorem Marks.get_set_self (mk : Marks) (n : MName) : (mk.set n).get n = true := by
  cases n <;> rfl

theorem getAn_updAn_isSome (w : World) (j : Nat) (f : Analysis → Analysis)
    (hf : ∀ a, (f a).aid = a.aid) (i : Nat) :
    (getAn (updAn w j f) i).isSome = (getAn w i).isSome := by
  rw [getAn_updAn w j f hf i]
  cases getAn w i <;> rfl

theorem hasMarkOn_addMark_self (w : World) (i : Nat) (n : MName)
    (ha : (getAn w i).isSome = true) : hasMarkOn (addMark w i n) i n = true := by
  obtain ⟨a, hA⟩ := Option.isSome_iff_exists.mp ha
  have hai : a.aid = i := by simpa using List.find?_some hA
  unfold hasMarkOn addMark
  rw [getAn_updAn w i (fun a => { a with marks := a.marks.set n }) (fun _ => rfl) i, hA]
  simp [hai, Marks.get_set_self]

theorem C10aux (i : Nat) (m : MName) (w1 w2 : World) (old : List Ev)
    (hs : SnapMono i m w1 w2) (hm1 : hasMarkOn w1 i m = true) (ht : w1.trace = old) :
    ∀ ev ∈ w2.trace, ev ∈ old ∨ obsEv i m ev = true := by
  intro ev hin
  rcases (hs hm1).2 ev hin with hold | ho
  · exact Or.inl (ht ▸ hold)
  · exact Or.inr ho

/-- C10: in each marking after-hook (submit, verify, retract, reject), the
origin analysis's marker is added before any cascaded or promoted invocation:
every invocation event the hook generates (each carrying its entry snapshot
of the marker map) observes the origin analysis as already carrying the
transition's marker. -/
theorem C10_marker_set_before_cascade (fuel : Nat) (t : TName) (m : MName) (a : Analysis)
    (w : World) (hm : markerOf t = some m) (ha : (getAn w a.aid).isSome = true) :
    ∀ ev ∈ (runAfter (fun w e t => doActionFor fuel w e t) t a w).trace,
      ev ∈ w.trace ∨ obsEv a.aid m ev = true := by
  cases t with
  | submit =>
    simp only [markerOf] at hm
    injection hm with hm2
    subst hm2
    have hdp := snapPreserves_doActionFor a.aid .submittedM fuel
    have ha0 : (getAn (if a.resultCaptureDate.isNone then setCaptureDate w a.aid else w)
        a.aid).isSome = true := by
      split
      · unfold setCaptureDate
        rw [getAn_updAn_isSome w a.aid
          (fun x => { x with resultCaptureDate := some w.clock }) (fun _ => rfl) a.aid]
        exact ha
      · exact ha
    refine C10aux a.aid .submittedM
      (addMark (if a.resultCaptureDate.isNone then setCaptureDate w a.aid else w)
        a.aid .submittedM) _ w.trace ?_ (hasMarkOn_addMark_self _ a.aid .submittedM ha0) ?_
    · refine (snapMono_promote_to_dependencies a.aid .submittedM _ hdp _ a .submit).comp ?_
      refine (snapMono_ws_promote a.aid .submittedM _ hdp .submit a.worksheetId _).comp ?_
      exact snapMono_request_tail a.aid .submittedM _ hdp a .submit _
    · by_cases hc : a.resultCaptureDate.isNone <;>
        simp [hc, addMark, updAn, setCaptureDate]
  | verify =>
    simp only [markerOf] at hm
    injection hm with hm2
    subst hm2
    have hdp := snapPreserves_doActionFor a.aid .verifiedM fuel
    refine C10aux a.aid .verifiedM (addMark w a.aid .verifiedM) _ w.trace ?_
      (hasMarkOn_addMark_self w a.aid .verifiedM ha) rfl
    refine (snapMono_promote_to_dependencies a.aid .verifiedM _ hdp _ a .verify).comp ?_
    refine (snapMono_ws_promote a.aid .verifiedM _ hdp .verify a.worksheetId _).comp ?_
    exact snapMono_verify_tail a.aid .verifiedM _ hdp a _
  | retract =>
    simp only [markerOf] at hm
    injection hm with hm2
    subst hm2
    have hdp := snapPreserves_doActionFor a.aid .retractedM fuel
    refine C10aux a.aid .retractedM (addMark w a.aid .retractedM) _ w.trace ?_
      (hasMarkOn_addMark_self w a.aid .retractedM ha) rfl
    refine (snapMono_foldl a.aid .retractedM setRenderOff a.attachments
      (fun w j => snapMono_setRenderOff a.aid .retractedM w j) _).comp ?_
    refine (snapMono_cascade_to_dependents a.aid .retractedM _ hdp _ a .retract).comp ?_
    refine (snapMono_promote_to_dependencies a.aid .retractedM _ hdp _ a .retract).comp ?_
    refine (snapMono_create_retest a.aid .retractedM _ a.aid).comp ?_
    exact snapMono_request_tail a.aid .retractedM _ hdp a .rollback_to_receive _
  | reject =>
    simp only [markerOf] at hm
    injection hm with hm2
    subst hm2
    have hdp := snapPreserves_doActionFor a.aid .rejectedM fuel
    refine C10aux a.aid .rejectedM (addMark w a.aid .rejectedM) _ w.trace ?_
      (hasMarkOn_addMark_self w a.aid .rejectedM ha) rfl
    refine (snapMono_remove_analysis_from_worksheet a.aid .rejectedM _ hdp _ a).comp ?_
    refine (snapMono_foldl a.aid .rejectedM setRenderOff a.attachments
      (fun w j => snapMono_setRenderOff a.aid .rejectedM w j) _).comp ?_
    refine (snapMono_cascade_to_dependents a.aid .rejectedM _ hdp _ a .reject).comp ?_
    show SnapMono a.aid .rejectedM
      (cascade_to_dependents (fun w e t => doActionFor fuel w e t)
        (List.foldl setRenderOff
          (remove_analysis_from_worksheet (fun w e t => doActionFor fuel w e t)
            (addMark w a.aid MName.rejectedM) a) a.attachments) a .reject)
      (if a.isRequestAnalysis then
        reject_promote_sample (fun w e t => doActionFor fuel w e t) a
          (cascade_to_dependents (fun w e t => doActionFor fuel w e t)
            (List.foldl setRenderOff
              (remove_analysis_from_worksheet (fun w e t => doActionFor fuel w e t)
                (addMark w a.aid MName.rejectedM) a) a.attachments) a .reject)
      else
        cascade_to_dependents (fun w e t => doActionFor fuel w e t)
          (List.foldl setRenderOff
            (remove_analysis_from_worksheet (fun w e t => doActionFor fuel w e t)
              (addMark w a.aid MName.rejectedM) a) a.attachments) a .reject)
    split
    · exact snapMono_reject_promote_sample a.aid .rejectedM _ hdp a _
    · exact snapMono_rfl a.aid .rejectedM _
  | assign => simp [markerOf] at hm
  | unassign => simp [markerOf] at hm
  | retest => simp [markerOf] at hm
  | cancel => simp [markerOf] at hm
  | reinstate => simp [markerOf] at hm
  | publish => simp [markerOf] at hm
  | rollback_to_receive => simp [markerOf] at hm
  | rollback_to_open => simp [markerOf] at hm

/-! ### Worksheet transition characterization: groundwork for C7 -/

theorem getWs_updWs (w : World) (v : Nat) (f : Worksheet → Worksheet)
    (hf : ∀ x, (f x).wid = x.wid) (i : Nat) :
    getWs (updWs w v f) i = (getWs w i).map (fun x => if x.wid = v then f x else x) := by
  simp only [getWs, updWs]
  rw [List.find?_map]
  have hp : ((fun x : Worksheet => decide (x.wid = i)) ∘ fun x => if x.wid = v then f x else x) =
      (fun x : Worksheet => decide (x.wid = i)) := by
    funext x
    by_cases hj : x.wid = v <;> simp [Function.comp, hj, hf]
  rw [hp]

/-- A worksheet-directed invocation either logs only the attempt, or applies
the guard's target state on top of the attempt log. -/
theorem doActionFor_ws_split (f : Nat) (w : World) (v : Nat) (t : TName) :
    (doActionFor (f + 1) w (.ws v) t).1 = logEv w (.invoked (.ws v) t (snapMarks w)) ∨
    ∃ x st2, getWs w v = some x ∧ wsGuard w x t = some st2 ∧
      (doActionFor (f + 1) w (.ws v) t).1 =
        logEv (updWs (logEv w (.invoked (.ws v) t (snapMarks w))) v
          (fun o => { o with state := st2 })) (.applied (.ws v) t) := by
  unfold doActionFor
  cases hA : getWs w v with
  | none => left; simp [hA]
  | some x =>
    cases hg : wsGuard w x t with
    | none => left; simp [hA, hg]
    | some st2 =>
      right
      exact ⟨x, st2, rfl, hg, by simp [hA, hg, applyWs]⟩

/-- Worksheet-directed invocations never change any worksheet's membership or
cached-layout flag. -/
theorem getWs_members_doActionFor_ws (f : Nat) (w : World) (v2 : Nat) (t : TName) (v : Nat) :
    (getWs (doActionFor (f + 1) w (.ws v2) t).1 v).map (fun o => (o.members, o.layoutValid)) =
      (getWs w v).map (fun o => (o.members, o.layoutValid)) := by
  rcases doActionFor_ws_split f w v2 t with he | ⟨x, st2, _, _, he⟩ <;> rw [he]
  · rfl
  · simp only [getWs_logEv]
    rw [getWs_updWs _ v2 (fun o => { o with state := st2 }) (fun _ => rfl) v]
    simp only [getWs_logEv]
    cases getWs w v with
    | none => rfl
    | some o => by_cases ho : o.wid = v2 <;> simp [ho]

/-- The trace delta of a worksheet-directed invocation. -/
theorem trace_doActionFor_ws (f : Nat) (w : World) (v : Nat) (t : TName) :
    (doActionFor (f + 1) w (.ws v) t).1.trace =
        .invoked (.ws v) t (snapMarks w) :: w.trace ∨
      (doActionFor (f + 1) w (.ws v) t).1.trace =
        .applied (.ws v) t :: .invoked (.ws v) t (snapMarks w) :: w.trace := by
  rcases doActionFor_ws_split f w v t with he | ⟨x, st2, _, _, he⟩ <;> rw [he]
  · left; rfl
  · right; rfl

theorem wsInvocations_nil (v : Nat) : wsInvocations [] v = [] := rfl

theorem wsInvocations_cons (ev : Ev) (tr : List Ev) (v : Nat) :
    wsInvocations (ev :: tr) v =
      wsInvocations tr v ++
        (match ev with
          | .invoked (.ws x) t _ => if x = v then [t] else []
          | _ => []) := by
  unfold wsInvocations
  rw [List.reverse_cons, List.filterMap_append]
  congr 1
  rcases ev with ⟨e, t2, snap⟩ | ⟨e, t2⟩ | _ | _ | _
  · cases e with
    | an x => simp
    | ws x => by_cases hx : x = v <;> simp [hx]
    | smp x => simp
  · cases e <;> simp
  · simp
  · simp
  · simp

/-! ### C7: removing an analysis from its worksheet -/

/-- A worksheet-directed invocation appends exactly one attempt on that
worksheet to the ghost attempt sequence. -/
theorem wsInvocations_doActionFor_ws (f : Nat) (w : World) (v : Nat) (t : TName) :
    wsInvocations (doActionFor (f + 1) w (.ws v) t).1.trace v =
      wsInvocations w.trace v ++ [t] := by
  rcases trace_doActionFor_ws f w v t with h1 | h1 <;> rw [h1] <;>
    simp [wsInvocations_cons]

theorem map_pair_eq (o2 : Option Worksheet) (ms : List Nat) (b : Bool)
    (h : o2.map (fun o => (o.members, o.layoutValid)) = some (ms, b)) :
    o2.map (fun o => o.members) = some ms ∧ o2.map (fun o => o.layoutValid) = some b := by
  cases o2 with
  | none => cases h
  | some o =>
    simp only [Option.map_some'] at h ⊢
    have h2 := Option.some.inj h
    rw [Prod.ext_iff] at h2
    simp only [Prod.fst, Prod.snd] at h2
    exact ⟨by rw [h2.1], by rw [h2.2]⟩

/-- What the tail of `remove_analysis_from_worksheet` does, for an arbitrary
remaining-membership list and base world: membership and layout flags are
left to the base world, the worksheet attempts are "submit" then "verify"
when members remain and "rollback_to_open" otherwise, and the worksheet
reindex comes last. -/
theorem remove_ws_steps_facts (f : Nat) (v : Nat) (remaining : List Nat) (wb : World) :
    (getWs (remove_ws_steps (fun w e t => doActionFor (f + 1) w e t) v remaining wb) v).map
        (fun o => (o.members, o.layoutValid)) =
      (getWs wb v).map (fun o => (o.members, o.layoutValid)) ∧
    wsInvocations
        (remove_ws_steps (fun w e t => doActionFor (f + 1) w e t) v remaining wb).trace v =
      wsInvocations wb.trace v ++
        (if remaining ≠ [] then [.submit, .verify] else [.rollback_to_open]) ∧
    (remove_ws_steps (fun w e t => doActionFor (f + 1) w e t) v remaining wb).trace.head? =
      some (.reindexed (.ws v)) := by
  unfold remove_ws_steps
  by_cases hrem : remaining = []
  · subst hrem
    rw [if_neg (by simp)]
    refine ⟨?_, ?_, rfl⟩
    · simp only [getWs_logEv]
      exact getWs_members_doActionFor_ws f wb v .rollback_to_open v
    · show wsInvocations (_ :: _) v = _
      rw [wsInvocations_cons]
      simp [wsInvocations_doActionFor_ws]
  · rw [if_pos hrem]
    refine ⟨?_, ?_, rfl⟩
    · simp only [getWs_logEv]
      rw [getWs_members_doActionFor_ws f _ v .verify v]
      exact getWs_members_doActionFor_ws f wb v .submit v
    · show wsInvocations (_ :: _) v = _
      rw [wsInvocations_cons]
      simp [wsInvocations_doActionFor_ws, hrem]

/-- A run of `remove_analysis_from_worksheet` under a fuelled invoker. -/
def removeRun (f : Nat) (w : World) (a : Analysis) : World :=
  remove_analysis_from_worksheet (fun w e t => doActionFor (f + 1) w e t) w a

/-- C7: removing an analysis that is assigned to a worksheet removes it from
the membership list and invalidates the cached layout; then, if members
remain, "submit" and then "verify" are the worksheet transitions attempted —
in that order — while no members remaining leads to a single
"rollback_to_open" attempt; and in both cases the very last action is the
unconditional worksheet reindex. -/
theorem C7_remove_analysis_from_worksheet (f : Nat) (w : World) (a : Analysis)
    (v : Nat) (ws : Worksheet) (hws : a.worksheetId = some v) (hget : getWs w v = some ws)
    (htr : w.trace = []) :
    (getWs (removeRun f w a) v).map (fun o => o.members) =
      some (ws.members.filter (fun x => x != a.aid)) ∧
    (getWs (removeRun f w a) v).map (fun o => o.layoutValid) = some false ∧
    (ws.members.filter (fun x => x != a.aid) ≠ [] →
      wsInvocations (removeRun f w a).trace v = [.submit, .verify]) ∧
    (ws.members.filter (fun x => x != a.aid) = [] →
      wsInvocations (removeRun f w a).trace v = [.rollback_to_open]) ∧
    (removeRun f w a).trace.head? = some (.reindexed (.ws v)) := by
  have hwid : ws.wid = v := by simpa using List.find?_some hget
  have hrun : removeRun f w a =
      remove_ws_steps (fun w e t => doActionFor (f + 1) w e t) v
        (ws.members.filter (fun x => x != a.aid))
        (updWs w v (fun o =>
          { o with members := ws.members.filter (fun x => x != a.aid),
                   layoutValid := false })) := by
    unfold removeRun remove_analysis_from_worksheet remove_ws_core
    rw [hws]
    simp only [hget]
  obtain ⟨hmem, hinv, hhead⟩ := remove_ws_steps_facts f v
    (ws.members.filter (fun x => x != a.aid))
    (updWs w v (fun o =>
      { o with members := ws.members.filter (fun x => x != a.aid), layoutValid := false }))
  rw [getWs_updWs w v (fun o =>
    { o with members := ws.members.filter (fun x => x != a.aid), layoutValid := false })
    (fun _ => rfl) v, hget] at hmem
  simp only [hwid, if_pos rfl, Option.map_some'] at hmem
  have hbase : wsInvocations
      (updWs w v (fun o =>
        { o with members := ws.members.filter (fun x => x != a.aid),
                 layoutValid := false })).trace v = [] := by
    show wsInvocations w.trace v = []
    rw [htr]
    rfl
  rw [hbase] at hinv
  obtain ⟨hm1, hm2⟩ := map_pair_eq _ _ _ hmem
  rw [hrun]
  refine ⟨hm1, hm2, fun hne => ?_, fun he => ?_, hhead⟩
  · rw [hinv]
    simp [hne]
  · rw [hinv]
    simp [he]

/-- Witness for C7: removing analysis 1 from worksheet 7 (members 1 and 2). -/
theorem C7_remove_analysis_from_worksheet_witness :
    (getWs (removeRun 1
        { analyses :=
            [ { aid := 1, state := AState.to_be_verified, worksheetId := some 7 }
            , { aid := 2, state := AState.to_be_verified, worksheetId := some 7 } ]
          worksheets := [{ wid := 7, state := .open_, members := [1, 2] }] }
        { aid := 1, state := AState.to_be_verified, worksheetId := some 7 }) 7).map
      (fun o => o.members) = some [2] ∧
    wsInvocations (removeRun 1
        { analyses :=
            [ { aid := 1, state := AState.to_be_verified, worksheetId := some 7 }
            , { aid := 2, state := AState.to_be_verified, worksheetId := some 7 } ]
          worksheets := [{ wid := 7, state := .open_, members := [1, 2] }] }
        { aid := 1, state := AState.to_be_verified, worksheetId := some 7 }).trace 7 =
      [.submit, .verify] := by
  have h := C7_remove_analysis_from_worksheet 1
    { analyses :=
        [ { aid := 1, state := AState.to_be_verified, worksheetId := some 7 }
        , { aid := 2, state := AState.to_be_verified, worksheetId := some 7 } ]
      worksheets := [{ wid := 7, state := .open_, members := [1, 2] }] }
    { aid := 1, state := AState.to_be_verified, worksheetId := some 7 }
    7 { wid := 7, state := .open_, members := [1, 2] } rfl (by decide) rfl
  exact ⟨h.1, h.2.2.1 (by decide)⟩

/-! ### Sample transition characterization: groundwork for C4 and C6 -/

theorem getSmp_updSmp (w : World) (v : Nat) (f : Sample → Sample)
    (hf : ∀ x, (f x).sid = x.sid) (i : Nat) :
    getSmp (updSmp w v f) i = (getSmp w i).map (fun x => if x.sid = v then f x else x) := by
  simp only [getSmp, updSmp]
  rw [List.find?_map]
  have hp : ((fun x : Sample => decide (x.sid = i)) ∘ fun x => if x.sid = v then f x else x) =
      (fun x : Sample => decide (x.sid = i)) := by
    funext x
    by_cases hj : x.sid = v <;> simp [Function.comp, hj, hf]
  rw [hp]

/-- A refused sample invocation only logs the attempt. -/
theorem doActionFor_smp_refused (f : Nat) (w : World) (s : Nat) (t : TName) (smp : Sample)
    (hget : getSmp w s = some smp) (hg : smpGuard w smp t = none) :
    (doActionFor (f + 1) w (.smp s) t).1 = logEv w (.invoked (.smp s) t (snapMarks w)) := by
  unfold doActionFor
  simp [hget, hg]

/-- An applied sample invocation logs the attempt, applies the guard's target
state and logs the application. -/
theorem doActionFor_smp_applied (f : Nat) (w : World) (s : Nat) (t : TName) (smp : Sample)
    (st2 : SState) (hget : getSmp w s = some smp) (hg : smpGuard w smp t = some st2) :
    (doActionFor (f + 1) w (.smp s) t).1 =
      logEv (updSmp (logEv w (.invoked (.smp s) t (snapMarks w))) s
        (fun o => { o with state := st2 })) (.applied (.smp s) t) := by
  unfold doActionFor
  simp [hget, hg, applySmp]

/-- A sample-directed invocation either logs only the attempt, or applies the
guard's target state on top of the attempt log. -/
theorem doActionFor_smp_split (f : Nat) (w : World) (s : Nat) (t : TName) :
    (doActionFor (f + 1) w (.smp s) t).1 = logEv w (.invoked (.smp s) t (snapMarks w)) ∨
    ∃ x st2, getSmp w s = some x ∧ smpGuard w x t = some st2 ∧
      (doActionFor (f + 1) w (.smp s) t).1 =
        logEv (updSmp (logEv w (.invoked (.smp s) t (snapMarks w))) s
          (fun o => { o with state := st2 })) (.applied (.smp s) t) := by
  cases hA : getSmp w s with
  | none =>
    left
    unfold doActionFor
    simp [hA]
  | some x =>
    cases hg : smpGuard w x t with
    | none =>
      left
      exact doActionFor_smp_refused f w s t x hA hg
    | some st2 =>
      right
      exact ⟨x, st2, rfl, hg, doActionFor_smp_applied f w s t x st2 hA hg⟩

/-- The trace delta of a sample-directed invocation. -/
theorem trace_doActionFor_smp_shape (f : Nat) (w : World) (s : Nat) (t : TName) :
    (doActionFor (f + 1) w (.smp s) t).1.trace =
        .invoked (.smp s) t (snapMarks w) :: w.trace ∨
      (doActionFor (f + 1) w (.smp s) t).1.trace =
        .applied (.smp s) t :: .invoked (.smp s) t (snapMarks w) :: w.trace := by
  rcases doActionFor_smp_split f w s t with he | ⟨x, st2, _, _, he⟩ <;> rw [he]
  · left; rfl
  · right; rfl

theorem analyses_doActionFor_smp (f : Nat) (w : World) (s : Nat) (t : TName) :
    (doActionFor (f + 1) w (.smp s) t).1.analyses = w.analyses := by
  unfold doActionFor
  cases hget : getSmp w s with
  | none => simp [hget]; rfl
  | some smp =>
    cases hg : smpGuard w smp t with
    | none => simp [hget, hg]; rfl
    | some st2 => simp [hget, hg, applySmp]; rfl

theorem smpGuard_congr (w1 w2 : World) (s : Sample) (t : TName)
    (h : w1.analyses = w2.analyses) : smpGuard w1 s t = smpGuard w2 s t := by
  unfold smpGuard validSampleAnalyses sampleAnalyses
  rw [h]

theorem smpInvocations_cons (ev : Ev) (tr : List Ev) (s : Nat) :
    smpInvocations (ev :: tr) s =
      smpInvocations tr s ++
        (match ev with
          | .invoked (.smp x) t _ => if x = s then [t] else []
          | _ => []) := by
  unfold smpInvocations
  rw [List.reverse_cons, List.filterMap_append]
  congr 1
  rcases ev with ⟨e, t2, snap⟩ | ⟨e, t2⟩ | _ | _ | _
  · cases e with
    | an x => simp
    | ws x => simp
    | smp x => by_cases hx : x = s <;> simp [hx]
  · cases e <;> simp
  · simp
  · simp
  · simp

theorem appliedCount_cons (ev : Ev) (tr : List Ev) (e : ERef) (t : TName) :
    appliedCount (ev :: tr) e t =
      appliedCount tr e t + (if ev = .applied e t then 1 else 0) := by
  unfold appliedCount
  rw [List.countP_cons]
  congr 1
  rcases ev with ⟨e2, t2, snap⟩ | ⟨e2, t2⟩ | _ | _ | _
  · simp
  · by_cases h1 : e2 = e <;> by_cases h2 : t2 = t <;> simp [h1, h2]
  · simp
  · simp
  · simp

theorem trace_foldl_reindex (l0 : List Nat) : ∀ w : World,
    ∃ l, (l0.foldl (fun w anc => logEv w (.reindexed (.smp anc))) w).trace = l ++ w.trace ∧
      ∀ ev ∈ l, ∃ e, ev = Ev.reindexed e := by
  induction l0 with
  | nil => exact fun w => ⟨[], rfl, by simp⟩
  | cons x xs ih =>
    intro w
    obtain ⟨l, hl, hall⟩ := ih (logEv w (.reindexed (.smp x)))
    refine ⟨l ++ [.reindexed (.smp x)], ?_, ?_⟩
    · show (xs.foldl _ (logEv w (.reindexed (.smp x)))).trace = _
      rw [hl]
      simp [logEv]
    · intro ev hin
      rcases List.mem_append.mp hin with h1 | h2
      · exact hall ev h1
      · rw [List.mem_singleton.mp h2]
        exact ⟨.smp x, rfl⟩

theorem trace_reindex_request (w : World) (a : Analysis) :
    ∃ l, (reindex_request w a).trace = l ++ w.trace ∧
      ∀ ev ∈ l, ∃ e, ev = Ev.reindexed e := by
  unfold reindex_request
  split
  · exact ⟨[], rfl, by simp⟩
  · cases a.requestId with
    | none => exact ⟨[], rfl, by simp⟩
    | some sid =>
      exact trace_foldl_reindex
        (sid :: (match getSmp w sid with | some s => s.ancestors | none => [])) w

theorem smpInvocations_append_reindexed (l tr : List Ev) (s : Nat)
    (hall : ∀ ev ∈ l, ∃ e, ev = Ev.reindexed e) :
    smpInvocations (l ++ tr) s = smpInvocations tr s := by
  unfold smpInvocations
  rw [List.reverse_append, List.filterMap_append]
  have hnil : List.filterMap (fun ev => match ev with
      | Ev.invoked (ERef.smp x) t _ => if x = s then some t else none
      | _ => none) l.reverse = [] := by
    rw [List.filterMap_eq_nil_iff]
    intro ev hin
    obtain ⟨e, he⟩ := hall ev (List.mem_reverse.mp hin)
    rw [he]
  rw [hnil, List.append_nil]

theorem appliedCount_append_reindexed (l tr : List Ev) (e : ERef) (t : TName)
    (hall : ∀ ev ∈ l, ∃ e2, ev = Ev.reindexed e2) :
    appliedCount (l ++ tr) e t = appliedCount tr e t := by
  unfold appliedCount
  rw [List.countP_append]
  have hz : List.countP (fun ev => match ev with
      | Ev.applied e2 t2 => e2 == e && t2 == t
      | _ => false) l = 0 := by
    rw [List.countP_eq_zero]
    intro ev hin
    obtain ⟨e2, he⟩ := hall ev hin
    rw [he]
    simp
  rw [hz, Nat.zero_add]

/-! Guard-shape lemmas for the sample workflow (spec-modelled). -/

theorem smpGuard_verify_extract (w : World) (s : Sample) (st : SState)
    (h : smpGuard w s .verify = some st) : st = .verified ∧ s.state = .to_be_verified := by
  simp only [smpGuard] at h
  split at h
  · next hc => exact ⟨(Option.some.inj h).symm, hc.1⟩
  · cases h

theorem smpGuard_submit_extract (w : World) (s : Sample) (st : SState)
    (h : smpGuard w s .submit = some st) :
    st = .to_be_verified ∧ s.state = .received ∧ validSampleAnalyses w s.sid ≠ [] ∧
      (validSampleAnalyses w s.sid).all (fun a => stateSubmitted a.state) = true := by
  simp only [smpGuard] at h
  split at h
  · next hc => exact ⟨(Option.some.inj h).symm, hc.1, hc.2.1, hc.2.2⟩
  · cases h

theorem smpGuard_rollback_extract (w : World) (s : Sample) (st : SState)
    (h : smpGuard w s .rollback_to_receive = some st) :
    st = .received ∧ s.state = .to_be_verified := by
  simp only [smpGuard] at h
  split at h
  · next hc => exact ⟨(Option.some.inj h).symm, hc.1⟩
  · cases h

theorem smpGuard_submit_none (w : World) (s : Sample) (h : s.state ≠ .received) :
    smpGuard w s .submit = none := by
  simp only [smpGuard]
  rw [if_neg]
  rintro ⟨h1, _⟩
  exact h h1

theorem smpGuard_verify_none (w : World) (s : Sample) (h : s.state ≠ .to_be_verified) :
    smpGuard w s .verify = none := by
  simp only [smpGuard]
  rw [if_neg]
  rintro ⟨h1, _⟩
  exact h h1

theorem smpGuard_rollback_none_state (w : World) (s : Sample)
    (h : s.state ≠ .to_be_verified) : smpGuard w s .rollback_to_receive = none := by
  simp only [smpGuard]
  rw [if_neg]
  rintro ⟨h1, _⟩
  exact h h1

theorem smpGuard_rollback_none_children (w : World) (s : Sample)
    (h1 : validSampleAnalyses w s.sid ≠ [])
    (h2 : (validSampleAnalyses w s.sid).all (fun a => stateSubmitted a.state) = true) :
    smpGuard w s .rollback_to_receive = none := by
  simp only [smpGuard]
  rw [if_neg]
  rintro ⟨_, h3 | h3⟩
  · exact h1 h3
  · exact h3 h2

/-! ### C4: the reject promotion tries verify, submit, rollback in order -/

@[simp] theorem trace_updSmp (w : World) (v : Nat) (f : Sample → Sample) :
    (updSmp w v f).trace = w.trace := rfl

@[simp] theorem trace_updWs (w : World) (v : Nat) (f : Worksheet → Worksheet) :
    (updWs w v f).trace = w.trace := rfl

@[simp] theorem trace_updAn (w : World) (v : Nat) (f : Analysis → Analysis) :
    (updAn w v f).trace = w.trace := rfl

@[simp] theorem trace_logEv (w : World) (e : Ev) : (logEv w e).trace = e :: w.trace := rfl

theorem samples_foldl_logEv (l : List Nat) : ∀ w : World,
    (l.foldl (fun w anc => logEv w (.reindexed (.smp anc))) w).samples = w.samples := by
  induction l with
  | nil => exact fun _ => rfl
  | cons x xs ih => exact fun w => ih (logEv w (.reindexed (.smp x)))

theorem samples_reindex_request (w : World) (a : Analysis) :
    (reindex_request w a).samples = w.samples := by
  unfold reindex_request
  split
  · rfl
  · cases a.requestId with
    | none => rfl
    | some sid => exact samples_foldl_logEv _ w

theorem getSmp_congr_samples (w1 w2 : World) (h : w1.samples = w2.samples) (i : Nat) :
    getSmp w1 i = getSmp w2 i := by
  unfold getSmp
  rw [h]

theorem validSampleAnalyses_congr (w1 w2 : World) (h : w1.analyses = w2.analyses) (s : Nat) :
    validSampleAnalyses w1 s = validSampleAnalyses w2 s := by
  unfold validSampleAnalyses sampleAnalyses
  rw [h]

/-- After the reindex tail, sample state, sample attempt sequence and applied
counts are those of the world before the reindex. -/
theorem post_reindex_facts (w3 : World) (a : Analysis) (sid : Nat) :
    smpStateOf (reindex_request w3 a) sid = smpStateOf w3 sid ∧
    smpInvocations (reindex_request w3 a).trace sid = smpInvocations w3.trace sid ∧
    ∀ t, appliedCount (reindex_request w3 a).trace (.smp sid) t =
      appliedCount w3.trace (.smp sid) t := by
  obtain ⟨l, hl, hall⟩ := trace_reindex_request w3 a
  refine ⟨?_, ?_, fun t => ?_⟩
  · unfold smpStateOf
    rw [getSmp_congr_samples _ w3 (samples_reindex_request w3 a) sid]
  · rw [hl]
    exact smpInvocations_append_reindexed l w3.trace sid hall
  · rw [hl]
    exact appliedCount_append_reindexed l w3.trace (.smp sid) t hall

/-- A run of the sample-promotion tail of `after_reject` under a fuelled
invoker. -/
def rejectPromoteRun (f : Nat) (a : Analysis) (w : World) : World :=
  reject_promote_sample (fun w e t => doActionFor (f + 1) w e t) a w

/-- C4: after the reject transition, the transitions attempted on the owning
sample are exactly "verify", then "submit", then "rollback_to_receive", in
that order; at most one of them is applied, and the resulting sample state is
decided by the first of the three whose guard passes at entry (child-state
guard conditions cannot change during the sequence). -/
theorem C4_reject_promotion_order_first_wins (f : Nat) (a : Analysis) (w : World)
    (sid : Nat) (smp : Sample)
    (hreq : a.requestId = some sid) (hget : getSmp w sid = some smp) (htr : w.trace = []) :
    smpInvocations (rejectPromoteRun f a w).trace sid =
      [.verify, .submit, .rollback_to_receive] ∧
    appliedCount (rejectPromoteRun f a w).trace (.smp sid) .verify +
      appliedCount (rejectPromoteRun f a w).trace (.smp sid) .submit +
      appliedCount (rejectPromoteRun f a w).trace (.smp sid) .rollback_to_receive ≤ 1 ∧
    smpStateOf (rejectPromoteRun f a w) sid =
      some (if (smpGuard w smp .verify).isSome then SState.verified
        else if (smpGuard w smp .submit).isSome then SState.to_be_verified
        else if (smpGuard w smp .rollback_to_receive).isSome then SState.received
        else smp.state) := by
  have hsid : smp.sid = sid := by simpa using List.find?_some hget
  have hrun : rejectPromoteRun f a w =
      reindex_request
        ((doActionFor (f + 1)
          ((doActionFor (f + 1)
            ((doActionFor (f + 1) w (.smp sid) .verify).1) (.smp sid) .submit).1)
          (.smp sid) .rollback_to_receive).1) a := by
    unfold rejectPromoteRun reject_promote_sample smp_try
    rw [hreq]
  rw [hrun]
  obtain ⟨hpr1, hpr2, hpr3⟩ := post_reindex_facts _ a sid
  rw [hpr1, hpr2, hpr3, hpr3, hpr3]
  cases hg1 : smpGuard w smp .verify with
  | some st2 =>
    obtain ⟨hst2, _⟩ := smpGuard_verify_extract w smp st2 hg1
    subst hst2
    have he1 := doActionFor_smp_applied f w sid .verify smp .verified hget hg1
    have hget1 : getSmp (doActionFor (f + 1) w (.smp sid) .verify).1 sid =
        some { smp with state := .verified } := by
      rw [he1]
      simp only [getSmp_logEv]
      rw [getSmp_updSmp _ sid (fun o => { o with state := .verified }) (fun _ => rfl) sid]
      simp only [getSmp_logEv]
      rw [hget]
      simp [hsid]
    have hg2 : smpGuard (doActionFor (f + 1) w (.smp sid) .verify).1
        { smp with state := .verified } .submit = none :=
      smpGuard_submit_none _ _ (by simp)
    have he2 := doActionFor_smp_refused f _ sid .submit _ hget1 hg2
    have hget2 : getSmp ((doActionFor (f + 1)
        ((doActionFor (f + 1) w (.smp sid) .verify).1) (.smp sid) .submit).1) sid =
        some { smp with state := .verified } := by
      rw [he2]
      simpa using hget1
    have hg3 : smpGuard ((doActionFor (f + 1)
        ((doActionFor (f + 1) w (.smp sid) .verify).1) (.smp sid) .submit).1)
        { smp with state := .verified } .rollback_to_receive = none :=
      smpGuard_rollback_none_state _ _ (by simp)
    have he3 := doActionFor_smp_refused f _ sid .rollback_to_receive _ hget2 hg3
    rw [he3, he2, he1]
    refine ⟨?_, ?_, ?_⟩
    · simp [smpInvocations_cons, logEv, htr, smpInvocations]
    · simp [appliedCount_cons, logEv, htr, appliedCount]
    · unfold smpStateOf
      simp only [getSmp_logEv]
      rw [getSmp_updSmp _ sid (fun o => { o with state := .verified }) (fun _ => rfl) sid]
      simp only [getSmp_logEv]
      rw [hget]
      simp [hsid]
  | none =>
    have he1 := doActionFor_smp_refused f w sid .verify smp hget hg1
    have hget1 : getSmp (doActionFor (f + 1) w (.smp sid) .verify).1 sid = some smp := by
      rw [he1]
      simpa using hget
    have han1 : (doActionFor (f + 1) w (.smp sid) .verify).1.analyses = w.analyses := by
      rw [he1]
      rfl
    cases hg2 : smpGuard w smp .submit with
    | some st2 =>
      obtain ⟨hst2, _, hne, hall⟩ := smpGuard_submit_extract w smp st2 hg2
      subst hst2
      have hg2w : smpGuard (doActionFor (f + 1) w (.smp sid) .verify).1 smp .submit =
          some .to_be_verified := by
        rw [smpGuard_congr _ w smp .submit han1]
        exact hg2
      have he2 := doActionFor_smp_applied f _ sid .submit smp .to_be_verified hget1 hg2w
      have hget2 : getSmp ((doActionFor (f + 1)
          ((doActionFor (f + 1) w (.smp sid) .verify).1) (.smp sid) .submit).1) sid =
          some { smp with state := .to_be_verified } := by
        rw [he2]
        simp only [getSmp_logEv]
        rw [getSmp_updSmp _ sid (fun o => { o with state := .to_be_verified })
          (fun _ => rfl) sid]
        simp only [getSmp_logEv]
        rw [hget1]
        simp [hsid]
      have han2 : ((doActionFor (f + 1)
          ((doActionFor (f + 1) w (.smp sid) .verify).1) (.smp sid) .submit).1).analyses =
          w.analyses := by
        rw [analyses_doActionFor_smp, han1]
      have hg3 : smpGuard ((doActionFor (f + 1)
          ((doActionFor (f + 1) w (.smp sid) .verify).1) (.smp sid) .submit).1)
          { smp with state := .to_be_verified } .rollback_to_receive = none := by
        apply smpGuard_rollback_none_children
        · show validSampleAnalyses _ smp.sid ≠ []
          rw [validSampleAnalyses_congr _ w han2 smp.sid]
          exact hne
        · show (validSampleAnalyses _ smp.sid).all _ = true
          rw [validSampleAnalyses_congr _ w han2 smp.sid]
          exact hall
      have he3 := doActionFor_smp_refused f _ sid .rollback_to_receive _ hget2 hg3
      rw [he3, he2, he1]
      refine ⟨?_, ?_, ?_⟩
      · simp [smpInvocations_cons, logEv, htr, smpInvocations]
      · simp [appliedCount_cons, logEv, htr, appliedCount]
      · unfold smpStateOf
        simp only [getSmp_logEv]
        rw [getSmp_updSmp _ sid (fun o => { o with state := .to_be_verified })
          (fun _ => rfl) sid]
        simp only [getSmp_logEv]
        rw [hget]
        simp [hsid, hg1]
    | none =>
      have hg2w : smpGuard (doActionFor (f + 1) w (.smp sid) .verify).1 smp .submit =
          none := by
        rw [smpGuard_congr _ w smp .submit han1]
        exact hg2
      have he2 := doActionFor_smp_refused f _ sid .submit smp hget1 hg2w
      have hget2 : getSmp ((doActionFor (f + 1)
          ((doActionFor (f + 1) w (.smp sid) .verify).1) (.smp sid) .submit).1) sid =
          some smp := by
        rw [he2]
        simpa using hget1
      have han2 : ((doActionFor (f + 1)
          ((doActionFor (f + 1) w (.smp sid) .verify).1) (.smp sid) .submit).1).analyses =
          w.analyses := by
        rw [he2]
        show (doActionFor (f + 1) w (.smp sid) .verify).1.analyses = w.analyses
        exact han1
      cases hg3 : smpGuard w smp .rollback_to_receive with
      | some st2 =>
        obtain ⟨hst2, _⟩ := smpGuard_rollback_extract w smp st2 hg3
        subst hst2
        have hg3w : smpGuard ((doActionFor (f + 1)
            ((doActionFor (f + 1) w (.smp sid) .verify).1) (.smp sid) .submit).1) smp
            .rollback_to_receive = some .received := by
          rw [smpGuard_congr _ w smp .rollback_to_receive han2]
          exact hg3
        have he3 := doActionFor_smp_applied f _ sid .rollback_to_receive smp .received
          hget2 hg3w
        rw [he3, he2, he1]
        refine ⟨?_, ?_, ?_⟩
        · simp [smpInvocations_cons, logEv, htr, smpInvocations]
        · simp [appliedCount_cons, logEv, htr, appliedCount]
        · unfold smpStateOf
          simp only [getSmp_logEv]
          rw [getSmp_updSmp _ sid (fun o => { o with state := .received })
            (fun _ => rfl) sid]
          simp only [getSmp_logEv]
          rw [hget]
          simp [hsid, hg1, hg2]
      | none =>
        have hg3w : smpGuard ((doActionFor (f + 1)
            ((doActionFor (f + 1) w (.smp sid) .verify).1) (.smp sid) .submit).1) smp
            .rollback_to_receive = none := by
          rw [smpGuard_congr _ w smp .rollback_to_receive han2]
          exact hg3
        have he3 := doActionFor_smp_refused f _ sid .rollback_to_receive smp hget2 hg3w
        rw [he3, he2, he1]
        refine ⟨?_, ?_, ?_⟩
        · simp [smpInvocations_cons, logEv, htr, smpInvocations]
        · simp [appliedCount_cons, logEv, htr, appliedCount]
        · unfold smpStateOf
          simp only [getSmp_logEv]
          rw [hget]
          simp [hg1, hg2, hg3]

/-- Witness for C4: sample 5 is to_be_verified with its only valid analysis
verified, so the "verify" attempt wins. -/
theorem C4_reject_promotion_order_first_wins_witness :
    smpInvocations (rejectPromoteRun 0
        { aid := 1, state := AState.rejected, requestId := some 5, isRequestAnalysis := true }
        { analyses := [{ aid := 2, state := AState.verified, requestId := some 5,
                         parentIsSample := true }]
          samples := [{ sid := 5, state := .to_be_verified }] }).trace 5 =
      [.verify, .submit, .rollback_to_receive] ∧
    smpStateOf (rejectPromoteRun 0
        { aid := 1, state := AState.rejected, requestId := some 5, isRequestAnalysis := true }
        { analyses := [{ aid := 2, state := AState.verified, requestId := some 5,
                         parentIsSample := true }]
          samples := [{ sid := 5, state := .to_be_verified }] }) 5 = some .verified := by
  have h := C4_reject_promotion_order_first_wins 0
    { aid := 1, state := AState.rejected, requestId := some 5, isRequestAnalysis := true }
    { analyses := [{ aid := 2, state := AState.verified, requestId := some 5,
                     parentIsSample := true }]
      samples := [{ sid := 5, state := .to_be_verified }] }
    5 { sid := 5, state := .to_be_verified } rfl (by decide) rfl
  exact ⟨h.1, by rw [h.2.2]; decide⟩

/-! ### C6: when after_verify promotes to the sample -/

/-- The analysis after its own verify transition: state set and marker
added — the world in which `after_verify` evaluates `check_all_verified`. -/
def markVerified (w : World) (i : Nat) : World :=
  addMark (setAnState w i .verified) i .verifiedM

theorem check_all_verified_congr (w1 w2 : World) (a : Analysis)
    (h : w1.analyses = w2.analyses) :
    check_all_verified w1 a = check_all_verified w2 a := by
  unfold check_all_verified sampleAnalyses
  rw [h]

theorem invokedOn_append (l tr : List Ev) (e : ERef) (t : TName) :
    invokedOn (l ++ tr) e t = (invokedOn l e t || invokedOn tr e t) :=
  List.any_append

theorem invokedOn_reindexed (l : List Ev) (e : ERef) (t : TName)
    (hall : ∀ ev ∈ l, ∃ e2, ev = Ev.reindexed e2) : invokedOn l e t = false := by
  unfold invokedOn
  rw [List.any_eq_false]
  intro ev hin
  obtain ⟨e2, he⟩ := hall ev hin
  rw [he]
  simp

theorem mem_trace_foldl_reindex (l : List Nat) : ∀ w : World,
    (∀ ev ∈ w.trace, ev ∈ (l.foldl (fun w anc => logEv w (.reindexed (.smp anc))) w).trace) ∧
    ∀ x ∈ l, Ev.reindexed (.smp x) ∈
      (l.foldl (fun w anc => logEv w (.reindexed (.smp anc))) w).trace := by
  induction l with
  | nil => exact fun w => ⟨fun ev hev => hev, by simp⟩
  | cons y ys ih =>
    intro w
    obtain ⟨h1, h2⟩ := ih (logEv w (.reindexed (.smp y)))
    constructor
    · intro ev hev
      exact h1 ev (by simp [hev])
    · intro x hx
      rcases List.mem_cons.mp hx with rfl | hxs
      · exact h1 _ (by simp)
      · exact h2 x hxs

theorem reindexed_mem_reindex_request (w : World) (a : Analysis) (sid : Nat) (s2 : Sample)
    (hreq2 : a.requestId = some sid) (hisr : a.isRequestAnalysis = true)
    (hdup : a.isDuplicate = false) (hgs : getSmp w sid = some s2) :
    Ev.reindexed (.smp sid) ∈ (reindex_request w a).trace ∧
    ∀ anc ∈ s2.ancestors, Ev.reindexed (.smp anc) ∈ (reindex_request w a).trace := by
  unfold reindex_request
  rw [if_neg (by simp [hisr, hdup])]
  rw [hreq2]
  simp only [hgs]
  obtain ⟨_, h2⟩ := mem_trace_foldl_reindex (sid :: s2.ancestors) w
  exact ⟨h2 sid (by simp), fun anc hanc => h2 anc (by simp [hanc])⟩

/-- A full verify transition on an analysis under a fuelled invoker. -/
def verifyRun (f : Nat) (w : World) (i : Nat) : World :=
  (doActionFor (f + 2) w (.an i) .verify).1

/-- The shape of a verify transition on a dependency-free, worksheet-free
analysis: the marked world, then `after_verify`'s conditional tail. -/
theorem verifyRun_char (f : Nat) (w : World) (a : Analysis)
    (hget : getAn w a.aid = some a) (hstate : a.state = .to_be_verified)
    (hdeps : a.dependencies = []) (hwsid : a.worksheetId = none) :
    verifyRun f w a.aid =
      (if (a.isRequestAnalysis && check_all_verified
            (addMark (logEv (setAnState (logEv w
              (.invoked (.an a.aid) .verify (snapMarks w))) a.aid .verified)
              (.applied (.an a.aid) .verify)) a.aid .verifiedM)
            { a with state := .verified }) = true then
        reindex_request
          (if w.autoVerifySamples = true then
            smp_try (fun w e t => doActionFor (f + 1) w e t) .verify a.requestId
              (addMark (logEv (setAnState (logEv w
                (.invoked (.an a.aid) .verify (snapMarks w))) a.aid .verified)
                (.applied (.an a.aid) .verify)) a.aid .verifiedM)
          else
            addMark (logEv (setAnState (logEv w
              (.invoked (.an a.aid) .verify (snapMarks w))) a.aid .verified)
              (.applied (.an a.aid) .verify)) a.aid .verifiedM)
          { a with state := .verified }
      else
        addMark (logEv (setAnState (logEv w
          (.invoked (.an a.aid) .verify (snapMarks w))) a.aid .verified)
          (.applied (.an a.aid) .verify)) a.aid .verifiedM) := by
  unfold verifyRun
  show (doActionFor (f + 1 + 1) w (.an a.aid) .verify).1 = _
  unfold doActionFor
  simp only [getAn_logEv, hget, hstate]
  show (applyAn (fun w e t => doActionFor (f + 1) w e t)
    (logEv w (.invoked (.an a.aid) .verify (snapMarks w))) a.aid .verify a .verified) = _
  unfold applyAn runBefore applyAn_after
  have hget2 : getAn (logEv (setAnState (logEv w
      (.invoked (.an a.aid) .verify (snapMarks w))) a.aid .verified)
      (.applied (.an a.aid) .verify)) a.aid = some { a with state := .verified } := by
    simp only [getAn_logEv]
    rw [setAnState, getAn_updAn _ a.aid (fun x => { x with state := .verified })
      (fun _ => rfl) a.aid]
    simp only [getAn_logEv]
    rw [hget]
    simp
  simp only [hget2]
  show runAfter (fun w e t => doActionFor (f + 1) w e t) .verify { a with state := .verified }
    (logEv (setAnState (logEv w (.invoked (.an a.aid) .verify (snapMarks w))) a.aid .verified)
      (.applied (.an a.aid) .verify)) = _
  unfold runAfter after_verify promote_to_dependencies ws_promote
  simp only [hwsid, hdeps, List.foldl_nil]
  rfl

@[simp] theorem getSmp_updAn (w : World) (i : Nat) (f : Analysis → Analysis) (j : Nat) :
    getSmp (updAn w i f) j = getSmp w j := rfl

/-- C6: after the verify transition on an analysis (here: dependency-free and
not on a worksheet, so that the only sample-verify attempt can come from the
promotion step), "verify" is attempted on the owning sample exactly when the
analysis is directly owned by a request, `check_all_verified` holds in the
marked world, and the auto-verify flag is set; and whenever the first two
conditions hold the sample and all its ancestors are reindexed. -/
theorem C6_verify_promotion_iff (f : Nat) (w : World) (a : Analysis) (sid : Nat)
    (smp : Sample) (hget : getAn w a.aid = some a) (hstate : a.state = .to_be_verified)
    (hdeps : a.dependencies = []) (hwsid : a.worksheetId = none)
    (hdup : a.isDuplicate = false) (hreq : a.requestId = some sid)
    (hgs : getSmp w sid = some smp) (htr : w.trace = []) :
    invokedOn (verifyRun f w a.aid).trace (.smp sid) .verify =
      (a.isRequestAnalysis && check_all_verified (markVerified w a.aid) a &&
        w.autoVerifySamples) ∧
    ((a.isRequestAnalysis && check_all_verified (markVerified w a.aid) a) = true →
      Ev.reindexed (.smp sid) ∈ (verifyRun f w a.aid).trace ∧
      ∀ anc ∈ smp.ancestors, Ev.reindexed (.smp anc) ∈ (verifyRun f w a.aid).trace) := by
  rw [verifyRun_char f w a hget hstate hdeps hwsid]
  set Wm := addMark (logEv (setAnState (logEv w
    (.invoked (.an a.aid) .verify (snapMarks w))) a.aid .verified)
    (.applied (.an a.aid) .verify)) a.aid .verifiedM with hWm
  have hWtr : Wm.trace =
      [.applied (.an a.aid) .verify, .invoked (.an a.aid) .verify (snapMarks w)] := by
    rw [hWm]
    simp [addMark, setAnState, htr]
  have hWsmp : getSmp Wm sid = some smp := hgs
  have hcheckeq : check_all_verified Wm { a with state := .verified } =
      check_all_verified (markVerified w a.aid) a :=
    check_all_verified_congr Wm (markVerified w a.aid) _ rfl
  have hc2 : (a.isRequestAnalysis &&
      check_all_verified Wm { a with state := .verified }) =
      (a.isRequestAnalysis && check_all_verified (markVerified w a.aid) a) := by
    rw [hcheckeq]
  by_cases hcond : (a.isRequestAnalysis && check_all_verified (markVerified w a.aid) a) = true
  · rw [if_pos (by rw [hc2]; exact hcond)]
    have hisr : a.isRequestAnalysis = true := by
      have h2 := hcond
      simp only [Bool.and_eq_true] at h2
      exact h2.1
    by_cases hauto : w.autoVerifySamples = true
    · rw [if_pos hauto]
      have hinner : smp_try (fun w e t => doActionFor (f + 1) w e t) .verify a.requestId Wm =
          (doActionFor (f + 1) Wm (.smp sid) .verify).1 := by
        unfold smp_try
        rw [hreq]
      rw [hinner]
      have hsmpsid : smp.sid = sid := by simpa using List.find?_some hgs
      have hsmp5 : ∃ s2, getSmp (doActionFor (f + 1) Wm (.smp sid) .verify).1 sid = some s2 ∧
          s2.ancestors = smp.ancestors := by
        rcases doActionFor_smp_split f Wm sid .verify with he | ⟨x, st2, hx, _, he⟩
        · exact ⟨smp, by rw [he]; simpa using hWsmp, rfl⟩
        · have hxs : x = smp := by
            rw [hWsmp] at hx
            exact (Option.some.inj hx).symm
          subst hxs
          refine ⟨{ x with state := st2 }, ?_, rfl⟩
          rw [he]
          simp only [getSmp_logEv]
          rw [getSmp_updSmp _ sid (fun o => { o with state := st2 }) (fun _ => rfl) sid]
          simp only [getSmp_logEv]
          rw [hWsmp]
          simp [hsmpsid]
      obtain ⟨s2, hs2, hanc⟩ := hsmp5
      obtain ⟨l, hl, hall⟩ := trace_reindex_request
        (doActionFor (f + 1) Wm (.smp sid) .verify).1 { a with state := .verified }
      constructor
      · rw [hl, invokedOn_append, invokedOn_reindexed l _ _ hall]
        have hW5inv : invokedOn (doActionFor (f + 1) Wm (.smp sid) .verify).1.trace
            (.smp sid) .verify = true := by
          rcases trace_doActionFor_smp_shape f Wm sid .verify with he | he <;>
            rw [he] <;> simp [invokedOn]
        rw [hW5inv]
        rw [hcond, hauto]
        rfl
      · intro _
        have hmem := reindexed_mem_reindex_request
          (doActionFor (f + 1) Wm (.smp sid) .verify).1 { a with state := .verified }
          sid s2 (by simpa using hreq) (by simpa using hisr) (by simpa using hdup) hs2
        rw [hanc] at hmem
        exact hmem
    · rw [if_neg hauto]
      obtain ⟨l, hl, hall⟩ := trace_reindex_request Wm { a with state := .verified }
      constructor
      · rw [hl, invokedOn_append, invokedOn_reindexed l _ _ hall]
        rw [hWtr]
        have : w.autoVerifySamples = false := by
          cases hx : w.autoVerifySamples
          · rfl
          · exact absurd hx hauto
        rw [this]
        simp [invokedOn]
      · intro _
        have hmem := reindexed_mem_reindex_request Wm { a with state := .verified }
          sid smp (by simpa using hreq) (by simpa using hisr) (by simpa using hdup) hWsmp
        exact hmem
  · rw [if_neg (by rw [hc2]; exact hcond)]
    constructor
    · rw [hWtr]
      have : (a.isRequestAnalysis && check_all_verified (markVerified w a.aid) a) = false := by
        cases hx : (a.isRequestAnalysis && check_all_verified (markVerified w a.aid) a)
        · rfl
        · exact absurd hx hcond
      rw [this]
      simp [invokedOn]
    · intro h
      exact absurd h hcond

/-- The C6 witness analysis. -/
def c6an : Analysis :=
  { aid := 1, state := .to_be_verified, marks := { submitted := true },
    requestId := some 0, isRequestAnalysis := true, parentIsSample := true }

/-- The C6 witness world: a single-analysis sample with auto-verify on. -/
def c6w : World :=
  { analyses := [c6an]
    samples := [{ sid := 0, state := .to_be_verified }]
    autoVerifySamples := true }

/-- Witness for C6: single-analysis sample with auto-verify enabled — the
promotion fires and the sample is reindexed. -/
theorem C6_verify_promotion_iff_witness :
    invokedOn (verifyRun 1 c6w 1).trace (.smp 0) .verify = true ∧
    Ev.reindexed (.smp 0) ∈ (verifyRun 1 c6w 1).trace := by
  have h := C6_verify_promotion_iff 1 c6w c6an 0 { sid := 0, state := .to_be_verified }
    (by decide) rfl rfl rfl rfl rfl (by decide) rfl
  refine ⟨?_, ?_⟩
  · rw [show verifyRun 1 c6w 1 = verifyRun 1 c6w c6an.aid from rfl, h.1]
    decide
  · exact (h.2 (by decide)).1

/-! ### Trace extension: every engine operation only prepends events -/

/-- `w2`'s trace extends `w`'s. -/
def Extends (w w2 : World) : Prop :=
  ∃ d, w2.trace = d ++ w.trace

theorem extends_rfl (w : World) : Extends w w := ⟨[], rfl⟩

def Extends.comp {w1 w2 w3 : World} (h1 : Extends w1 w2) (h2 : Extends w2 w3) :
    Extends w1 w3 := by
  obtain ⟨d1, hd1⟩ := h1
  obtain ⟨d2, hd2⟩ := h2
  exact ⟨d2 ++ d1, by rw [hd2, hd1, List.append_assoc]⟩

theorem extends_of_trace_eq {w w2 : World} (h : w2.trace = w.trace) : Extends w w2 :=
  ⟨[], by rw [h]; rfl⟩

theorem extends_logEv (w : World) (ev : Ev) : Extends w (logEv w ev) := ⟨[ev], rfl⟩

theorem extends_create_retest (w : World) (o : Nat) : Extends w (create_retest w o) := by
  rcases trace_create_retest w o with h | ⟨ni, h⟩
  · exact extends_of_trace_eq h
  · exact ⟨[.retested o ni], h⟩

theorem extends_foldl {α} (g : World → α → World) (l : List α)
    (hg : ∀ w x, Extends w (g w x)) : ∀ w, Extends w (l.foldl g w) := by
  induction l with
  | nil => exact fun w => extends_rfl w
  | cons x xs ih => exact fun w => (hg w x).comp (ih (g w x))

theorem extends_reindex_request (w : World) (a : Analysis) :
    Extends w (reindex_request w a) := by
  obtain ⟨l, hl, _⟩ := trace_reindex_request w a
  exact ⟨l, hl⟩

/-- A Transition Invoker that only prepends trace events. -/
def ExtendsInv (doAF : DoAF) : Prop :=
  ∀ w e t, Extends w (doAF w e t).1

theorem extends_addMark (w : World) (j : Nat) (n : MName) : Extends w (addMark w j n) :=
  ⟨[], rfl⟩

theorem extends_setAnState (w : World) (j : Nat) (s : AState) :
    Extends w (setAnState w j s) := ⟨[], rfl⟩

theorem extends_setCaptureDate (w : World) (j : Nat) : Extends w (setCaptureDate w j) :=
  ⟨[], rfl⟩

theorem extends_setRenderOff (w : World) (j : Nat) : Extends w (setRenderOff w j) :=
  ⟨[], rfl⟩

theorem extends_smp_try (doAF : DoAF) (h : ExtendsInv doAF) (t : TName)
    (oi : Option Nat) (w : World) : Extends w (smp_try doAF t oi w) := by
  cases oi with
  | none => exact extends_rfl w
  | some sid => exact h w (.smp sid) t

theorem extends_ws_promote (doAF : DoAF) (h : ExtendsInv doAF) (t : TName)
    (oi : Option Nat) (w : World) : Extends w (ws_promote doAF t oi w) := by
  cases oi with
  | none => exact extends_rfl w
  | some v => exact (h w (.ws v) t).comp (extends_logEv _ _)

theorem extends_request_tail (doAF : DoAF) (h : ExtendsInv doAF) (a : Analysis)
    (t : TName) (w : World) : Extends w (request_tail doAF a t w) := by
  unfold request_tail
  split
  · exact (extends_smp_try doAF h t a.requestId w).comp (extends_reindex_request _ a)
  · exact extends_rfl w

theorem extends_cascade_to_dependents (doAF : DoAF) (h : ExtendsInv doAF)
    (w : World) (a : Analysis) (t : TName) :
    Extends w (cascade_to_dependents doAF w a t) :=
  extends_foldl _ _ (fun w d => h w (.an d) t) w

theorem extends_promote_to_dependencies (doAF : DoAF) (h : ExtendsInv doAF)
    (w : World) (a : Analysis) (t : TName) :
    Extends w (promote_to_dependencies doAF w a t) :=
  extends_foldl _ _ (fun w d => h w (.an d) t) w

theorem extends_remove_ws_steps (doAF : DoAF) (h : ExtendsInv doAF) (v : Nat)
    (remaining : List Nat) (w : World) : Extends w (remove_ws_steps doAF v remaining w) := by
  unfold remove_ws_steps
  refine @Extends.comp _
    (if remaining ≠ [] then (doAF (doAF w (.ws v) .submit).1 (.ws v) .verify).1
      else (doAF w (.ws v) .rollback_to_open).1) _ ?_ (extends_logEv _ _)
  split
  · exact (h _ _ _).comp (h _ _ _)
  · exact h _ _ _

theorem extends_remove_ws_core (doAF : DoAF) (h : ExtendsInv doAF)
    (w : World) (v : Nat) (aId : Nat) :
    Extends w (remove_ws_core doAF w v aId) := by
  unfold remove_ws_core
  cases hW : getWs w v with
  | none => exact extends_rfl w
  | some ws =>
    exact @Extends.comp _ (updWs w v (fun o =>
        { o with members := ws.members.filter (fun m => m != aId), layoutValid := false }))
      _ ⟨[], rfl⟩ (extends_remove_ws_steps doAF h v _ _)

theorem extends_remove_analysis_from_worksheet (doAF : DoAF) (h : ExtendsInv doAF)
    (w : World) (a : Analysis) : Extends w (remove_analysis_from_worksheet doAF w a) := by
  unfold remove_analysis_from_worksheet
  cases a.worksheetId with
  | none => exact extends_rfl w
  | some v => exact extends_remove_ws_core doAF h w v a.aid

theorem extends_verify_and_retest_core (doAF : DoAF) (h : ExtendsInv doAF)
    (w : World) (rid : Nat) : Extends w (verify_and_retest_core doAF w rid) := by
  unfold verify_and_retest_core
  cases hR : getAn w rid with
  | none => exact extends_rfl w
  | some r =>
    show Extends w
      (if ¬ r.marks.submitted then w else create_retest (doAF w (.an rid) .verify).1 rid)
    split
    · exact extends_rfl w
    · exact (h w (.an rid) .verify).comp (extends_create_retest _ rid)

theorem extends_verify_and_retest (doAF : DoAF) (h : ExtendsInv doAF)
    (w : World) (rid : Nat) : Extends w (verify_and_retest doAF w rid) :=
  (extends_logEv w _).comp (extends_verify_and_retest_core doAF h _ rid)

theorem extends_runBefore (doAF : DoAF) (h : ExtendsInv doAF) (t : TName)
    (a : Analysis) (w : World) : Extends w (runBefore doAF t a w) := by
  unfold runBefore
  cases t <;> try exact extends_rfl w
  all_goals
    unfold before_unassign before_reject
    cases a.worksheetId with
    | none => exact extends_rfl w
    | some v => exact extends_foldl _ _ (fun w d => h w (.an d) .unassign) w

theorem extends_after_submit (doAF : DoAF) (h : ExtendsInv doAF)
    (a : Analysis) (w : World) : Extends w (after_submit doAF a w) := by
  unfold after_submit
  refine @Extends.comp _
    (if a.resultCaptureDate.isNone then setCaptureDate w a.aid else w) _ ?_ ?_
  · split
    · exact extends_setCaptureDate w a.aid
    · exact extends_rfl w
  refine (extends_addMark _ a.aid .submittedM).comp ?_
  refine (extends_promote_to_dependencies doAF h _ a .submit).comp ?_
  refine (extends_ws_promote doAF h .submit a.worksheetId _).comp ?_
  exact extends_request_tail doAF h a .submit _

theorem extends_verify_tail (doAF : DoAF) (h : ExtendsInv doAF)
    (a : Analysis) (w0 : World) :
    Extends w0
      (if (a.isRequestAnalysis && check_all_verified w0 a) = true then
        reindex_request
          (if w0.autoVerifySamples = true then smp_try doAF .verify a.requestId w0 else w0) a
      else w0) := by
  split
  · refine @Extends.comp _
      (if w0.autoVerifySamples = true then smp_try doAF .verify a.requestId w0 else w0)
      _ ?_ (extends_reindex_request _ a)
    split
    · exact extends_smp_try doAF h .verify a.requestId w0
    · exact extends_rfl w0
  · exact extends_rfl w0

theorem extends_after_verify (doAF : DoAF) (h : ExtendsInv doAF)
    (a : Analysis) (w : World) : Extends w (after_verify doAF a w) := by
  unfold after_verify
  refine (extends_addMark w a.aid .verifiedM).comp ?_
  refine (extends_promote_to_dependencies doAF h _ a .verify).comp ?_
  refine (extends_ws_promote doAF h .verify a.worksheetId _).comp ?_
  exact extends_verify_tail doAF h a _

theorem extends_after_retract (doAF : DoAF) (h : ExtendsInv doAF)
    (a : Analysis) (w : World) : Extends w (after_retract doAF a w) := by
  unfold after_retract
  refine (extends_addMark w a.aid .retractedM).comp ?_
  refine (extends_foldl setRenderOff a.attachments
    (fun w j => extends_setRenderOff w j) _).comp ?_
  refine (extends_cascade_to_dependents doAF h _ a .retract).comp ?_
  refine (extends_promote_to_dependencies doAF h _ a .retract).comp ?_
  refine (extends_create_retest _ a.aid).comp ?_
  exact extends_request_tail doAF h a .rollback_to_receive _

theorem extends_reject_promote_sample (doAF : DoAF) (h : ExtendsInv doAF)
    (a : Analysis) (w : World) : Extends w (reject_promote_sample doAF a w) := by
  unfold reject_promote_sample
  refine (extends_smp_try doAF h .verify a.requestId w).comp ?_
  refine (extends_smp_try doAF h .submit a.requestId _).comp ?_
  refine (extends_smp_try doAF h .rollback_to_receive a.requestId _).comp ?_
  exact extends_reindex_request _ a

theorem extends_after_reject (doAF : DoAF) (h : ExtendsInv doAF)
    (a : Analysis) (w : World) : Extends w (after_reject doAF a w) := by
  unfold after_reject
  refine (extends_addMark w a.aid .rejectedM).comp ?_
  refine (extends_remove_analysis_from_worksheet doAF h _ a).comp ?_
  refine (extends_foldl setRenderOff a.attachments
    (fun w j => extends_setRenderOff w j) _).comp ?_
  refine (extends_cascade_to_dependents doAF h _ a .reject).comp ?_
  split
  · exact extends_reject_promote_sample doAF h a _
  · exact extends_rfl _

theorem extends_after_retest (doAF : DoAF) (h : ExtendsInv doAF)
    (a : Analysis) (w : World) : Extends w (after_retest doAF a w) := by
  unfold after_retest
  refine (extends_addMark w a.aid .verifiedM).comp ?_
  refine (extends_foldl (verify_and_retest doAF)
    ((transitiveDependents (addMark w a.aid .verifiedM) a.aid).reverse ++
      transitiveDependencies (addMark w a.aid .verifiedM) a.aid)
    (fun w r => extends_verify_and_retest doAF h w r) _).comp ?_
  refine (extends_create_retest _ a.aid).comp ?_
  exact extends_request_tail doAF h a .rollback_to_receive _

theorem extends_after_unassign (doAF : DoAF) (h : ExtendsInv doAF)
    (a : Analysis) (w : World) : Extends w (after_unassign doAF a w) := by
  unfold after_unassign
  exact (extends_remove_analysis_from_worksheet doAF h w a).comp
    (extends_reindex_request _ a)

theorem extends_runAfter (doAF : DoAF) (h : ExtendsInv doAF) (t : TName)
    (a : Analysis) (w : World) : Extends w (runAfter doAF t a w) := by
  cases t with
  | assign => exact extends_reindex_request w a
  | unassign => exact extends_after_unassign doAF h a w
  | submit => exact extends_after_submit doAF h a w
  | verify => exact extends_after_verify doAF h a w
  | retract => exact extends_after_retract doAF h a w
  | reject => exact extends_after_reject doAF h a w
  | retest => exact extends_after_retest doAF h a w
  | cancel => exact extends_remove_analysis_from_worksheet doAF h w a
  | reinstate => exact extends_rfl w
  | publish => exact extends_rfl w
  | rollback_to_receive => exact extends_rfl w
  | rollback_to_open => exact extends_rfl w

theorem extends_applyAn_after (doAF : DoAF) (h : ExtendsInv doAF)
    (w : World) (i : Nat) (t : TName) :
    Extends w (applyAn_after doAF w i t) := by
  unfold applyAn_after
  cases getAn w i with
  | none => exact extends_rfl w
  | some a2 => exact extends_runAfter doAF h t a2 w

theorem extends_applyAn (doAF : DoAF) (h : ExtendsInv doAF)
    (w : World) (i : Nat) (t : TName) (a : Analysis) (st2 : AState) :
    Extends w (applyAn doAF w i t a st2) := by
  unfold applyAn
  exact (extends_runBefore doAF h t a w).comp
    ((extends_setAnState _ _ _).comp
      ((extends_logEv _ _).comp (extends_applyAn_after doAF h _ i t)))

/-- The invoker only ever prepends trace events. -/
theorem extendsInv_doActionFor (fuel : Nat) :
    ExtendsInv (fun w e t => doActionFor fuel w e t) := by
  induction fuel with
  | zero => exact fun w e t => extends_rfl w
  | succ f ih =>
    intro w e t
    show Extends w (doActionFor (f + 1) w e t).1
    unfold doActionFor
    cases e with
    | an i =>
      cases hA : getAn w i with
      | none => simp only [hA, getAn_logEv]; exact extends_logEv _ _
      | some a =>
        cases hg : anGuard a.state t with
        | none => simp only [hA, hg, getAn_logEv]; exact extends_logEv _ _
        | some st2 =>
          simp only [hA, hg, getAn_logEv]
          exact (extends_logEv _ _).comp (extends_applyAn _ ih _ i t a st2)
    | ws i =>
      cases hA : getWs w i with
      | none => simp only [hA, getWs_logEv]; exact extends_logEv _ _
      | some x =>
        cases hg : wsGuard w x t with
        | none => simp only [hA, hg, getWs_logEv, wsGuard_logEv]; exact extends_logEv _ _
        | some st2 =>
          simp only [hA, hg, getWs_logEv, wsGuard_logEv]
          exact (extends_logEv _ _).comp
            (Extends.comp ⟨[], rfl⟩ (extends_logEv _ _))
    | smp i =>
      cases hA : getSmp w i with
      | none => simp only [hA, getSmp_logEv]; exact extends_logEv _ _
      | some s =>
        cases hg : smpGuard w s t with
        | none => simp only [hA, hg, getSmp_logEv, smpGuard_logEv]; exact extends_logEv _ _
        | some st2 =>
          simp only [hA, hg, getSmp_logEv, smpGuard_logEv]
          exact (extends_logEv _ _).comp
            (Extends.comp ⟨[], rfl⟩ (extends_logEv _ _))

/-- Once a transition has been attempted on an entity, the attempt stays in
the trace of every later world. -/
theorem invokedOn_extends {w w2 : World} (h : Extends w w2) (e : ERef) (t : TName)
    (hi : invokedOn w.trace e t = true) : invokedOn w2.trace e t = true := by
  obtain ⟨d, hd⟩ := h
  rw [hd, invokedOn_append, hi]
  simp

/-! ### Counting helpers for retests and visits -/

theorem retestCount_logEv (w : World) (ev : Ev) (o : Nat) :
    retestCount (logEv w ev) o =
      retestCount w o +
        (match ev with | .retested x _ => if x == o then 1 else 0 | _ => 0) := by
  show (ev :: w.trace).countP _ = _
  rw [List.countP_cons]
  cases ev <;> simp [retestCount]

theorem visitedSeq_cons (ev : Ev) (tr : List Ev) :
    visitedSeq (ev :: tr) =
      visitedSeq tr ++ (match ev with | .visited i => [i] | _ => []) := by
  unfold visitedSeq
  rw [List.reverse_cons, List.filterMap_append]
  cases ev <;> simp

theorem hasMarkOn_updAn_pres (w : World) (j : Nat) (f : Analysis → Analysis)
    (hid : ∀ x, (f x).aid = x.aid) (i : Nat) (m : MName)
    (hm : ∀ x, (f x).marks.get m = x.marks.get m) :
    hasMarkOn (updAn w j f) i m = hasMarkOn w i m := by
  unfold hasMarkOn
  rw [getAn_updAn w j f hid i]
  cases getAn w i with
  | none => rfl
  | some a =>
    show (if a.aid = j then f a else a).marks.get m = a.marks.get m
    split
    · exact hm a
    · rfl

theorem hasMarkOn_congr {w w2 : World} (h : w2.analyses = w.analyses) (i : Nat) (m : MName) :
    hasMarkOn w2 i m = hasMarkOn w i m := by
  unfold hasMarkOn getAn
  rw [h]

theorem analyses_foldl_logEv {α} (g : α → Ev) (l : List α) :
    ∀ w : World, (l.foldl (fun w x => logEv w (g x)) w).analyses = w.analyses := by
  induction l with
  | nil => exact fun w => rfl
  | cons x xs ih => exact fun w => ih (logEv w (g x))

theorem analyses_reindex_request (w : World) (a : Analysis) :
    (reindex_request w a).analyses = w.analyses := by
  unfold reindex_request
  split
  · rfl
  · cases a.requestId with
    | none => rfl
    | some sid => exact analyses_foldl_logEv _ _ w

theorem hasMarkOn_getAn {w : World} {i : Nat} {m : MName} (h : hasMarkOn w i m = true) :
    ∃ a, getAn w i = some a ∧ a.marks.get m = true := by
  unfold hasMarkOn at h
  cases hA : getAn w i with
  | none => rw [hA] at h; cases h
  | some a => rw [hA] at h; exact ⟨a, rfl, h⟩

theorem analyses_create_retest_marks (w : World) (o : Nat) :
    ∃ l, (create_retest w o).analyses = w.analyses ++ l ∧
      ∀ x ∈ l, x.marks = ({} : Marks) := by
  unfold create_retest
  cases hO : getAn w o with
  | none => exact ⟨[], (List.append_nil _).symm, by simp⟩
  | some a =>
    cases hW : a.worksheetId <;> simp only [hW, logEv, updWs] <;>
      exact ⟨[_], rfl, by intro x hx; rw [List.mem_singleton] at hx; subst hx; rfl⟩

theorem Marks.get_empty (m : MName) : ({} : Marks).get m = false := by
  cases m <;> rfl

theorem hasMarkOn_create_retest (w : World) (o r : Nat) (m : MName) :
    hasMarkOn (create_retest w o) r m = hasMarkOn w r m := by
  obtain ⟨l, hl, hmk⟩ := analyses_create_retest_marks w o
  unfold hasMarkOn getAn
  rw [hl, List.find?_append]
  cases hF : w.analyses.find? (fun a => a.aid = r) with
  | some b => rfl
  | none =>
    show (match l.find? _ with | some a => a.marks.get m | none => false) = false
    cases hF2 : l.find? (fun a => a.aid = r) with
    | none => rfl
    | some b =>
      show b.marks.get m = false
      rw [hmk b (List.mem_of_find?_eq_some hF2), Marks.get_empty]

theorem retestCount_create_retest_some (w : World) (o : Nat) (a : Analysis)
    (hO : getAn w o = some a) (o2 : Nat) :
    retestCount (create_retest w o) o2 =
      retestCount w o2 + (if o == o2 then 1 else 0) := by
  unfold create_retest
  rw [hO]
  cases hW : a.worksheetId <;> simp only [hW] <;>
    · rw [retestCount_logEv]
      rfl

theorem visitedSeq_create_retest (w : World) (o : Nat) :
    visitedSeq (create_retest w o).trace = visitedSeq w.trace := by
  rcases trace_create_retest w o with h | ⟨ni, h⟩
  · rw [h]
  · rw [h, visitedSeq_cons, List.append_nil]

/-! ### Verify-directed invocations are quiet -/

/-- Operation quietness: submitted markers untouched, no retest copies
created, nothing newly visited. -/
def VQuiet (w w2 : World) : Prop :=
  (∀ r, hasMarkOn w2 r .submittedM = hasMarkOn w r .submittedM) ∧
  (∀ o, retestCount w2 o = retestCount w o) ∧
  visitedSeq w2.trace = visitedSeq w.trace

theorem vquiet_rfl (w : World) : VQuiet w w := ⟨fun _ => rfl, fun _ => rfl, rfl⟩

def VQuiet.comp {w1 w2 w3 : World} (h1 : VQuiet w1 w2) (h2 : VQuiet w2 w3) :
    VQuiet w1 w3 :=
  ⟨fun r => (h2.1 r).trans (h1.1 r), fun o => (h2.2.1 o).trans (h1.2.1 o),
   h2.2.2.trans h1.2.2⟩

theorem vquiet_logEv (w : World) (ev : Ev)
    (h : (match ev with | Ev.retested _ _ => true | Ev.visited _ => true | _ => false)
      = false) :
    VQuiet w (logEv w ev) := by
  refine ⟨fun r => rfl, fun o => ?_, ?_⟩
  · rw [retestCount_logEv]
    cases ev <;> simp_all
  · show visitedSeq (ev :: w.trace) = visitedSeq w.trace
    rw [visitedSeq_cons]
    cases ev <;> simp_all

theorem vquiet_updAn (w : World) (j : Nat) (f : Analysis → Analysis)
    (hid : ∀ x, (f x).aid = x.aid)
    (hm : ∀ x, (f x).marks.get .submittedM = x.marks.get .submittedM) :
    VQuiet w (updAn w j f) :=
  ⟨fun r => hasMarkOn_updAn_pres w j f hid r .submittedM hm, fun _ => rfl, rfl⟩

theorem vquiet_updWs (w : World) (v : Nat) (f : Worksheet → Worksheet) :
    VQuiet w (updWs w v f) := ⟨fun _ => rfl, fun _ => rfl, rfl⟩

theorem vquiet_updSmp (w : World) (v : Nat) (f : Sample → Sample) :
    VQuiet w (updSmp w v f) := ⟨fun _ => rfl, fun _ => rfl, rfl⟩

theorem vquiet_reindex_request (w : World) (a : Analysis) :
    VQuiet w (reindex_request w a) := by
  obtain ⟨l, hl, hall⟩ := trace_reindex_request w a
  refine ⟨fun r => hasMarkOn_congr (analyses_reindex_request w a) r .submittedM,
    fun o => ?_, ?_⟩
  · show (reindex_request w a).trace.countP _ = _
    rw [hl, List.countP_append]
    have h0 : l.countP
        (fun ev => match ev with | Ev.retested x _ => x == o | _ => false) = 0 := by
      rw [List.countP_eq_zero]
      intro ev hin
      obtain ⟨e, rfl⟩ := hall ev hin
      simp
    rw [h0]
    simp [retestCount]
  · show visitedSeq (reindex_request w a).trace = _
    rw [hl]
    unfold visitedSeq
    rw [List.reverse_append, List.filterMap_append]
    have h0 : l.reverse.filterMap
        (fun ev => match ev with | Ev.visited i => some i | _ => none) = [] := by
      rw [List.filterMap_eq_nil_iff]
      intro ev hin
      obtain ⟨e, rfl⟩ := hall ev (List.mem_reverse.mp hin)
      rfl
    rw [h0, List.append_nil]

theorem vquiet_foldl {α} (g : World → α → World) (l : List α)
    (hg : ∀ w x, VQuiet w (g w x)) : ∀ w, VQuiet w (l.foldl g w) := by
  induction l with
  | nil => exact fun w => vquiet_rfl w
  | cons x xs ih => exact fun w => (hg w x).comp (ih (g w x))

/-- A Transition Invoker whose verify-directed invocations are quiet. -/
def VQuietInv (doAF : DoAF) : Prop :=
  ∀ w e, VQuiet w (doAF w e .verify).1

theorem vquiet_smp_try_verify (doAF : DoAF) (h : VQuietInv doAF)
    (oi : Option Nat) (w : World) : VQuiet w (smp_try doAF .verify oi w) := by
  cases oi with
  | none => exact vquiet_rfl w
  | some sid => exact h w (.smp sid)

theorem vquiet_ws_promote_verify (doAF : DoAF) (h : VQuietInv doAF)
    (oi : Option Nat) (w : World) : VQuiet w (ws_promote doAF .verify oi w) := by
  cases oi with
  | none => exact vquiet_rfl w
  | some v => exact (h w (.ws v)).comp (vquiet_logEv _ _ rfl)

theorem vquiet_verify_tail (doAF : DoAF) (h : VQuietInv doAF)
    (a : Analysis) (w0 : World) :
    VQuiet w0
      (if (a.isRequestAnalysis && check_all_verified w0 a) = true then
        reindex_request
          (if w0.autoVerifySamples = true then smp_try doAF .verify a.requestId w0 else w0) a
      else w0) := by
  split
  · refine @VQuiet.comp _
      (if w0.autoVerifySamples = true then smp_try doAF .verify a.requestId w0 else w0)
      _ ?_ (vquiet_reindex_request _ a)
    split
    · exact vquiet_smp_try_verify doAF h a.requestId w0
    · exact vquiet_rfl w0
  · exact vquiet_rfl w0

theorem vquiet_after_verify (doAF : DoAF) (h : VQuietInv doAF)
    (a : Analysis) (w : World) : VQuiet w (after_verify doAF a w) := by
  unfold after_verify
  refine (vquiet_updAn w a.aid (fun x => { x with marks := x.marks.set MName.verifiedM })
    (fun _ => rfl) (fun _ => rfl)).comp ?_
  refine (vquiet_foldl (fun w d => (doAF w (.an d) TName.verify).1) a.dependencies
    (fun w d => h w (.an d)) _).comp ?_
  refine (vquiet_ws_promote_verify doAF h a.worksheetId _).comp ?_
  exact vquiet_verify_tail doAF h a _

theorem vquiet_applyAn_after_verify (doAF : DoAF) (h : VQuietInv doAF)
    (w : World) (i : Nat) : VQuiet w (applyAn_after doAF w i .verify) := by
  unfold applyAn_after
  cases getAn w i with
  | none => exact vquiet_rfl w
  | some a2 => exact vquiet_after_verify doAF h a2 w

theorem vquiet_applyAn_verify (doAF : DoAF) (h : VQuietInv doAF)
    (w : World) (i : Nat) (a : Analysis) (st2 : AState) :
    VQuiet w (applyAn doAF w i .verify a st2) := by
  unfold applyAn
  refine @VQuiet.comp _ (setAnState (runBefore doAF .verify a w) i st2) _ ?_ ?_
  · exact vquiet_updAn _ i (fun x => { x with state := st2 }) (fun _ => rfl) (fun _ => rfl)
  · exact (vquiet_logEv _ (.applied (.an i) .verify) rfl).comp
      (vquiet_applyAn_after_verify doAF h _ i)

/-- Verify-directed invocations, at any fuel, never change a submitted
marker, never create a retest copy and never visit a relative. -/
theorem vquietInv_doActionFor (fuel : Nat) :
    VQuietInv (fun w e t => doActionFor fuel w e t) := by
  induction fuel with
  | zero => exact fun w e => vquiet_rfl w
  | succ f ih =>
    intro w e
    show VQuiet w (doActionFor (f + 1) w e .verify).1
    unfold doActionFor
    cases e with
    | an i =>
      cases hA : getAn w i with
      | none => simp only [hA, getAn_logEv]; exact vquiet_logEv _ _ rfl
      | some a =>
        cases hg : anGuard a.state .verify with
        | none => simp only [hA, hg, getAn_logEv]; exact vquiet_logEv _ _ rfl
        | some st2 =>
          simp only [hA, hg, getAn_logEv]
          exact (vquiet_logEv _ _ rfl).comp (vquiet_applyAn_verify _ ih _ i a st2)
    | ws i =>
      cases hA : getWs w i with
      | none => simp only [hA, getWs_logEv]; exact vquiet_logEv _ _ rfl
      | some x =>
        cases hg : wsGuard w x .verify with
        | none =>
          simp only [hA, hg, getWs_logEv, wsGuard_logEv]
          exact vquiet_logEv _ _ rfl
        | some st2 =>
          simp only [hA, hg, getWs_logEv, wsGuard_logEv]
          exact (vquiet_logEv _ (.invoked (.ws i) .verify (snapMarks w)) rfl).comp
            ((vquiet_updWs _ i (fun o => { o with state := st2 })).comp
              (vquiet_logEv _ (.applied (.ws i) .verify) rfl))
    | smp i =>
      cases hA : getSmp w i with
      | none => simp only [hA, getSmp_logEv]; exact vquiet_logEv _ _ rfl
      | some s =>
        cases hg : smpGuard w s .verify with
        | none =>
          simp only [hA, hg, getSmp_logEv, smpGuard_logEv]
          exact vquiet_logEv _ _ rfl
        | some st2 =>
          simp only [hA, hg, getSmp_logEv, smpGuard_logEv]
          exact (vquiet_logEv _ (.invoked (.smp i) .verify (snapMarks w)) rfl).comp
            ((vquiet_updSmp _ i (fun o => { o with state := st2 })).comp
              (vquiet_logEv _ (.applied (.smp i) .verify) rfl))

/-! ### The head invocation event and graph-readout invariance -/

theorem extends_logged_doActionFor (f : Nat) (w : World) (e : ERef) (t : TName) :
    Extends (logEv w (.invoked e t (snapMarks w))) (doActionFor (f + 1) w e t).1 := by
  unfold doActionFor
  cases e with
  | an i =>
    cases hA : getAn w i with
    | none => simp only [hA, getAn_logEv]; exact extends_rfl _
    | some a =>
      cases hg : anGuard a.state t with
      | none => simp only [hA, hg, getAn_logEv]; exact extends_rfl _
      | some st2 =>
        simp only [hA, hg, getAn_logEv]
        exact extends_applyAn _ (extendsInv_doActionFor f) _ i t a st2
  | ws i =>
    cases hA : getWs w i with
    | none => simp only [hA, getWs_logEv]; exact extends_rfl _
    | some x =>
      cases hg : wsGuard w x t with
      | none => simp only [hA, hg, getWs_logEv, wsGuard_logEv]; exact extends_rfl _
      | some st2 =>
        simp only [hA, hg, getWs_logEv, wsGuard_logEv]
        exact Extends.comp ⟨[], rfl⟩ (extends_logEv _ _)
  | smp i =>
    cases hA : getSmp w i with
    | none => simp only [hA, getSmp_logEv]; exact extends_rfl _
    | some s =>
      cases hg : smpGuard w s t with
      | none => simp only [hA, hg, getSmp_logEv, smpGuard_logEv]; exact extends_rfl _
      | some st2 =>
        simp only [hA, hg, getSmp_logEv, smpGuard_logEv]
        exact Extends.comp ⟨[], rfl⟩ (extends_logEv _ _)

/-- An invocation with fuel to run always leaves its `invoked` event in the
final trace. -/
theorem invokedOn_doActionFor_head (f : Nat) (w : World) (e : ERef) (t : TName) :
    invokedOn (doActionFor (f + 1) w e t).1.trace e t = true := by
  refine invokedOn_extends (extends_logged_doActionFor f w e t) e t ?_
  show invokedOn (Ev.invoked e t (snapMarks w) :: w.trace) e t = true
  simp [invokedOn]

theorem transRel_congr (sel : Analysis → List Nat) {w1 w2 : World}
    (h : w1.analyses = w2.analyses) :
    ∀ fuel i, transRel sel w1 fuel i = transRel sel w2 fuel i := by
  intro fuel
  induction fuel with
  | zero => intro i; rfl
  | succ n ih =>
    intro i
    show (match getAn w1 i with
      | none => []
      | some a => (sel a).flatMap (fun d => d :: transRel sel w1 n d)) =
      (match getAn w2 i with
      | none => []
      | some a => (sel a).flatMap (fun d => d :: transRel sel w2 n d))
    rw [show getAn w1 i = getAn w2 i from by unfold getAn; rw [h]]
    cases getAn w2 i with
    | none => rfl
    | some a => simp only [ih]

theorem transRel_updAn (sel : Analysis → List Nat) (w : World) (j : Nat)
    (f : Analysis → Analysis) (hid : ∀ x, (f x).aid = x.aid)
    (hs : ∀ x, sel (f x) = sel x) :
    ∀ fuel i, transRel sel (updAn w j f) fuel i = transRel sel w fuel i := by
  intro fuel
  induction fuel with
  | zero => intro i; rfl
  | succ n ih =>
    intro i
    show (match getAn (updAn w j f) i with
      | none => []
      | some a => (sel a).flatMap (fun d => d :: transRel sel (updAn w j f) n d)) =
      (match getAn w i with
      | none => []
      | some a => (sel a).flatMap (fun d => d :: transRel sel w n d))
    rw [getAn_updAn w j f hid i]
    cases getAn w i with
    | none => rfl
    | some a =>
      show (sel (if a.aid = j then f a else a)).flatMap
          (fun d => d :: transRel sel (updAn w j f) n d) =
        (sel a).flatMap (fun d => d :: transRel sel w n d)
      rw [show sel (if a.aid = j then f a else a) = sel a from by
        split
        · exact hs a
        · rfl]
      simp only [ih]

theorem transitiveDependents_updAn (w : World) (j : Nat) (f : Analysis → Analysis)
    (hid : ∀ x, (f x).aid = x.aid) (hs : ∀ x, (f x).dependents = x.dependents) (i : Nat) :
    transitiveDependents (updAn w j f) i = transitiveDependents w i := by
  unfold transitiveDependents
  rw [show (updAn w j f).analyses.length = w.analyses.length from by simp [updAn]]
  exact transRel_updAn _ w j f hid hs _ i

theorem transitiveDependencies_updAn (w : World) (j : Nat) (f : Analysis → Analysis)
    (hid : ∀ x, (f x).aid = x.aid) (hs : ∀ x, (f x).dependencies = x.dependencies) (i : Nat) :
    transitiveDependencies (updAn w j f) i = transitiveDependencies w i := by
  unfold transitiveDependencies
  rw [show (updAn w j f).analyses.length = w.analyses.length from by simp [updAn]]
  exact transRel_updAn _ w j f hid hs _ i

theorem transitiveDependents_logEv (w : World) (ev : Ev) (i : Nat) :
    transitiveDependents (logEv w ev) i = transitiveDependents w i := by
  unfold transitiveDependents
  exact @transRel_congr (fun a => a.dependents) (logEv w ev) w rfl _ i

theorem transitiveDependencies_logEv (w : World) (ev : Ev) (i : Nat) :
    transitiveDependencies (logEv w ev) i = transitiveDependencies w i := by
  unfold transitiveDependencies
  exact @transRel_congr (fun a => a.dependencies) (logEv w ev) w rfl _ i

/-! ### Sample-directed invocations and the request tail are quiet -/

theorem vquiet_doActionFor_smp (fuel : Nat) (w : World) (s : Nat) (t : TName) :
    VQuiet w (doActionFor fuel w (.smp s) t).1 := by
  cases fuel with
  | zero => exact vquiet_rfl w
  | succ f =>
    rcases doActionFor_smp_split f w s t with he | ⟨x, st2, _, _, he⟩
    · rw [he]
      exact vquiet_logEv _ _ rfl
    · rw [he]
      exact (vquiet_logEv _ (.invoked (.smp s) t (snapMarks w)) rfl).comp
        ((vquiet_updSmp _ s (fun o => { o with state := st2 })).comp
          (vquiet_logEv _ (.applied (.smp s) t) rfl))

theorem vquiet_request_tail (fuel : Nat) (a : Analysis) (t : TName) (w : World) :
    VQuiet w (request_tail (fun w e t => doActionFor fuel w e t) a t w) := by
  unfold request_tail
  split
  · refine @VQuiet.comp _ (smp_try (fun w e t => doActionFor fuel w e t) t a.requestId w)
      _ ?_ (vquiet_reindex_request _ a)
    cases a.requestId with
    | none => exact vquiet_rfl w
    | some sid => exact vquiet_doActionFor_smp fuel w sid t
  · exact vquiet_rfl w

/-! ### One step of the retest fold -/

theorem beq_self_one (r : Nat) : (if r == r then 1 else 0) = 1 := by simp

theorem beq_ne_zero {r o : Nat} (h : o ≠ r) : (if r == o then 1 else 0) = 0 := by
  simp [Ne.symm h]

theorem verify_and_retest_step (f : Nat) (W : World) (r : Nat) (S : World)
    (hS : S = verify_and_retest (fun w e t => doActionFor (f + 1) w e t) W r) :
    (∀ r2, hasMarkOn S r2 .submittedM = hasMarkOn W r2 .submittedM) ∧
    visitedSeq S.trace = visitedSeq W.trace ++ [r] ∧
    (hasMarkOn W r .submittedM = true →
      retestCount S r = retestCount W r + 1 ∧
      (∀ o, o ≠ r → retestCount S o = retestCount W o) ∧
      invokedOn S.trace (.an r) .verify = true) ∧
    (hasMarkOn W r .submittedM = false → ∀ o, retestCount S o = retestCount W o) ∧
    Extends W S := by
  unfold verify_and_retest verify_and_retest_core at hS
  simp only [getAn_logEv] at hS
  cases hA : getAn W r with
  | none =>
    simp only [hA] at hS
    subst hS
    have hmark : hasMarkOn W r .submittedM = false := by
      unfold hasMarkOn
      rw [hA]
    refine ⟨fun r2 => rfl, ?_, ?_, ?_, extends_logEv _ _⟩
    · show visitedSeq (Ev.visited r :: W.trace) = _
      rw [visitedSeq_cons]
    · intro hsub
      rw [hmark] at hsub
      cases hsub
    · intro _ o
      rw [retestCount_logEv]
      simp
  | some a =>
    simp only [hA] at hS
    have hmark : hasMarkOn W r .submittedM = a.marks.submitted := by
      unfold hasMarkOn
      rw [hA]
      rfl
    cases hsub : a.marks.submitted with
    | false =>
      rw [hsub] at hS
      rw [if_pos (by simp)] at hS
      subst hS
      refine ⟨fun r2 => rfl, ?_, ?_, ?_, extends_logEv _ _⟩
      · show visitedSeq (Ev.visited r :: W.trace) = _
        rw [visitedSeq_cons]
      · intro h2
        rw [hmark, hsub] at h2
        cases h2
      · intro _ o
        rw [retestCount_logEv]
        simp
    | true =>
      rw [hsub] at hS
      rw [if_neg (by simp)] at hS
      have hq := vquietInv_doActionFor (f + 1) (logEv W (.visited r)) (.an r)
      have hqm : ∀ r2,
          hasMarkOn (doActionFor (f + 1) (logEv W (.visited r)) (.an r) .verify).1
            r2 .submittedM = hasMarkOn W r2 .submittedM :=
        fun r2 => hq.1 r2
      have hpres : hasMarkOn (doActionFor (f + 1) (logEv W (.visited r)) (.an r) .verify).1
          r .submittedM = true := by
        rw [hqm r, hmark, hsub]
      obtain ⟨a2, hA2, _⟩ := hasMarkOn_getAn hpres
      have hcnt : ∀ o, retestCount S o =
          retestCount W o + (if r == o then 1 else 0) := by
        intro o
        rw [hS, retestCount_create_retest_some _ r a2 hA2 o, hq.2.1 o, retestCount_logEv]
        simp
      refine ⟨?_, ?_, ?_, ?_, ?_⟩
      · intro r2
        rw [hS, hasMarkOn_create_retest, hqm r2]
      · rw [hS, visitedSeq_create_retest, hq.2.2]
        show visitedSeq (Ev.visited r :: W.trace) = _
        rw [visitedSeq_cons]
      · intro _
        refine ⟨?_, ?_, ?_⟩
        · rw [hcnt r, beq_self_one]
        · intro o ho
          rw [hcnt o, beq_ne_zero ho]
          simp
        · refine invokedOn_extends ?_ (.an r) .verify
            (invokedOn_doActionFor_head f (logEv W (.visited r)) (.an r) .verify)
          rw [hS]
          exact extends_create_retest _ r
      · intro h2
        rw [hmark, hsub] at h2
        cases h2
      · rw [hS]
        exact (extends_logEv W (.visited r)).comp
          ((extendsInv_doActionFor (f + 1) (logEv W (.visited r)) (.an r) .verify).comp
            (extends_create_retest _ r))

/-! ### The retest fold over the relatives list -/

theorem retest_fold_facts (f : Nat) :
    ∀ (rs : List Nat), rs.Nodup → ∀ (W F : World),
      F = rs.foldl (verify_and_retest (fun w e t => doActionFor (f + 1) w e t)) W →
      (∀ r2, hasMarkOn F r2 .submittedM = hasMarkOn W r2 .submittedM) ∧
      visitedSeq F.trace = visitedSeq W.trace ++ rs ∧
      (∀ o, o ∉ rs → retestCount F o = retestCount W o) ∧
      (∀ r ∈ rs,
        (hasMarkOn W r .submittedM = true →
          retestCount F r = retestCount W r + 1 ∧
          invokedOn F.trace (.an r) .verify = true) ∧
        (hasMarkOn W r .submittedM = false → retestCount F r = retestCount W r)) ∧
      Extends W F := by
  intro rs
  induction rs with
  | nil =>
    intro hnil W0 F0 hF
    subst hF
    refine ⟨fun _ => rfl, by simp, fun _ _ => rfl, by simp, extends_rfl _⟩
  | cons r rs ih =>
    intro hnd W F hF
    rw [List.foldl_cons] at hF
    have hr : r ∉ rs := (List.nodup_cons.mp hnd).1
    have hnd2 : rs.Nodup := (List.nodup_cons.mp hnd).2
    obtain ⟨s1, s2, s3, s4, s5⟩ := verify_and_retest_step f W r
      (verify_and_retest (fun w e t => doActionFor (f + 1) w e t) W r) rfl
    obtain ⟨i1, i2, i3, i4, i5⟩ := ih hnd2
      (verify_and_retest (fun w e t => doActionFor (f + 1) w e t) W r) F hF
    have hstep : ∀ o, o ≠ r →
        retestCount (verify_and_retest (fun w e t => doActionFor (f + 1) w e t) W r) o =
          retestCount W o := by
      intro o ho
      cases hm3 : hasMarkOn W r .submittedM with
      | true => exact (s3 hm3).2.1 o ho
      | false => exact s4 hm3 o
    refine ⟨?_, ?_, ?_, ?_, ?_⟩
    · intro r2
      rw [i1 r2, s1 r2]
    · rw [i2, s2, List.append_assoc]
      rfl
    · intro o ho
      have ho1 : o ≠ r := fun h => ho (h ▸ List.mem_cons_self r rs)
      have ho2 : o ∉ rs := fun h => ho (List.mem_cons_of_mem r h)
      rw [i3 o ho2, hstep o ho1]
    · intro r2 hr2
      rcases List.mem_cons.mp hr2 with rfl | hr2m
      · constructor
        · intro hm
          obtain ⟨c1, _, c3⟩ := s3 hm
          refine ⟨?_, invokedOn_extends i5 _ _ c3⟩
          rw [i3 r2 hr, c1]
        · intro hm
          rw [i3 r2 hr, s4 hm r2]
      · have hne : r2 ≠ r := fun h => hr (h ▸ hr2m)
        constructor
        · intro hm
          have hmS : hasMarkOn
              (verify_and_retest (fun w e t => doActionFor (f + 1) w e t) W r)
              r2 .submittedM = true := by
            rw [s1 r2]
            exact hm
          obtain ⟨c1, c2⟩ := (i4 r2 hr2m).1 hmS
          exact ⟨by rw [c1, hstep r2 hne], c2⟩
        · intro hm
          have hmS : hasMarkOn
              (verify_and_retest (fun w e t => doActionFor (f + 1) w e t) W r)
              r2 .submittedM = false := by
            rw [s1 r2]
            exact hm
          rw [(i4 r2 hr2m).2 hmS, hstep r2 hne]
    · exact s5.comp i5

/-! ### C3: characterization of the retest transition -/

theorem hasMarkOn_setAnState_pres (w : World) (j : Nat) (s : AState) (r : Nat) (m : MName) :
    hasMarkOn (setAnState w j s) r m = hasMarkOn w r m :=
  hasMarkOn_updAn_pres w j (fun x => { x with state := s }) (fun _ => rfl) r m (fun _ => rfl)

theorem hasMarkOn_addMark_verified_sub (w : World) (j r : Nat) :
    hasMarkOn (addMark w j .verifiedM) r .submittedM = hasMarkOn w r .submittedM :=
  hasMarkOn_updAn_pres w j (fun x => { x with marks := x.marks.set MName.verifiedM })
    (fun _ => rfl) r .submittedM (fun _ => rfl)

theorem transitiveDependents_addMark (w : World) (j : Nat) (m : MName) (i : Nat) :
    transitiveDependents (addMark w j m) i = transitiveDependents w i :=
  transitiveDependents_updAn w j (fun x => { x with marks := x.marks.set m })
    (fun _ => rfl) (fun _ => rfl) i

theorem transitiveDependents_setAnState (w : World) (j : Nat) (s : AState) (i : Nat) :
    transitiveDependents (setAnState w j s) i = transitiveDependents w i :=
  transitiveDependents_updAn w j (fun x => { x with state := s })
    (fun _ => rfl) (fun _ => rfl) i

theorem transitiveDependencies_addMark (w : World) (j : Nat) (m : MName) (i : Nat) :
    transitiveDependencies (addMark w j m) i = transitiveDependencies w i :=
  transitiveDependencies_updAn w j (fun x => { x with marks := x.marks.set m })
    (fun _ => rfl) (fun _ => rfl) i

theorem transitiveDependencies_setAnState (w : World) (j : Nat) (s : AState) (i : Nat) :
    transitiveDependencies (setAnState w j s) i = transitiveDependencies w i :=
  transitiveDependencies_updAn w j (fun x => { x with state := s })
    (fun _ => rfl) (fun _ => rfl) i

/-- `after_retest`, zeta-expanded. -/
theorem after_retest_char (doAF : DoAF) (a : Analysis) (w3 : World) :
    after_retest doAF a w3 =
      request_tail doAF a .rollback_to_receive
        (create_retest
          (((transitiveDependents (addMark w3 a.aid .verifiedM) a.aid).reverse ++
            transitiveDependencies (addMark w3 a.aid .verifiedM) a.aid).foldl
            (verify_and_retest doAF) (addMark w3 a.aid .verifiedM)) a.aid) := rfl

/-- The shape of a retest transition on a to-be-verified analysis. -/
theorem retestRun_char (f : Nat) (w : World) (a : Analysis)
    (hget : getAn w a.aid = some a) (hstate : a.state = AState.to_be_verified) :
    (doActionFor (f + 2) w (.an a.aid) .retest).1 =
      after_retest (fun w e t => doActionFor (f + 1) w e t) { a with state := AState.verified }
        (logEv (setAnState (logEv w (Ev.invoked (.an a.aid) .retest (snapMarks w)))
          a.aid AState.verified) (Ev.applied (.an a.aid) .retest)) := by
  show (doActionFor (f + 1 + 1) w (.an a.aid) .retest).1 = _
  unfold doActionFor
  simp only [getAn_logEv, hget, hstate]
  show applyAn (fun w e t => doActionFor (f + 1) w e t)
      (logEv w (Ev.invoked (.an a.aid) .retest (snapMarks w))) a.aid .retest a .verified = _
  unfold applyAn runBefore applyAn_after
  have hget2 : getAn (logEv (setAnState (logEv w
      (Ev.invoked (.an a.aid) .retest (snapMarks w))) a.aid AState.verified)
      (Ev.applied (.an a.aid) .retest)) a.aid = some { a with state := AState.verified } := by
    simp only [getAn_logEv]
    rw [setAnState, getAn_updAn _ a.aid (fun x => { x with state := AState.verified })
      (fun _ => rfl) a.aid]
    simp only [getAn_logEv]
    rw [hget]
    simp
  simp only [hget2]
  rfl

/-- C3 scenario: analysis 1 with a submitted dependent 2 and an unsubmitted
dependency 3. -/
def c3an : Analysis :=
  { aid := 1, state := .to_be_verified, dependents := [2], dependencies := [3] }

def c3w : World :=
  { analyses :=
      [ c3an
      , { aid := 2, state := .to_be_verified, marks := { submitted := true },
          dependencies := [1] }
      , { aid := 3, state := .verified } ] }

/-- C3: after the retest transition on a to-be-verified analysis, the
analysis carries the IVerified marker; the trace visits exactly the reversed
recursive dependents followed by the recursive dependencies, in that order;
each visited relative carrying the ISubmitted marker gets a verify invocation
and exactly one retest copy; relatives without the marker get no retest copy,
and the traversal step on such a relative is observably a no-op; and exactly
one retest copy of the analysis itself is created. -/
theorem C3_after_retest_traversal (f : Nat) (w : World) (a : Analysis) (rels : List Nat)
    (hA : getAn w a.aid = some a) (hst : a.state = AState.to_be_verified)
    (htr : w.trace = [])
    (hrels : rels = (transitiveDependents w a.aid).reverse ++ transitiveDependencies w a.aid)
    (hnd : rels.Nodup) (hself : a.aid ∉ rels) :
    hasMarkOn (doActionFor (f + 2) w (.an a.aid) .retest).1 a.aid .verifiedM = true ∧
    visitedSeq (doActionFor (f + 2) w (.an a.aid) .retest).1.trace = rels ∧
    (∀ r ∈ rels, hasMarkOn w r .submittedM = true →
      invokedOn (doActionFor (f + 2) w (.an a.aid) .retest).1.trace (.an r) .verify = true ∧
      retestCount (doActionFor (f + 2) w (.an a.aid) .retest).1 r = 1) ∧
    (∀ r ∈ rels, hasMarkOn w r .submittedM = false →
      retestCount (doActionFor (f + 2) w (.an a.aid) .retest).1 r = 0) ∧
    retestCount (doActionFor (f + 2) w (.an a.aid) .retest).1 a.aid = 1 ∧
    (∀ (W : World) (r : Nat), hasMarkOn W r .submittedM = false →
      obs (verify_and_retest (fun w e t => doActionFor (f + 1) w e t) W r) = obs W ∧
      (verify_and_retest (fun w e t => doActionFor (f + 1) w e t) W r).trace =
        Ev.visited r :: W.trace) := by
  have hskip : ∀ (W : World) (r : Nat), hasMarkOn W r .submittedM = false →
      obs (verify_and_retest (fun w e t => doActionFor (f + 1) w e t) W r) = obs W ∧
      (verify_and_retest (fun w e t => doActionFor (f + 1) w e t) W r).trace =
        Ev.visited r :: W.trace := by
    intro W r hm
    unfold verify_and_retest verify_and_retest_core
    simp only [getAn_logEv]
    cases hA2 : getAn W r with
    | none => exact ⟨rfl, rfl⟩
    | some x =>
      have hx : x.marks.submitted = false := by
        unfold hasMarkOn at hm
        rw [hA2] at hm
        exact hm
      simp only [hx]
      rw [if_pos (by simp)]
      exact ⟨rfl, rfl⟩
  rw [retestRun_char f w a hA hst, after_retest_char]
  simp only [show ({ a with state := AState.verified } : Analysis).aid = a.aid from rfl]
  set W3 := logEv (setAnState (logEv w (Ev.invoked (.an a.aid) .retest (snapMarks w)))
    a.aid AState.verified) (Ev.applied (.an a.aid) .retest) with hW3def
  set Wm := addMark W3 a.aid .verifiedM with hWmdef
  have hrelseq : (transitiveDependents Wm a.aid).reverse ++
      transitiveDependencies Wm a.aid = rels := by
    rw [hWmdef, hW3def]
    rw [transitiveDependents_addMark, transitiveDependents_logEv,
      transitiveDependents_setAnState, transitiveDependents_logEv,
      transitiveDependencies_addMark, transitiveDependencies_logEv,
      transitiveDependencies_setAnState, transitiveDependencies_logEv]
    exact hrels.symm
  rw [hrelseq]
  have hget3 : getAn W3 a.aid = some { a with state := AState.verified } := by
    rw [hW3def]
    simp only [getAn_logEv]
    rw [setAnState, getAn_updAn _ a.aid (fun x => { x with state := AState.verified })
      (fun _ => rfl) a.aid]
    simp only [getAn_logEv]
    rw [hA]
    simp
  have m5 : hasMarkOn Wm a.aid .verifiedM = true := by
    rw [hWmdef]
    exact hasMarkOn_addMark_self W3 a.aid .verifiedM (by rw [hget3]; rfl)
  have m1 : ∀ r2, hasMarkOn Wm r2 .submittedM = hasMarkOn w r2 .submittedM := by
    intro r2
    rw [hWmdef, hasMarkOn_addMark_verified_sub, hW3def, hasMarkOn_logEv,
      hasMarkOn_setAnState_pres, hasMarkOn_logEv]
  have htr3 : Wm.trace = [Ev.applied (.an a.aid) .retest,
      Ev.invoked (.an a.aid) .retest (snapMarks w)] := by
    rw [hWmdef, hW3def]
    show Ev.applied (.an a.aid) .retest ::
      Ev.invoked (.an a.aid) .retest (snapMarks w) :: w.trace = _
    rw [htr]
  have m3 : ∀ o, retestCount Wm o = 0 := by
    intro o
    unfold retestCount
    rw [htr3]
    rfl
  have m4 : visitedSeq Wm.trace = [] := by
    rw [htr3]
    rfl
  obtain ⟨F1, F2, F3, F4, F5⟩ := retest_fold_facts f rels hnd Wm
    (rels.foldl (verify_and_retest (fun w e t => doActionFor (f + 1) w e t)) Wm) rfl
  have hVerWf : hasMarkOn
      (rels.foldl (verify_and_retest (fun w e t => doActionFor (f + 1) w e t)) Wm)
      a.aid .verifiedM = true :=
    marksMono_foldl _ rels
      (fun w r => marksMono_verify_and_retest _ (preservesMarks_doActionFor (f + 1)) w r)
      Wm a.aid .verifiedM m5
  obtain ⟨af, hAf, _⟩ := hasMarkOn_getAn hVerWf
  have hcntW := retestCount_create_retest_some _ a.aid af hAf
  have hq := vquiet_request_tail (f + 1) { a with state := AState.verified }
    .rollback_to_receive
    (create_retest
      (rels.foldl (verify_and_retest (fun w e t => doActionFor (f + 1) w e t)) Wm) a.aid)
  have hExt : Extends
      (rels.foldl (verify_and_retest (fun w e t => doActionFor (f + 1) w e t)) Wm)
      (request_tail (fun w e t => doActionFor (f + 1) w e t)
        { a with state := AState.verified } .rollback_to_receive
        (create_retest
          (rels.foldl (verify_and_retest (fun w e t => doActionFor (f + 1) w e t)) Wm)
          a.aid)) :=
    (extends_create_retest _ a.aid).comp
      (extends_request_tail _ (extendsInv_doActionFor (f + 1)) _ .rollback_to_receive _)
  refine ⟨?_, ?_, ?_, ?_, ?_, hskip⟩
  · exact marksMono_request_tail _ (preservesMarks_doActionFor (f + 1)) _
      .rollback_to_receive _ a.aid .verifiedM
      (marksMono_create_retest _ a.aid a.aid .verifiedM hVerWf)
  · rw [hq.2.2, visitedSeq_create_retest, F2, m4]
    rfl
  · intro r hrm hsub
    have hsubWm : hasMarkOn Wm r .submittedM = true := by
      rw [m1 r]
      exact hsub
    obtain ⟨c1, c2⟩ := (F4 r hrm).1 hsubWm
    refine ⟨invokedOn_extends hExt _ _ c2, ?_⟩
    rw [hq.2.1 r, hcntW r, c1, m3 r, beq_ne_zero (fun h => hself (by rw [← h]; exact hrm))]
  · intro r hrm hsub
    have hsubWm : hasMarkOn Wm r .submittedM = false := by
      rw [m1 r]
      exact hsub
    rw [hq.2.1 r, hcntW r, (F4 r hrm).2 hsubWm, m3 r,
      beq_ne_zero (fun h => hself (by rw [← h]; exact hrm))]
  · rw [hq.2.1 a.aid, hcntW a.aid, F3 a.aid hself, m3 a.aid, beq_self_one]

/-- Witness for C3: retesting analysis 1 visits [2, 3], verifies and retests
the submitted dependent 2, skips the unsubmitted dependency 3 and creates
exactly one retest of 1. -/
theorem C3_after_retest_traversal_witness :
    visitedSeq (doActionFor 4 c3w (.an 1) .retest).1.trace = [2, 3] ∧
    invokedOn (doActionFor 4 c3w (.an 1) .retest).1.trace (.an 2) .verify = true ∧
    retestCount (doActionFor 4 c3w (.an 1) .retest).1 2 = 1 ∧
    retestCount (doActionFor 4 c3w (.an 1) .retest).1 3 = 0 ∧
    retestCount (doActionFor 4 c3w (.an 1) .retest).1 1 = 1 := by
  obtain ⟨h1, h2, h3, h4, h5, h6⟩ :=
    C3_after_retest_traversal 2 c3w c3an [2, 3] (by decide) rfl rfl (by decide)
      (by decide) (by decide)
  exact ⟨h2, (h3 2 (by decide) (by decide)).1, (h3 2 (by decide) (by decide)).2,
    h4 3 (by decide) (by decide), h5⟩

/-! ### C5 machinery: worksheet submit convergence -/

/-- Whether member slot `j` no longer blocks the worksheet submit guard:
missing, invalid, or already submitted. -/
def memOK (w : World) (j : Nat) : Bool :=
  match getAn w j with
  | some x => !validState x.state || stateSubmitted x.state
  | none => true

/-- Well-formed links: membership of worksheet `v` is exactly `M`, and `rank`
strictly decreases along dependency edges. -/
def linkWf (rank : Nat → Nat) (v : Nat) (M : List Nat) (w : World) : Prop :=
  ∀ x ∈ w.analyses, (x.worksheetId = some v ↔ x.aid ∈ M) ∧
    ∀ d ∈ x.dependencies, rank d < rank x.aid

/-- The worksheet-submit invariant: worksheet `v` has membership `M` and is
either still open with no submit applied, or already promoted, with all
members submitted and exactly one applied submit. -/
def wsPart (v : Nat) (M : List Nat) (w : World) : Prop :=
  ∃ ws, getWs w v = some ws ∧ ws.members = M ∧
    ((ws.state = WSState.open_ ∧ appliedCount w.trace (.ws v) .submit = 0) ∨
     (ws.state = WSState.to_be_verified ∧ M.all (memOK w) = true ∧
       appliedCount w.trace (.ws v) .submit = 1))

def C5Inv (rank : Nat → Nat) (v : Nat) (M : List Nat) (w : World) : Prop :=
  linkWf rank v M w ∧ wsPart v M w

/-- The convergence certificate: once all members are submitted, the
worksheet has been promoted. -/
def C5Phi (v : Nat) (M : List Nat) (w : World) : Prop :=
  M.all (memOK w) = true →
    ∃ ws, getWs w v = some ws ∧ ws.state = WSState.to_be_verified

/-- The statement carried through the fuel induction for submit-directed
invocations. -/
def C5Master (rank : Nat → Nat) (v : Nat) (M : List Nat) (fuel : Nat) : Prop :=
  ∀ w e, C5Inv rank v M w →
    C5Inv rank v M (doActionFor fuel w e .submit).1 ∧
    (∀ j, memOK w j = true → memOK (doActionFor fuel w e .submit).1 j = true) ∧
    ((match e with | ERef.an i => rank i + 2 ≤ fuel | _ => True) →
      C5Phi v M w → C5Phi v M (doActionFor fuel w e .submit).1)

theorem memOK_congr {w1 w2 : World} (h : w1.analyses = w2.analyses) (j : Nat) :
    memOK w1 j = memOK w2 j := by
  unfold memOK getAn
  rw [h]

theorem memOK_updAn_pres (w : World) (i : Nat) (f : Analysis → Analysis)
    (hid : ∀ x, (f x).aid = x.aid) (hst : ∀ x, (f x).state = x.state) (j : Nat) :
    memOK (updAn w i f) j = memOK w j := by
  unfold memOK
  rw [getAn_updAn w i f hid j]
  cases getAn w j with
  | none => rfl
  | some x =>
    show (!validState (if x.aid = i then f x else x).state ||
      stateSubmitted (if x.aid = i then f x else x).state) = _
    split
    · rw [hst x]
    · rfl

theorem memOK_updAn_ne (w : World) (i : Nat) (f : Analysis → Analysis)
    (hid : ∀ x, (f x).aid = x.aid) (j : Nat) (hne : j ≠ i) :
    memOK (updAn w i f) j = memOK w j := by
  unfold memOK
  rw [getAn_updAn w i f hid j]
  cases hA : getAn w j with
  | none => rfl
  | some x =>
    have hx : x.aid = j := by simpa using List.find?_some hA
    show (!validState (if x.aid = i then f x else x).state ||
      stateSubmitted (if x.aid = i then f x else x).state) = _
    rw [if_neg (by rw [hx]; exact hne)]

theorem memOK_setAnState_mono (w : World) (i j : Nat) (h : memOK w j = true) :
    memOK (setAnState w i AState.to_be_verified) j = true := by
  unfold memOK at h ⊢
  rw [setAnState, getAn_updAn w i (fun x => { x with state := AState.to_be_verified })
    (fun _ => rfl) j]
  cases hA : getAn w j with
  | none => rfl
  | some x =>
    rw [hA] at h
    show (!validState (if x.aid = i then { x with state := AState.to_be_verified } else x).state ||
      stateSubmitted (if x.aid = i then { x with state := AState.to_be_verified } else x).state)
      = true
    split
    · rfl
    · exact h

theorem memOK_setAnState_self (w : World) (i : Nat) :
    memOK (setAnState w i AState.to_be_verified) i = true := by
  unfold memOK
  rw [setAnState, getAn_updAn w i (fun x => { x with state := AState.to_be_verified })
    (fun _ => rfl) i]
  cases hA : getAn w i with
  | none => rfl
  | some x =>
    have hx : x.aid = i := by simpa using List.find?_some hA
    show (!validState (if x.aid = i then { x with state := AState.to_be_verified } else x).state ||
      stateSubmitted (if x.aid = i then { x with state := AState.to_be_verified } else x).state)
      = true
    rw [if_pos hx]
    rfl

theorem all_congr_mem {α} (l : List α) (p q : α → Bool) (h : ∀ x ∈ l, p x = q x) :
    l.all p = l.all q := by
  induction l with
  | nil => rfl
  | cons x xs ih =>
    rw [List.all_cons, List.all_cons, h x (List.mem_cons_self x xs),
      ih (fun y hy => h y (List.mem_cons_of_mem x hy))]

theorem all_mono_mem {α} (l : List α) (p q : α → Bool) (h : ∀ x ∈ l, p x = true → q x = true)
    (hl : l.all p = true) : l.all q = true := by
  rw [List.all_eq_true] at hl ⊢
  exact fun x hx => h x hx (hl x hx)

theorem appliedCount_logEv_ne (w : World) (ev : Ev) (e : ERef) (t : TName)
    (h : ev ≠ Ev.applied e t) :
    appliedCount (logEv w ev).trace e t = appliedCount w.trace e t := by
  show appliedCount (ev :: w.trace) e t = _
  rw [appliedCount_cons, if_neg h]
  simp

theorem linkWf_of_analyses_eq (rank : Nat → Nat) (v : Nat) (M : List Nat) {w1 w2 : World}
    (h : w2.analyses = w1.analyses) (hl : linkWf rank v M w1) : linkWf rank v M w2 :=
  fun x hx => hl x (h ▸ hx)

theorem linkWf_updAn (rank : Nat → Nat) (v : Nat) (M : List Nat) (w : World) (i : Nat)
    (f : Analysis → Analysis)
    (hid : ∀ x, (f x).aid = x.aid) (hws : ∀ x, (f x).worksheetId = x.worksheetId)
    (hdp : ∀ x, (f x).dependencies = x.dependencies)
    (hl : linkWf rank v M w) : linkWf rank v M (updAn w i f) := by
  intro x hx
  obtain ⟨y, hy, rfl⟩ := List.mem_map.mp hx
  by_cases hc : y.aid = i
  · rw [if_pos hc]
    obtain ⟨h1, h2⟩ := hl y hy
    refine ⟨by rw [hws y, hid y]; exact h1, ?_⟩
    intro d hd
    rw [hid y]
    exact h2 d (by rw [hdp y] at hd; exact hd)
  · rw [if_neg hc]
    exact hl y hy

theorem wsPart_transport (v : Nat) (M : List Nat) {w w2 : World}
    (hmem : ∀ j ∈ M, memOK w2 j = memOK w j)
    (hws : getWs w2 v = getWs w v)
    (hcnt : appliedCount w2.trace (ERef.ws v) .submit = appliedCount w.trace (ERef.ws v) .submit)
    (h : wsPart v M w) : wsPart v M w2 := by
  obtain ⟨ws, h1, h2, h3⟩ := h
  refine ⟨ws, by rw [hws]; exact h1, h2, ?_⟩
  rcases h3 with ⟨ha, hb⟩ | ⟨ha, hb, hc⟩
  · exact Or.inl ⟨ha, by rw [hcnt]; exact hb⟩
  · refine Or.inr ⟨ha, ?_, by rw [hcnt]; exact hc⟩
    rw [all_congr_mem M _ _ hmem]
    exact hb

theorem wsPart_mono (v : Nat) (M : List Nat) {w w2 : World}
    (hmem : ∀ j ∈ M, memOK w j = true → memOK w2 j = true)
    (hws : getWs w2 v = getWs w v)
    (hcnt : appliedCount w2.trace (ERef.ws v) .submit = appliedCount w.trace (ERef.ws v) .submit)
    (h : wsPart v M w) : wsPart v M w2 := by
  obtain ⟨ws, h1, h2, h3⟩ := h
  refine ⟨ws, by rw [hws]; exact h1, h2, ?_⟩
  rcases h3 with ⟨ha, hb⟩ | ⟨ha, hb, hc⟩
  · exact Or.inl ⟨ha, by rw [hcnt]; exact hb⟩
  · exact Or.inr ⟨ha, all_mono_mem M _ _ hmem hb, by rw [hcnt]; exact hc⟩

theorem phi_transport (v : Nat) (M : List Nat) {w w2 : World}
    (hmem : ∀ j ∈ M, memOK w2 j = memOK w j)
    (hws : getWs w2 v = getWs w v)
    (h : C5Phi v M w) : C5Phi v M w2 := by
  intro hall
  rw [all_congr_mem M _ _ hmem] at hall
  obtain ⟨ws, h1, h2⟩ := h hall
  exact ⟨ws, by rw [hws]; exact h1, h2⟩

/-! ### C5: per-primitive quiet facts -/

theorem getWs_updWs_ne (w : World) (u : Nat) (f : Worksheet → Worksheet)
    (hf : ∀ x, (f x).wid = x.wid) (i : Nat) (hne : u ≠ i) :
    getWs (updWs w u f) i = getWs w i := by
  rw [getWs_updWs w u f hf i]
  cases hA : getWs w i with
  | none => rfl
  | some y =>
    have hy : y.wid = i := by simpa using List.find?_some hA
    show some (if y.wid = u then f y else y) = some y
    rw [if_neg (by rw [hy]; exact fun h => hne h.symm)]

theorem worksheets_foldl_logEv {α} (g : α → Ev) (l : List α) :
    ∀ w : World, (l.foldl (fun w x => logEv w (g x)) w).worksheets = w.worksheets := by
  induction l with
  | nil => exact fun w => rfl
  | cons x xs ih => exact fun w => ih (logEv w (g x))

theorem worksheets_reindex_request (w : World) (a : Analysis) :
    (reindex_request w a).worksheets = w.worksheets := by
  unfold reindex_request
  split
  · rfl
  · cases a.requestId with
    | none => rfl
    | some sid => exact worksheets_foldl_logEv _ _ w

theorem getWs_congr_worksheets {w1 w2 : World} (h : w1.worksheets = w2.worksheets) (u : Nat) :
    getWs w1 u = getWs w2 u := by
  unfold getWs
  rw [h]

theorem appliedCount_reindex_request (w : World) (a : Analysis) (e : ERef) (t : TName) :
    appliedCount (reindex_request w a).trace e t = appliedCount w.trace e t := by
  obtain ⟨l, hl, hall⟩ := trace_reindex_request w a
  show (reindex_request w a).trace.countP _ = _
  rw [hl, List.countP_append]
  have h0 : l.countP
      (fun ev => match ev with | Ev.applied e2 t2 => e2 == e && t2 == t | _ => false) = 0 := by
    rw [List.countP_eq_zero]
    intro ev hin
    obtain ⟨e2, rfl⟩ := hall ev hin
    simp
  rw [h0]
  simp [appliedCount]

/-! ### C5: guard characterizations and quiet invocations -/

theorem anGuard_submit_tbv (s : AState) (st2 : AState) (h : anGuard s .submit = some st2) :
    st2 = AState.to_be_verified := by
  cases s with
  | unassigned => exact (Option.some.inj h).symm
  | assigned => exact (Option.some.inj h).symm
  | to_be_verified => exact Option.noConfusion h
  | verified => exact Option.noConfusion h
  | retracted => exact Option.noConfusion h
  | rejected => exact Option.noConfusion h
  | cancelled => exact Option.noConfusion h
  | published => exact Option.noConfusion h

theorem memOK_of_guard_none (x : Analysis) (h : anGuard x.state .submit = none) :
    (!validState x.state || stateSubmitted x.state) = true := by
  cases hs : x.state with
  | unassigned => rw [hs] at h; exact Option.noConfusion h
  | assigned => rw [hs] at h; exact Option.noConfusion h
  | to_be_verified => rfl
  | verified => rfl
  | retracted => rfl
  | rejected => rfl
  | cancelled => rfl
  | published => rfl

theorem wsGuard_submit_extract (w : World) (x : Worksheet) (st2 : WSState)
    (h : wsGuard w x .submit = some st2) :
    st2 = WSState.to_be_verified ∧ x.state = WSState.open_ ∧ x.members ≠ [] ∧
      (wsMembers w x).all (fun a => !validState a.state || stateSubmitted a.state) = true := by
  simp only [wsGuard] at h
  split at h
  · rename_i hc
    exact ⟨(Option.some.inj h).symm, hc.1, hc.2.1, hc.2.2⟩
  · exact Option.noConfusion h

theorem wsGuard_submit_none (w : World) (x : Worksheet)
    (h : wsGuard w x .submit = none) :
    ¬(x.state = WSState.open_ ∧ x.members ≠ [] ∧
      (wsMembers w x).all (fun a => !validState a.state || stateSubmitted a.state) = true) := by
  simp only [wsGuard] at h
  split at h
  · exact Option.noConfusion h
  · rename_i hc
    exact hc

theorem all_filterMap {α β} (f : α → Option β) (p : β → Bool) :
    ∀ l : List α, (l.filterMap f).all p =
      l.all (fun x => match f x with | some y => p y | none => true) := by
  intro l
  induction l with
  | nil => rfl
  | cons x xs ih =>
    rw [List.filterMap_cons]
    cases hf : f x with
    | none => simp [List.all_cons, hf, ih]
    | some y => simp [List.all_cons, hf, ih]

theorem wsMembers_all_memOK (w : World) (x : Worksheet) :
    (wsMembers w x).all (fun a => !validState a.state || stateSubmitted a.state) =
      x.members.all (memOK w) := by
  unfold wsMembers
  rw [all_filterMap]
  exact all_congr_mem x.members _ _ (fun j _ => by unfold memOK; cases getAn w j <;> rfl)

theorem doActionFor_ws_refused (f : Nat) (w : World) (u : Nat) (t : TName) (x : Worksheet)
    (hget : getWs w u = some x) (hg : wsGuard w x t = none) :
    (doActionFor (f + 1) w (.ws u) t).1 = logEv w (.invoked (.ws u) t (snapMarks w)) := by
  unfold doActionFor
  simp [hget, hg, getWs_logEv, wsGuard_logEv]

theorem doActionFor_ws_applied_eq (f : Nat) (w : World) (u : Nat) (t : TName) (x : Worksheet)
    (st2 : WSState) (hget : getWs w u = some x) (hg : wsGuard w x t = some st2) :
    (doActionFor (f + 1) w (.ws u) t).1 =
      logEv (updWs (logEv w (.invoked (.ws u) t (snapMarks w))) u
        (fun o => { o with state := st2 })) (.applied (.ws u) t) := by
  unfold doActionFor
  simp [hget, hg, getWs_logEv, wsGuard_logEv, applyWs]

theorem ev_invoked_ne_applied (e : ERef) (t : TName) (s : List (Nat × Marks))
    (e2 : ERef) (t2 : TName) : Ev.invoked e t s ≠ Ev.applied e2 t2 :=
  fun h => Ev.noConfusion h

theorem ev_applied_smp_ne (s : Nat) (t : TName) (v : Nat) :
    Ev.applied (.smp s) t ≠ Ev.applied (.ws v) .submit := by
  intro h
  injection h with h1 _
  exact ERef.noConfusion h1

theorem ev_applied_an_ne (i : Nat) (t : TName) (v : Nat) :
    Ev.applied (.an i) t ≠ Ev.applied (.ws v) .submit := by
  intro h
  injection h with h1 _
  exact ERef.noConfusion h1

theorem ev_applied_ws_ne (u : Nat) (t : TName) (v : Nat) (hne : u ≠ v) :
    Ev.applied (.ws u) t ≠ Ev.applied (.ws v) .submit := by
  intro h
  injection h with h1 _
  injection h1 with h2
  exact hne h2

theorem ev_reindexed_ne_applied (e : ERef) (e2 : ERef) (t2 : TName) :
    Ev.reindexed e ≠ Ev.applied e2 t2 :=
  fun h => Ev.noConfusion h

/-- Operations that leave the analyses, worksheet `v` and its applied-submit
count untouched. -/
def C5Quiet (v : Nat) (w w2 : World) : Prop :=
  w2.analyses = w.analyses ∧ getWs w2 v = getWs w v ∧
    appliedCount w2.trace (ERef.ws v) .submit = appliedCount w.trace (ERef.ws v) .submit

theorem c5quiet_rfl (v : Nat) (w : World) : C5Quiet v w w := ⟨rfl, rfl, rfl⟩

def C5Quiet.comp {v : Nat} {w1 w2 w3 : World} (h1 : C5Quiet v w1 w2)
    (h2 : C5Quiet v w2 w3) : C5Quiet v w1 w3 :=
  ⟨h2.1.trans h1.1, h2.2.1.trans h1.2.1, h2.2.2.trans h1.2.2⟩

theorem c5quiet_logEv (v : Nat) (w : World) (ev : Ev)
    (h : ev ≠ Ev.applied (.ws v) .submit) : C5Quiet v w (logEv w ev) :=
  ⟨rfl, rfl, appliedCount_logEv_ne w ev _ _ h⟩

theorem c5quiet_updSmp (v : Nat) (w : World) (s : Nat) (f : Sample → Sample) :
    C5Quiet v w (updSmp w s f) := ⟨rfl, rfl, rfl⟩

theorem c5quiet_updWs_ne (v : Nat) (w : World) (u : Nat) (f : Worksheet → Worksheet)
    (hfid : ∀ x, (f x).wid = x.wid) (hne : u ≠ v) : C5Quiet v w (updWs w u f) :=
  ⟨rfl, getWs_updWs_ne w u f hfid v hne, rfl⟩

theorem c5quiet_reindex (v : Nat) (w : World) (a : Analysis) :
    C5Quiet v w (reindex_request w a) :=
  ⟨analyses_reindex_request w a,
   getWs_congr_worksheets (worksheets_reindex_request w a) v,
   appliedCount_reindex_request w a _ _⟩

theorem c5quiet_inv (rank : Nat → Nat) (v : Nat) (M : List Nat) {w w2 : World}
    (hq : C5Quiet v w w2) (h : C5Inv rank v M w) : C5Inv rank v M w2 :=
  ⟨linkWf_of_analyses_eq rank v M hq.1 h.1,
   wsPart_transport v M (fun j _ => memOK_congr hq.1 j) hq.2.1 hq.2.2 h.2⟩

theorem c5quiet_phi (v : Nat) (M : List Nat) {w w2 : World}
    (hq : C5Quiet v w w2) (h : C5Phi v M w) : C5Phi v M w2 :=
  phi_transport v M (fun j _ => memOK_congr hq.1 j) hq.2.1 h

theorem c5_smp_quiet (v : Nat) (fuel : Nat) (w : World) (s : Nat) (t : TName) :
    C5Quiet v w (doActionFor fuel w (.smp s) t).1 := by
  cases fuel with
  | zero => exact c5quiet_rfl v w
  | succ f =>
    rcases doActionFor_smp_split f w s t with he | ⟨x, st2, _, _, he⟩
    · rw [he]
      exact c5quiet_logEv v w _ (ev_invoked_ne_applied _ _ _ _ _)
    · rw [he]
      exact (c5quiet_logEv v w _ (ev_invoked_ne_applied _ _ _ _ _)).comp
        ((c5quiet_updSmp v _ s _).comp (c5quiet_logEv v _ _ (ev_applied_smp_ne s t v)))

theorem c5_ws_other_quiet (v : Nat) (fuel : Nat) (w : World) (u : Nat) (t : TName)
    (hne : u ≠ v) : C5Quiet v w (doActionFor fuel w (.ws u) t).1 := by
  cases fuel with
  | zero => exact c5quiet_rfl v w
  | succ f =>
    rcases doActionFor_ws_split f w u t with he | ⟨x, st2, _, _, he⟩
    · rw [he]
      exact c5quiet_logEv v w _ (ev_invoked_ne_applied _ _ _ _ _)
    · rw [he]
      exact (c5quiet_logEv v w _ (ev_invoked_ne_applied _ _ _ _ _)).comp
        ((c5quiet_updWs_ne v _ u (fun o => { o with state := st2 }) (fun _ => rfl) hne).comp
          (c5quiet_logEv v _ _ (ev_applied_ws_ne u t v hne)))

/-- A submit invocation aimed at worksheet `v` itself: the invariant is kept,
members are untouched, and afterwards the convergence certificate holds
unconditionally — if the guard passed the worksheet is promoted, and if it
refused then either some member still blocks or the worksheet was already
promoted. -/
theorem c5_ws_self_call (rank : Nat → Nat) (v : Nat) (M : List Nat) (hMne : M ≠ [])
    (f : Nat) (w : World) (hInv : C5Inv rank v M w) :
    C5Inv rank v M (doActionFor (f + 1) w (.ws v) .submit).1 ∧
    (∀ j, memOK (doActionFor (f + 1) w (.ws v) .submit).1 j = memOK w j) ∧
    C5Phi v M (doActionFor (f + 1) w (.ws v) .submit).1 := by
  have hlw := hInv.1
  obtain ⟨ws, hws, hmm2, hdisj⟩ := hInv.2
  cases hg : wsGuard w ws .submit with
  | none =>
    have he := doActionFor_ws_refused f w v .submit ws hws hg
    rw [he]
    have hq : C5Quiet v w (logEv w (.invoked (.ws v) .submit (snapMarks w))) :=
      c5quiet_logEv v w _ (ev_invoked_ne_applied _ _ _ _ _)
    refine ⟨c5quiet_inv rank v M hq hInv, fun j => memOK_congr hq.1 j, ?_⟩
    intro hall
    have hall0 : M.all (memOK w) = true := by
      rw [all_congr_mem M _ _ (fun j _ => memOK_congr hq.1 j)] at hall
      exact hall
    have hres := wsGuard_submit_none w ws hg
    have hmem_eq : (wsMembers w ws).all
        (fun a => !validState a.state || stateSubmitted a.state) = M.all (memOK w) := by
      rw [wsMembers_all_memOK, hmm2]
    rcases hdisj with ⟨hopen, _⟩ | ⟨htbv, _, _⟩
    · exact absurd ⟨hopen, by rw [hmm2]; exact hMne, by rw [hmem_eq]; exact hall0⟩ hres
    · exact ⟨ws, by rw [getWs_logEv]; exact hws, htbv⟩
  | some st2 =>
    obtain ⟨hst2, hopen, _, hall4⟩ := wsGuard_submit_extract w ws st2 hg
    subst hst2
    have he := doActionFor_ws_applied_eq f w v .submit ws _ hws hg
    rw [he]
    have hwid : ws.wid = v := by simpa using List.find?_some hws
    have hget2 : getWs (logEv (updWs (logEv w (.invoked (.ws v) .submit (snapMarks w))) v
        (fun o => { o with state := WSState.to_be_verified }))
        (.applied (.ws v) .submit)) v = some { ws with state := WSState.to_be_verified } := by
      simp only [getWs_logEv]
      rw [getWs_updWs _ v (fun o => { o with state := WSState.to_be_verified })
        (fun _ => rfl) v]
      simp only [getWs_logEv]
      rw [hws]
      simp [hwid]
    have hana : (logEv (updWs (logEv w (.invoked (.ws v) .submit (snapMarks w))) v
        (fun o => { o with state := WSState.to_be_verified }))
        (.applied (.ws v) .submit)).analyses = w.analyses := rfl
    have hcount0 : appliedCount w.trace (.ws v) .submit = 0 := by
      rcases hdisj with ⟨_, hb⟩ | ⟨htbv, _, _⟩
      · exact hb
      · exact absurd (hopen.symm.trans htbv) (fun h => WSState.noConfusion h)
    have hcnt2 : appliedCount (logEv (updWs (logEv w
        (.invoked (.ws v) .submit (snapMarks w))) v
        (fun o => { o with state := WSState.to_be_verified }))
        (.applied (.ws v) .submit)).trace (ERef.ws v) .submit = 1 := by
      show appliedCount (Ev.applied (.ws v) .submit ::
        Ev.invoked (.ws v) .submit (snapMarks w) :: w.trace) (ERef.ws v) .submit = 1
      rw [appliedCount_cons, if_pos rfl, appliedCount_cons,
        if_neg (ev_invoked_ne_applied _ _ _ _ _), hcount0]
    have hallM : M.all (memOK w) = true := by
      rw [wsMembers_all_memOK, hmm2] at hall4
      exact hall4
    refine ⟨⟨linkWf_of_analyses_eq rank v M hana hlw,
      ⟨{ ws with state := WSState.to_be_verified }, hget2, hmm2, Or.inr ⟨rfl, ?_, hcnt2⟩⟩⟩,
      fun j => memOK_congr hana j,
      fun _ => ⟨{ ws with state := WSState.to_be_verified }, hget2, rfl⟩⟩
    rw [all_congr_mem M _ _ (fun j _ => memOK_congr hana j)]
    exact hallM

/-! ### C5: the submit hook and the master induction -/

/-- `after_submit`, zeta-expanded. -/
theorem after_submit_char (doAF : DoAF) (a : Analysis) (w : World) :
    after_submit doAF a w =
      request_tail doAF a .submit
        (ws_promote doAF .submit a.worksheetId
          (promote_to_dependencies doAF
            (addMark (if a.resultCaptureDate.isNone then setCaptureDate w a.aid else w)
              a.aid .submittedM) a .submit)) := rfl

/-- The shape of an applied submit transition on an analysis. -/
theorem submitRun_char (f : Nat) (w : World) (a : Analysis)
    (hget : getAn w a.aid = some a)
    (hg : anGuard a.state .submit = some AState.to_be_verified) :
    (doActionFor (f + 1) w (.an a.aid) .submit).1 =
      after_submit (fun w e t => doActionFor f w e t) { a with state := AState.to_be_verified }
        (logEv (setAnState (logEv w (Ev.invoked (.an a.aid) .submit (snapMarks w)))
          a.aid AState.to_be_verified) (Ev.applied (.an a.aid) .submit)) := by
  conv_lhs => unfold doActionFor
  simp only [getAn_logEv, hget, hg]
  show applyAn (fun w e t => doActionFor f w e t)
      (logEv w (Ev.invoked (.an a.aid) .submit (snapMarks w))) a.aid .submit a
      AState.to_be_verified = _
  unfold applyAn runBefore applyAn_after
  have hget2 : getAn (logEv (setAnState (logEv w
      (Ev.invoked (.an a.aid) .submit (snapMarks w))) a.aid AState.to_be_verified)
      (Ev.applied (.an a.aid) .submit)) a.aid
      = some { a with state := AState.to_be_verified } := by
    simp only [getAn_logEv]
    rw [setAnState, getAn_updAn _ a.aid (fun x => { x with state := AState.to_be_verified })
      (fun _ => rfl) a.aid]
    simp only [getAn_logEv]
    rw [hget]
    simp
  simp only [hget2]
  rfl

theorem c5_promote (rank : Nat → Nat) (v : Nat) (M : List Nat) (f : Nat)
    (ih : C5Master rank v M f) (l : List Nat) :
    ∀ w, C5Inv rank v M w →
      C5Inv rank v M (l.foldl (fun w d => (doActionFor f w (.an d) .submit).1) w) ∧
      (∀ j, memOK w j = true →
        memOK (l.foldl (fun w d => (doActionFor f w (.an d) .submit).1) w) j = true) ∧
      ((∀ d ∈ l, rank d + 2 ≤ f) → C5Phi v M w →
        C5Phi v M (l.foldl (fun w d => (doActionFor f w (.an d) .submit).1) w)) := by
  induction l with
  | nil => exact fun w hInv => ⟨hInv, fun j h => h, fun _ h => h⟩
  | cons d ds ihl =>
    intro w hInv
    obtain ⟨inv1, mono1, phi1⟩ := ih w (.an d) hInv
    obtain ⟨inv2, mono2, phi2⟩ := ihl _ inv1
    refine ⟨inv2, fun j h => mono2 j (mono1 j h), ?_⟩
    intro hrk hphi
    exact phi2 (fun d2 hd2 => hrk d2 (List.mem_cons_of_mem d hd2))
      (phi1 (hrk d (List.mem_cons_self d ds)) hphi)

theorem c5_ws_promote (rank : Nat → Nat) (v : Nat) (M : List Nat) (hMne : M ≠ [])
    (f : Nat) (oi : Option Nat) (w : World) (hInv : C5Inv rank v M w) :
    C5Inv rank v M (ws_promote (fun w e t => doActionFor f w e t) .submit oi w) ∧
    (∀ j, memOK w j = true →
      memOK (ws_promote (fun w e t => doActionFor f w e t) .submit oi w) j = true) ∧
    ((oi = some v → 1 ≤ f →
        C5Phi v M (ws_promote (fun w e t => doActionFor f w e t) .submit oi w)) ∧
     (oi ≠ some v → C5Phi v M w →
        C5Phi v M (ws_promote (fun w e t => doActionFor f w e t) .submit oi w))) := by
  cases oi with
  | none =>
    exact ⟨hInv, fun j h => h, fun h => absurd h (fun h2 => Option.noConfusion h2),
      fun _ h => h⟩
  | some u =>
    simp only [ws_promote]
    by_cases hu : u = v
    · subst hu
      cases f with
      | zero =>
        have hq : C5Quiet u w (logEv (doActionFor 0 w (.ws u) .submit).1
            (.reindexed (.ws u))) :=
          c5quiet_logEv u w _ (ev_reindexed_ne_applied _ _ _)
        refine ⟨c5quiet_inv rank u M hq hInv,
          fun j h => by rw [memOK_congr hq.1 j]; exact h, ?_, ?_⟩
        · intro _ h1
          exact absurd h1 (by omega)
        · intro _ hphi
          exact c5quiet_phi u M hq hphi
      | succ k =>
        obtain ⟨i1, i2, i3⟩ := c5_ws_self_call rank u M hMne k w hInv
        have hq : C5Quiet u (doActionFor (k + 1) w (.ws u) .submit).1
            (logEv (doActionFor (k + 1) w (.ws u) .submit).1 (.reindexed (.ws u))) :=
          c5quiet_logEv u _ _ (ev_reindexed_ne_applied _ _ _)
        refine ⟨c5quiet_inv rank u M hq i1,
          fun j h => by rw [memOK_congr hq.1 j, i2 j]; exact h, ?_, ?_⟩
        · intro _ _
          exact c5quiet_phi u M hq i3
        · intro _ _
          exact c5quiet_phi u M hq i3
    · have hq : C5Quiet v w (logEv (doActionFor f w (.ws u) .submit).1
          (.reindexed (.ws u))) :=
        (c5_ws_other_quiet v f w u .submit hu).comp
          (c5quiet_logEv v _ _ (ev_reindexed_ne_applied _ _ _))
      refine ⟨c5quiet_inv rank v M hq hInv,
        fun j h => by rw [memOK_congr hq.1 j]; exact h, ?_, ?_⟩
      · intro h1
        exact absurd (Option.some.inj h1) hu
      · intro _ hphi
        exact c5quiet_phi v M hq hphi

theorem c5_request_tail_quiet (v : Nat) (f : Nat) (a : Analysis) (t : TName) (w : World) :
    C5Quiet v w (request_tail (fun w e t => doActionFor f w e t) a t w) := by
  unfold request_tail
  split
  · refine @C5Quiet.comp _ _ (smp_try (fun w e t => doActionFor f w e t) t a.requestId w)
      _ ?_ (c5quiet_reindex v _ a)
    cases a.requestId with
    | none => exact c5quiet_rfl v w
    | some sid => exact c5_smp_quiet v f w sid t
  · exact c5quiet_rfl v w

theorem c5_after_submit (rank : Nat → Nat) (v : Nat) (M : List Nat) (hMne : M ≠ [])
    (f : Nat) (ih : C5Master rank v M f) (a : Analysis) (w3 : World)
    (hInv : C5Inv rank v M w3) :
    C5Inv rank v M (after_submit (fun w e t => doActionFor f w e t) a w3) ∧
    (∀ j, memOK w3 j = true →
      memOK (after_submit (fun w e t => doActionFor f w e t) a w3) j = true) ∧
    ((a.worksheetId = some v → 1 ≤ f →
        C5Phi v M (after_submit (fun w e t => doActionFor f w e t) a w3)) ∧
     (a.worksheetId ≠ some v → (∀ d ∈ a.dependencies, rank d + 2 ≤ f) → C5Phi v M w3 →
        C5Phi v M (after_submit (fun w e t => doActionFor f w e t) a w3))) := by
  rw [after_submit_char]
  have hcapInv : C5Inv rank v M
      (if a.resultCaptureDate.isNone then setCaptureDate w3 a.aid else w3) ∧
      ∀ j, memOK (if a.resultCaptureDate.isNone then setCaptureDate w3 a.aid else w3) j
        = memOK w3 j := by
    split
    · refine ⟨⟨linkWf_updAn rank v M w3 a.aid
        (fun x => { x with resultCaptureDate := some w3.clock }) (fun _ => rfl)
        (fun _ => rfl) (fun _ => rfl) hInv.1, wsPart_transport v M
          (fun j _ => memOK_updAn_pres w3 a.aid
            (fun x => { x with resultCaptureDate := some w3.clock })
            (fun _ => rfl) (fun _ => rfl) j)
          rfl rfl hInv.2⟩,
        fun j => memOK_updAn_pres w3 a.aid
          (fun x => { x with resultCaptureDate := some w3.clock })
          (fun _ => rfl) (fun _ => rfl) j⟩
    · exact ⟨hInv, fun j => rfl⟩
  have hmarkInv : C5Inv rank v M
      (addMark (if a.resultCaptureDate.isNone then setCaptureDate w3 a.aid else w3)
        a.aid .submittedM) ∧
      ∀ j, memOK (addMark (if a.resultCaptureDate.isNone then setCaptureDate w3 a.aid else w3)
        a.aid .submittedM) j = memOK w3 j := by
    refine ⟨⟨linkWf_updAn rank v M _ a.aid
      (fun x => { x with marks := x.marks.set MName.submittedM }) (fun _ => rfl)
      (fun _ => rfl) (fun _ => rfl) hcapInv.1.1, wsPart_transport v M
        (fun j _ => memOK_updAn_pres _ a.aid
          (fun x => { x with marks := x.marks.set MName.submittedM })
          (fun _ => rfl) (fun _ => rfl) j)
        rfl rfl hcapInv.1.2⟩, ?_⟩
    intro j
    rw [show memOK (addMark (if a.resultCaptureDate.isNone then setCaptureDate w3 a.aid
        else w3) a.aid .submittedM) j =
      memOK (if a.resultCaptureDate.isNone then setCaptureDate w3 a.aid else w3) j from
      memOK_updAn_pres _ a.aid (fun x => { x with marks := x.marks.set MName.submittedM })
        (fun _ => rfl) (fun _ => rfl) j]
    exact hcapInv.2 j
  obtain ⟨pInv, pMono, pPhi⟩ := c5_promote rank v M f ih a.dependencies _ hmarkInv.1
  obtain ⟨wInv, wMono, wPhiSelf, wPhiOther⟩ :=
    c5_ws_promote rank v M hMne f a.worksheetId _ pInv
  have hq := c5_request_tail_quiet v f a .submit
    (ws_promote (fun w e t => doActionFor f w e t) .submit a.worksheetId
      (promote_to_dependencies (fun w e t => doActionFor f w e t)
        (addMark (if a.resultCaptureDate.isNone then setCaptureDate w3 a.aid else w3)
          a.aid .submittedM) a .submit))
  refine ⟨c5quiet_inv rank v M hq wInv, ?_, ?_, ?_⟩
  · intro j h
    rw [memOK_congr hq.1 j]
    exact wMono j (pMono j (by rw [hmarkInv.2 j]; exact h))
  · intro hws hf
    exact c5quiet_phi v M hq (wPhiSelf hws hf)
  · intro hws hdeps hphi
    refine c5quiet_phi v M hq (wPhiOther hws (pPhi hdeps ?_))
    exact phi_transport v M (fun j _ => hmarkInv.2 j) (by split <;> rfl) hphi

/-- The master fuel induction for submit-directed invocations: the invariant
is preserved, member submission is monotone, and the convergence certificate
is preserved whenever the fuel covers the dependency rank. -/
theorem c5_master_all (rank : Nat → Nat) (v : Nat) (M : List Nat) (hMne : M ≠ []) :
    ∀ fuel, C5Master rank v M fuel := by
  intro fuel
  induction fuel with
  | zero => exact fun w e hInv => ⟨hInv, fun j h => h, fun _ h => h⟩
  | succ f ih =>
    intro w e hInv
    cases e with
    | an i =>
      cases hA : getAn w i with
      | none =>
        have he : (doActionFor (f + 1) w (.an i) .submit).1 =
            logEv w (.invoked (.an i) .submit (snapMarks w)) := by
          unfold doActionFor
          simp [hA, getAn_logEv]
        rw [he]
        have hq := c5quiet_logEv v w (Ev.invoked (.an i) .submit (snapMarks w))
          (ev_invoked_ne_applied _ _ _ _ _)
        exact ⟨c5quiet_inv rank v M hq hInv,
          fun j h => by rw [memOK_congr hq.1 j]; exact h,
          fun _ hphi => c5quiet_phi v M hq hphi⟩
      | some a =>
        have hai : a.aid = i := by simpa using List.find?_some hA
        subst hai
        cases hg : anGuard a.state .submit with
        | none =>
          have he : (doActionFor (f + 1) w (.an a.aid) .submit).1 =
              logEv w (.invoked (.an a.aid) .submit (snapMarks w)) := by
            unfold doActionFor
            simp [hA, hg, getAn_logEv]
          rw [he]
          have hq := c5quiet_logEv v w (Ev.invoked (.an a.aid) .submit (snapMarks w))
            (ev_invoked_ne_applied _ _ _ _ _)
          exact ⟨c5quiet_inv rank v M hq hInv,
            fun j h => by rw [memOK_congr hq.1 j]; exact h,
            fun _ hphi => c5quiet_phi v M hq hphi⟩
        | some st2 =>
          have hst2 := anGuard_submit_tbv a.state st2 hg
          subst hst2
          rw [submitRun_char f w a hA hg]
          have hq1 : C5Quiet v w
              (logEv w (Ev.invoked (.an a.aid) .submit (snapMarks w))) :=
            c5quiet_logEv v w _ (ev_invoked_ne_applied _ _ _ _ _)
          have hInv1 := c5quiet_inv rank v M hq1 hInv
          have hInv2 : C5Inv rank v M
              (setAnState (logEv w (Ev.invoked (.an a.aid) .submit (snapMarks w)))
                a.aid AState.to_be_verified) := by
            refine ⟨?_, ?_⟩
            · rw [setAnState]
              exact linkWf_updAn rank v M _ a.aid _ (fun _ => rfl) (fun _ => rfl)
                (fun _ => rfl) hInv1.1
            · exact wsPart_mono v M
                (fun j _ h => memOK_setAnState_mono _ a.aid j h) rfl rfl hInv1.2
          have hq3 : C5Quiet v
              (setAnState (logEv w (Ev.invoked (.an a.aid) .submit (snapMarks w)))
                a.aid AState.to_be_verified)
              (logEv (setAnState (logEv w (Ev.invoked (.an a.aid) .submit (snapMarks w)))
                a.aid AState.to_be_verified) (Ev.applied (.an a.aid) .submit)) :=
            c5quiet_logEv v _ _ (ev_applied_an_ne a.aid .submit v)
          have hInv3 := c5quiet_inv rank v M hq3 hInv2
          obtain ⟨invA, monoA, phiA⟩ := c5_after_submit rank v M hMne f ih
            { a with state := AState.to_be_verified } _ hInv3
          have hmono3 : ∀ j, memOK w j = true →
              memOK (logEv (setAnState (logEv w
                (Ev.invoked (.an a.aid) .submit (snapMarks w)))
                a.aid AState.to_be_verified) (Ev.applied (.an a.aid) .submit)) j = true := by
            intro j h
            rw [memOK_congr hq3.1 j]
            exact memOK_setAnState_mono _ a.aid j
              (by rw [memOK_congr hq1.1 j]; exact h)
          refine ⟨invA, fun j h => monoA j (hmono3 j h), ?_⟩
          intro hrk hphi
          by_cases hWsId : a.worksheetId = some v
          · exact phiA.1 hWsId (by omega)
          · have hmemA : a ∈ w.analyses := List.mem_of_find?_eq_some hA
            have hlk := hInv.1 a hmemA
            have hnotin : a.aid ∉ M := fun hin => hWsId (hlk.1.mpr hin)
            have hphi3 : C5Phi v M
                (logEv (setAnState (logEv w (Ev.invoked (.an a.aid) .submit (snapMarks w)))
                  a.aid AState.to_be_verified) (Ev.applied (.an a.aid) .submit)) := by
              refine phi_transport v M ?_ ?_ hphi
              · intro j hj
                rw [memOK_congr hq3.1 j, setAnState,
                  memOK_updAn_ne _ a.aid (fun x => { x with state := AState.to_be_verified })
                    (fun _ => rfl) j (fun hji => hnotin (hji ▸ hj)),
                  memOK_congr hq1.1 j]
              · rfl
            exact phiA.2 hWsId (fun d hd => by have := hlk.2 d hd; omega) hphi3
    | ws u =>
      by_cases hu : u = v
      · subst hu
        obtain ⟨i1, i2, i3⟩ := c5_ws_self_call rank u M hMne f w hInv
        exact ⟨i1, fun j h => by rw [i2 j]; exact h, fun _ _ => i3⟩
      · have hq := c5_ws_other_quiet v (f + 1) w u .submit hu
        exact ⟨c5quiet_inv rank v M hq hInv,
          fun j h => by rw [memOK_congr hq.1 j]; exact h,
          fun _ hphi => c5quiet_phi v M hq hphi⟩
    | smp s =>
      have hq := c5_smp_quiet v (f + 1) w s .submit
      exact ⟨c5quiet_inv rank v M hq hInv,
        fun j h => by rw [memOK_congr hq.1 j]; exact h,
        fun _ hphi => c5quiet_phi v M hq hphi⟩

/-! ### C5: the fold over the members and the claim -/

theorem memOK_logEv (w : World) (ev : Ev) (j : Nat) : memOK (logEv w ev) j = memOK w j := rfl

/-- A direct submit invocation (with fuel to run) leaves its target analysis
no longer blocking the worksheet guard: it was either missing, already
beyond submission, invalid, or it gets submitted now. -/
theorem c5_direct_submitted (rank : Nat → Nat) (v : Nat) (M : List Nat) (hMne : M ≠ [])
    (f : Nat) (w : World) (j : Nat) (hInv : C5Inv rank v M w) :
    memOK (doActionFor (f + 1) w (.an j) .submit).1 j = true := by
  cases hA : getAn w j with
  | none =>
    have he : (doActionFor (f + 1) w (.an j) .submit).1 =
        logEv w (.invoked (.an j) .submit (snapMarks w)) := by
      unfold doActionFor
      simp [hA, getAn_logEv]
    rw [he, memOK_logEv]
    unfold memOK
    simp only [hA]
  | some a =>
    have hai : a.aid = j := by simpa using List.find?_some hA
    subst hai
    cases hg : anGuard a.state .submit with
    | none =>
      have he : (doActionFor (f + 1) w (.an a.aid) .submit).1 =
          logEv w (.invoked (.an a.aid) .submit (snapMarks w)) := by
        unfold doActionFor
        simp [hA, hg, getAn_logEv]
      rw [he, memOK_logEv]
      unfold memOK
      simp only [hA]
      exact memOK_of_guard_none a hg
    | some st2 =>
      have hst2 := anGuard_submit_tbv a.state st2 hg
      subst hst2
      rw [submitRun_char f w a hA hg]
      have hq1 : C5Quiet v w
          (logEv w (Ev.invoked (.an a.aid) .submit (snapMarks w))) :=
        c5quiet_logEv v w _ (ev_invoked_ne_applied _ _ _ _ _)
      have hInv1 := c5quiet_inv rank v M hq1 hInv
      have hInv2 : C5Inv rank v M
          (setAnState (logEv w (Ev.invoked (.an a.aid) .submit (snapMarks w)))
            a.aid AState.to_be_verified) := by
        refine ⟨?_, ?_⟩
        · rw [setAnState]
          exact linkWf_updAn rank v M _ a.aid _ (fun _ => rfl) (fun _ => rfl)
            (fun _ => rfl) hInv1.1
        · exact wsPart_mono v M
            (fun j2 _ h => memOK_setAnState_mono _ a.aid j2 h) rfl rfl hInv1.2
      have hq3 : C5Quiet v
          (setAnState (logEv w (Ev.invoked (.an a.aid) .submit (snapMarks w)))
            a.aid AState.to_be_verified)
          (logEv (setAnState (logEv w (Ev.invoked (.an a.aid) .submit (snapMarks w)))
            a.aid AState.to_be_verified) (Ev.applied (.an a.aid) .submit)) :=
        c5quiet_logEv v _ _ (ev_applied_an_ne a.aid .submit v)
      have hInv3 := c5quiet_inv rank v M hq3 hInv2
      have hsub3 : memOK (logEv (setAnState (logEv w
          (Ev.invoked (.an a.aid) .submit (snapMarks w)))
          a.aid AState.to_be_verified) (Ev.applied (.an a.aid) .submit)) a.aid = true := by
        rw [memOK_congr hq3.1 a.aid]
        exact memOK_setAnState_self _ a.aid
      exact (c5_after_submit rank v M hMne f (c5_master_all rank v M hMne f)
        { a with state := AState.to_be_verified } _ hInv3).2.1 a.aid hsub3

theorem c5_fold (rank : Nat → Nat) (v : Nat) (M : List Nat) (hMne : M ≠ []) (F : Nat) :
    ∀ (p : List Nat) (w : World), C5Inv rank v M w → C5Phi v M w →
      (∀ j ∈ p, rank j + 2 ≤ F + 1) →
      C5Inv rank v M (p.foldl (fun w j => (doActionFor (F + 1) w (.an j) .submit).1) w) ∧
      C5Phi v M (p.foldl (fun w j => (doActionFor (F + 1) w (.an j) .submit).1) w) ∧
      (∀ j, memOK w j = true →
        memOK (p.foldl (fun w j => (doActionFor (F + 1) w (.an j) .submit).1) w) j = true) ∧
      (∀ j ∈ p, memOK (p.foldl (fun w j => (doActionFor (F + 1) w (.an j) .submit).1) w) j
        = true) := by
  intro p
  induction p with
  | nil => exact fun w hInv hphi _ => ⟨hInv, hphi, fun j h => h, by simp⟩
  | cons j js ihp =>
    intro w hInv hphi hrk
    obtain ⟨inv1, mono1, phi1⟩ := c5_master_all rank v M hMne (F + 1) w (.an j) hInv
    have hphi1 := phi1 (hrk j (List.mem_cons_self j js)) hphi
    have hsub1 : memOK (doActionFor (F + 1) w (.an j) .submit).1 j = true :=
      c5_direct_submitted rank v M hMne F w j hInv
    obtain ⟨inv2, phi2, mono2, all2⟩ := ihp _ inv1 hphi1
      (fun j2 hj2 => hrk j2 (List.mem_cons_of_mem j hj2))
    refine ⟨inv2, phi2, fun j2 h => mono2 j2 (mono1 j2 h), ?_⟩
    intro j2 hj2
    rcases List.mem_cons.mp hj2 with rfl | hj2m
    · exact mono2 j2 hsub1
    · exact all2 j2 hj2m

/-- C5: submitting every member of an open worksheet, one at a time in any
order (each submission running its full cascade, including promotion to
dependencies, to the worksheet, and to the sample), drives the worksheet to
its submitted state with exactly one applied worksheet-submit transition, and
the final worksheet state is the same for any two orders.  `rank` is any
measure strictly decreasing along dependency edges (the dependency graph is
acyclic), and `R + 2` units of fuel cover the deepest cascade. -/
theorem C5_worksheet_submit_order_independence
    (R : Nat) (rank : Nat → Nat) (v : Nat) (M : List Nat) (w : World) (p q : List Nat)
    (hp : p.Perm M) (hq : q.Perm M)
    (hws : ∃ ws, getWs w v = some ws ∧ ws.members = M ∧ ws.state = WSState.open_)
    (htr : w.trace = []) (hMne : M ≠ [])
    (hwf : ∀ x ∈ w.analyses, (x.worksheetId = some v ↔ x.aid ∈ M) ∧
      ∀ d ∈ x.dependencies, rank d < rank x.aid)
    (hrk : ∀ j ∈ M, rank j + 2 ≤ R + 2)
    (hstates : ∀ j ∈ M, ∃ x, getAn w j = some x ∧
      (x.state = AState.unassigned ∨ x.state = AState.assigned)) :
    (∃ ws2, getWs (p.foldl (fun w j => (doActionFor (R + 2) w (.an j) .submit).1) w) v =
        some ws2 ∧ ws2.state = WSState.to_be_verified) ∧
    appliedCount (p.foldl (fun w j => (doActionFor (R + 2) w (.an j) .submit).1) w).trace
      (.ws v) .submit = 1 ∧
    (getWs (p.foldl (fun w j => (doActionFor (R + 2) w (.an j) .submit).1) w) v).map
        (fun o => o.state) =
      (getWs (q.foldl (fun w j => (doActionFor (R + 2) w (.an j) .submit).1) w) v).map
        (fun o => o.state) := by
  have hInv0 : C5Inv rank v M w := by
    obtain ⟨ws, h1, h2, h3⟩ := hws
    refine ⟨hwf, ws, h1, h2, Or.inl ⟨h3, ?_⟩⟩
    show w.trace.countP _ = 0
    rw [htr]
    rfl
  have hPhi0 : C5Phi v M w := by
    intro hall
    obtain ⟨j0, hj0⟩ := List.exists_mem_of_ne_nil M hMne
    obtain ⟨x, hx, hst⟩ := hstates j0 hj0
    have hfalse : memOK w j0 = false := by
      unfold memOK
      simp only [hx]
      rcases hst with h | h <;> rw [h] <;> rfl
    have htrue := List.all_eq_true.mp hall j0 hj0
    rw [hfalse] at htrue
    cases htrue
  have hfp := c5_fold rank v M hMne (R + 1) p w hInv0 hPhi0
    (fun j hj => hrk j (hp.mem_iff.mp hj))
  have hfq := c5_fold rank v M hMne (R + 1) q w hInv0 hPhi0
    (fun j hj => hrk j (hq.mem_iff.mp hj))
  have hallp : M.all (memOK
      (p.foldl (fun w j => (doActionFor (R + 1 + 1) w (.an j) .submit).1) w)) = true :=
    List.all_eq_true.mpr (fun j hj => hfp.2.2.2 j (hp.mem_iff.mpr hj))
  have hallq : M.all (memOK
      (q.foldl (fun w j => (doActionFor (R + 1 + 1) w (.an j) .submit).1) w)) = true :=
    List.all_eq_true.mpr (fun j hj => hfq.2.2.2 j (hq.mem_iff.mpr hj))
  obtain ⟨ws2, hws2, htbv2⟩ := hfp.2.1 hallp
  obtain ⟨ws2q, hws2q, htbv2q⟩ := hfq.2.1 hallq
  obtain ⟨ws3, hws3, _, hdisj⟩ := hfp.1.2
  have hws32 : ws3 = ws2 := Option.some.inj (hws3.symm.trans hws2)
  rw [hws32] at hdisj
  refine ⟨⟨ws2, hws2, htbv2⟩, ?_, ?_⟩
  · rcases hdisj with ⟨hopen, _⟩ | ⟨_, _, hc⟩
    · rw [htbv2] at hopen
      exact absurd hopen (fun h => WSState.noConfusion h)
    · exact hc
  · show (getWs (p.foldl (fun w j => (doActionFor (R + 1 + 1) w (.an j) .submit).1) w) v).map
        (fun o => o.state) = _
    rw [hws2]
    show _ = (getWs (q.foldl (fun w j =>
      (doActionFor (R + 1 + 1) w (.an j) .submit).1) w) v).map (fun o => o.state)
    rw [hws2q]
    simp [htbv2, htbv2q]

def c5w : World :=
  { analyses :=
      [ { aid := 1, state := .unassigned, worksheetId := some 7 }
      , { aid := 2, state := .unassigned, worksheetId := some 7 } ]
    worksheets := [{ wid := 7, state := .open_, members := [1, 2] }] }

/-- Witness for C5: both submission orders of worksheet 7's members promote
the worksheet exactly once and agree on its final state. -/
theorem C5_worksheet_submit_order_independence_witness :
    appliedCount ([1, 2].foldl (fun w j => (doActionFor 4 w (.an j) .submit).1) c5w).trace
      (.ws 7) .submit = 1 ∧
    (getWs ([1, 2].foldl (fun w j => (doActionFor 4 w (.an j) .submit).1) c5w) 7).map
        (fun o => o.state) =
      (getWs ([2, 1].foldl (fun w j => (doActionFor 4 w (.an j) .submit).1) c5w) 7).map
        (fun o => o.state) := by
  have hst : ∀ j ∈ ([1, 2] : List Nat), ∃ x, getAn c5w j = some x ∧
      (x.state = AState.unassigned ∨ x.state = AState.assigned) := by
    intro j hj
    rcases List.mem_cons.mp hj with rfl | hj2
    · exact ⟨_, rfl, Or.inl rfl⟩
    · rcases List.mem_cons.mp hj2 with rfl | h3
      · exact ⟨_, rfl, Or.inl rfl⟩
      · exact absurd h3 (List.not_mem_nil j)
  obtain ⟨h1, h2, h3⟩ := C5_worksheet_submit_order_independence 2 (fun i => i) 7 [1, 2] c5w
    [1, 2] [2, 1] (by decide) (by decide)
    ⟨{ wid := 7, state := .open_, members := [1, 2] }, by decide, rfl, rfl⟩
    rfl (by decide) (by decide) (by decide) hst
  exact ⟨h2, h3⟩

/-! ### C10 witness -/

/-- Witness for C10 on a concrete retract cascade with a dependent. -/
theorem C10_marker_set_before_cascade_witness :
    markerOf .retract = some MName.retractedM ∧
    ∀ ev ∈ (runAfter (fun w e t => doActionFor 5 w e t) .retract
        { aid := 1, state := AState.retracted, dependents := [2] }
        { analyses :=
            [ { aid := 1, state := AState.retracted, dependents := [2] }
            , { aid := 2, state := AState.to_be_verified, dependencies := [1] } ] }).trace,
      ev ∈ ([] : List Ev) ∨ obsEv 1 .retractedM ev = true :=
  ⟨rfl,
   C10_marker_set_before_cascade 5 .retract .retractedM
     { aid := 1, state := AState.retracted, dependents := [2] }
     { analyses :=
         [ { aid := 1, state := AState.retracted, dependents := [2] }
         , { aid := 2, state := AState.to_be_verified, dependencies := [1] } ] }
     rfl (by decide)⟩

end Senaite
